import Mathlib

/-!
Shallow embedding of the `svgmaze` maze generator.

The embedding follows `src/prng.c`, `src/strings.c`, `src/grid.c`,
`src/maze.c` and `src/main.c`.  Machine integers are modelled as `Nat`
with explicit reduction modulo `2 ^ 64` / `2 ^ 32` where the C code
relies on wrap-around; signed `int` coordinates are modelled as `Int`.
Raw array indexing is modelled as a checked access returning
`Except GErr _`, so that an out-of-bounds access is observable, and the
recursive generator carries an explicit fuel parameter (`.error .fuel`
signals exhausted fuel, never an out-of-bounds access).
-/

namespace Svgmaze

/-! ### PRNG (src/prng.c) -/

def PCG32_INITSTATE : Nat := 0x853c49e6748fea9b

def PCG32_INITINC : Nat := 0xda3e39cb94b95bdb

structure pcg32_state where
  state : Nat
  inc : Nat
deriving DecidableEq

/-- One draw of the minimal PCG32 generator, `pcg32_nextuint` in src/prng.c:
the 64-bit state update `oldstate * 6364136223846793005 + (inc | 1)` and the
XSH-RR output function over 32-bit words. -/
def pcg32_nextuint (rng : pcg32_state) : Nat × pcg32_state :=
  let oldstate := rng.state
  let newstate := (oldstate * 6364136223846793005 + (rng.inc ||| 1)) % 2 ^ 64
  let xorshifted := (((oldstate >>> 18) ^^^ oldstate) >>> 27) % 2 ^ 32
  let rot := oldstate >>> 59
  let out := (xorshifted >>> rot) ||| ((xorshifted <<< (((2 ^ 32 - rot) % 2 ^ 32) &&& 31)) % 2 ^ 32)
  (out, ⟨newstate, rng.inc⟩)

/-- `pcg32_srand` from src/prng.c: overwrite both halves of the generator
state (the previous state is discarded entirely). -/
def pcg32_srand (_rng : pcg32_state) (state inc : Nat) : pcg32_state :=
  ⟨state % 2 ^ 64, inc % 2 ^ 64⟩

/-- `prng_srand` from src/prng.c: seed the global stream, with the fixed
increment `PCG32_INITINC`. -/
def prng_srand (rng : pcg32_state) (seed : Nat) : pcg32_state :=
  pcg32_srand rng seed PCG32_INITINC

/-- The global stream's initial value (src/prng.c, `srng`). -/
def srng_init : pcg32_state := ⟨PCG32_INITSTATE, PCG32_INITINC⟩

/-- The list of the first `n` outputs drawn from state `rng`. -/
def prng_draws : Nat → pcg32_state → List Nat
  | 0, _ => []
  | n + 1, rng =>
    let d := pcg32_nextuint rng
    d.1 :: prng_draws n d.2

/-! ### String hashing (src/strings.c) -/

def strhash_loop (hash : Nat) : List Nat → Nat
  | [] => hash
  | b :: rest => strhash_loop ((37 * hash + b) % 2 ^ 64) rest

/-- `strhash` from src/strings.c (and duplicated in src/main.c): C strings
are modelled as their list of bytes up to the terminating NUL. -/
def strhash (str : List Nat) : Nat := strhash_loop 57 str

/-! ### Grid (src/grid.c) -/

structure grid where
  columns : Nat
  rows : Nat
  cells : List Nat
deriving DecidableEq

/-- `grid_alloc_init`: a `columns × rows` row-major cell buffer filled with
`initval`. -/
def grid_alloc_init (columns rows : Nat) (initval : Nat) : grid :=
  ⟨columns, rows, List.replicate (columns * rows) initval⟩

inductive GErr where
  | oob
  | fuel
deriving DecidableEq

/-- Signed 2-D point (the `pt` struct of src/maze.c). -/
structure pt where
  x : Int
  y : Int
deriving DecidableEq

def grid_inb (g : grid) (p : pt) : Prop :=
  0 ≤ p.x ∧ p.x < (g.columns : Int) ∧ 0 ≤ p.y ∧ p.y < (g.rows : Int)

instance (g : grid) (p : pt) : Decidable (grid_inb g p) := by
  unfold grid_inb; infer_instance

def grid_idx (g : grid) (p : pt) : Nat := p.y.toNat * g.columns + p.x.toNat

/-- Checked read of `g->cells[p.y * g->columns + p.x]`. -/
def grid_get (g : grid) (p : pt) : Except GErr Nat :=
  if grid_inb g p then .ok (g.cells.getD (grid_idx g p) 0) else .error .oob

/-- Checked write of `g->cells[p.y * g->columns + p.x] = v`. -/
def grid_set (g : grid) (p : pt) (v : Nat) : Except GErr grid :=
  if grid_inb g p then .ok ⟨g.columns, g.rows, g.cells.set (grid_idx g p) v⟩
  else .error .oob

/-- Unchecked cell view with unsigned coordinates (used by the renderers,
which index `cells[y * columns + x]` over loop counters). -/
def cellN (g : grid) (x y : Nat) : Nat := g.cells.getD (y * g.columns + x) 0

/-! ### Maze generator (src/maze.c) -/

/-- The direction table `{{1,0},{-1,0},{0,1},{0,-1}}` of `maze_visit`. -/
def directions (i : Fin 4) : pt :=
  if i.val = 0 then ⟨1, 0⟩
  else if i.val = 1 then ⟨-1, 0⟩
  else if i.val = 2 then ⟨0, 1⟩
  else ⟨0, -1⟩

/-- The rejection draw of `maze_visit`: draw `prng_nextuint() % 4` and
re-draw as long as the drawn slot is already marked done. -/
def prng_pick_free : Nat → pcg32_state → (Fin 4 → Bool) → Except GErr (Fin 4 × pcg32_state)
  | 0, _, _ => .error .fuel
  | fuel + 1, rng, done =>
    if done ⟨(pcg32_nextuint rng).1 % 4, Nat.mod_lt (pcg32_nextuint rng).1 (by omega)⟩ then
      prng_pick_free fuel (pcg32_nextuint rng).2 done
    else
      .ok (⟨(pcg32_nextuint rng).1 % 4, Nat.mod_lt (pcg32_nextuint rng).1 (by omega)⟩,
        (pcg32_nextuint rng).2)

/-- The two mutually recursive pieces of `maze_visit`: the body of the
function (`.visit curr prev`) and its direction-shuffling `while` loop
(`.loop curr done`). -/
inductive mazeCall where
  | visit (curr prev : pt)
  | loop (curr : pt) (done : Fin 4 → Bool)

/-- `maze_visit` from src/maze.c, fuelled.  The `.visit` case is the body:
out-of-bounds and already-visited base cases, marking the walk cell, carving
the room cell and the connecting cell, then entering the shuffle loop.  The
`.loop` case runs `while (!done[0] || !done[1] || !done[2] || !done[3])`,
each iteration drawing a not-yet-done direction by rejection and recursing
into the neighbour. -/
def maze_step : Nat → grid → grid → pcg32_state → mazeCall → Except GErr (grid × grid × pcg32_state)
  | 0, _, _, _, _ => .error .fuel
  | fuel + 1, walk_grid, maze_grid, rng, .visit curr prev =>
    if curr.x < 0 ∨ (walk_grid.columns : Int) ≤ curr.x ∨ curr.y < 0 ∨ (walk_grid.rows : Int) ≤ curr.y then
      .ok (walk_grid, maze_grid, rng)
    else
      grid_get walk_grid curr >>= fun wv =>
      if wv ≠ 0 then
        .ok (walk_grid, maze_grid, rng)
      else
        grid_set walk_grid curr 1 >>= fun walk1 =>
        grid_set maze_grid ⟨curr.x * 2 + 1, curr.y * 2 + 1⟩ 0 >>= fun maze1 =>
        grid_set maze1 ⟨curr.x * 2 + 1 + (prev.x - curr.x), curr.y * 2 + 1 + (prev.y - curr.y)⟩ 0 >>=
          fun maze2 =>
        maze_step fuel walk1 maze2 rng (.loop curr (fun _ => false))
  | fuel + 1, walk_grid, maze_grid, rng, .loop curr done =>
    if done 0 && done 1 && done 2 && done 3 then
      .ok (walk_grid, maze_grid, rng)
    else
      prng_pick_free (fuel + 1) rng done >>= fun pick =>
      maze_step fuel walk_grid maze_grid pick.2
          (.visit ⟨curr.x + (directions pick.1).x, curr.y + (directions pick.1).y⟩ curr) >>=
        fun step =>
      maze_step fuel step.1 step.2.1 step.2.2
        (.loop curr (fun i => if i = pick.1 then true else done i))

def maze_visit (fuel : Nat) (walk_grid maze_grid : grid) (rng : pcg32_state) (curr prev : pt) :
    Except GErr (grid × grid × pcg32_state) :=
  maze_step fuel walk_grid maze_grid rng (.visit curr prev)

/-- `maze_generate` from src/maze.c: allocate the walk tracker and the
all-walls maze grid, pick a random start room, run the recursive walk, and
return the maze grid (the walk grid is discarded).  The maze grid's
dimensions `columns * 2 + 1` and `rows * 2 + 1` are computed in `u32`
arithmetic, so they wrap modulo `2 ^ 32`. -/
def maze_generate (fuel : Nat) (columns rows : Nat) (rng : pcg32_state) :
    Except GErr (grid × pcg32_state) :=
  maze_step fuel (grid_alloc_init columns rows 0)
      (grid_alloc_init ((columns * 2 + 1) % 2 ^ 32) ((rows * 2 + 1) % 2 ^ 32) 1)
      (pcg32_nextuint (pcg32_nextuint rng).2).2
      (.visit
        ⟨Int.ofNat ((pcg32_nextuint rng).1 % columns),
          Int.ofNat ((pcg32_nextuint (pcg32_nextuint rng).2).1 % rows)⟩
        ⟨Int.ofNat ((pcg32_nextuint rng).1 % columns),
          Int.ofNat ((pcg32_nextuint (pcg32_nextuint rng).2).1 % rows)⟩) >>=
    fun out => .ok (out.2.1, out.2.2)

/-! ### ASCII renderer (src/maze.c, maze_draw_ascii) -/

def maze_draw_ascii (maze : grid) (fg bg : String) : String :=
  String.join ((List.range maze.rows).map fun y =>
    (String.join ((List.range maze.columns).map fun x =>
      if cellN maze x y ≠ 0 then fg else bg)) ++ "\n")

/-! ### SVG renderer (src/maze.c, maze_draw_svg) -/

structure svg_opts where
  pen_radius : Nat
  corridor_width : Nat
  fg_color : String

structure svg_line where
  x1 : Nat
  y1 : Nat
  x2 : Nat
  y2 : Nat
deriving DecidableEq

/-- Horizontal pass, inner wall run: `while (x < x_ && cells[y*x_+x]) { if
(x % 2 != 0) x2 += cw; ++x; }`.  Returns the new `x` and `x2`.  The cursor
`x2` is a `u32`, so the addition wraps modulo `2 ^ 32`. -/
def svg_wall_scan_h (maze : grid) (cw y : Nat) : Nat → Nat → Nat → Nat × Nat
  | 0, x, x2 => (x, x2)
  | fuel + 1, x, x2 =>
    if x < maze.columns ∧ cellN maze x y ≠ 0 then
      svg_wall_scan_h maze cw y fuel (x + 1)
        (if x % 2 ≠ 0 then (x2 + cw) % 2 ^ 32 else x2)
    else (x, x2)

/-- Horizontal pass, inner open run: `while (x < x_ && !cells[y*x_+x]) { x2
+= cw; x1 = x2; ++x; }`.  Returns the new `x` and `x2` (the new `x1` equals
the new `x2` whenever at least one cell was consumed). -/
def svg_open_scan_h (maze : grid) (cw y : Nat) : Nat → Nat → Nat → Nat × Nat
  | 0, x, x2 => (x, x2)
  | fuel + 1, x, x2 =>
    if x < maze.columns ∧ cellN maze x y = 0 then
      svg_open_scan_h maze cw y fuel (x + 1) ((x2 + cw) % 2 ^ 32)
    else (x, x2)

/-- Horizontal pass, outer loop over one even row `y`: scan a wall run, emit
a line when `x2 > x1`, scan an open run, repeat while `x < columns`. -/
def svg_row_h (maze : grid) (cw ypos y : Nat) : Nat → Nat → Nat → Nat → List svg_line
  | 0, _, _, _ => []
  | fuel + 1, x, x1, x2 =>
    if x < maze.columns then
      let wall := svg_wall_scan_h maze cw y (maze.columns - x) x x2
      let emitted := if wall.2 > x1 then [⟨x1, ypos, wall.2, ypos⟩] else []
      let opened := svg_open_scan_h maze cw y (maze.columns - wall.1) wall.1 wall.2
      let x1' := if wall.1 < opened.1 then opened.2 else x1
      emitted ++ svg_row_h maze cw ypos y fuel opened.1 x1' opened.2
    else []

/-- Horizontal pass: rows `y = 0, 2, 4, …`, the `u32` cursor `ypos`
advancing by `cw` modulo `2 ^ 32`. -/
def svg_rows_h (maze : grid) (cw : Nat) : Nat → Nat → Nat → List svg_line
  | 0, _, _ => []
  | fuel + 1, y, ypos =>
    if y < maze.rows then
      svg_row_h maze cw ypos y (maze.columns + 1) 0 0 0 ++
        svg_rows_h maze cw fuel (y + 2) ((ypos + cw) % 2 ^ 32)
    else []

/-- Vertical pass, inner wall run (the `u32` cursor update `y2 += cw`,
wrapping modulo `2 ^ 32`, only on odd `y`). -/
def svg_wall_scan_v (maze : grid) (cw x : Nat) : Nat → Nat → Nat → Nat × Nat
  | 0, y, y2 => (y, y2)
  | fuel + 1, y, y2 =>
    if y < maze.rows ∧ cellN maze x y ≠ 0 then
      svg_wall_scan_v maze cw x fuel (y + 1)
        (if y % 2 ≠ 0 then (y2 + cw) % 2 ^ 32 else y2)
    else (y, y2)

/-- Vertical pass, inner open run. -/
def svg_open_scan_v (maze : grid) (cw x : Nat) : Nat → Nat → Nat → Nat × Nat
  | 0, y, y2 => (y, y2)
  | fuel + 1, y, y2 =>
    if y < maze.rows ∧ cellN maze x y = 0 then
      svg_open_scan_v maze cw x fuel (y + 1) ((y2 + cw) % 2 ^ 32)
    else (y, y2)

/-- Vertical pass, outer loop over one even column `x`. -/
def svg_col_v (maze : grid) (cw xpos x : Nat) : Nat → Nat → Nat → Nat → List svg_line
  | 0, _, _, _ => []
  | fuel + 1, y, y1, y2 =>
    if y < maze.rows then
      let wall := svg_wall_scan_v maze cw x (maze.rows - y) y y2
      let emitted := if wall.2 > y1 then [⟨xpos, y1, xpos, wall.2⟩] else []
      let opened := svg_open_scan_v maze cw x (maze.rows - wall.1) wall.1 wall.2
      let y1' := if wall.1 < opened.1 then opened.2 else y1
      emitted ++ svg_col_v maze cw xpos x fuel opened.1 y1' opened.2
    else []

/-- Vertical pass: columns `x = 0, 2, 4, …`, the `u32` cursor `xpos`
advancing by `cw` modulo `2 ^ 32`. -/
def svg_cols_v (maze : grid) (cw : Nat) : Nat → Nat → Nat → List svg_line
  | 0, _, _ => []
  | fuel + 1, x, xpos =>
    if x < maze.columns then
      svg_col_v maze cw xpos x (maze.rows + 1) 0 0 0 ++
        svg_cols_v maze cw fuel (x + 2) ((xpos + cw) % 2 ^ 32)
    else []

/-- All `<line>` elements of `maze_draw_svg`, in emission order: the
horizontal pass over even rows, then the vertical pass over even columns. -/
def svg_all_lines (maze : grid) (cw : Nat) : List svg_line :=
  svg_rows_h maze cw (maze.rows + 1) 0 0 ++ svg_cols_v maze cw (maze.columns + 1) 0 0

/-- The `viewBox` attribute value: `0 0 (columns/2)*cw (rows/2)*cw` with C
integer division; the `u32` products wrap modulo `2 ^ 32`. -/
def svg_viewbox (maze : grid) (cw : Nat) : String :=
  "0 0 " ++ toString ((maze.columns / 2) * cw % 2 ^ 32) ++ " " ++
    toString ((maze.rows / 2) * cw % 2 ^ 32)

def svg_render_line (l : svg_line) : String :=
  "<line x1='" ++ toString l.x1 ++ "' y1='" ++ toString l.y1 ++
    "' x2='" ++ toString l.x2 ++ "' y2='" ++ toString l.y2 ++ "'/>"

/-- `maze_draw_svg` from src/maze.c as the emitted document text. -/
def maze_draw_svg (maze : grid) (opts : svg_opts) : String :=
  "<?xml version='1.0' standalone='no'?>\n" ++
    "<svg xmlns='http://www.w3.org/2000/svg' viewBox='" ++
    svg_viewbox maze opts.corridor_width ++ "'>" ++
    "<g stroke-linecap='round' stroke-width='" ++ toString opts.pen_radius ++
    "' stroke='" ++ opts.fg_color ++ "'>" ++
    String.join ((svg_all_lines maze opts.corridor_width).map svg_render_line) ++
    "</g>" ++ "</svg>\n"

/-! ### Argument handling (src/main.c) -/

structure main_opts where
  random_seed : Nat
  columns : Nat
  rows : Nat
  corridor_width : Nat
  pen_radius : Nat
  fg_color : List Nat
  output : List Nat
deriving DecidableEq

/-- The option defaults of `main` (src/main.c lines 296-305).  `fg_color`
is the byte string "black" and `output` the byte string "ascii". -/
def main_defaults : main_opts :=
  { random_seed := PCG32_INITSTATE
    columns := 8
    rows := 8
    corridor_width := 5
    pen_radius := 1
    fg_color := [98, 108, 97, 99, 107]
    output := [97, 115, 99, 105, 105] }

def strtoul10_loop (acc : Nat) : List Nat → Nat
  | [] => acc
  | b :: rest => if 48 ≤ b ∧ b ≤ 57 then strtoul10_loop (acc * 10 + (b - 48)) rest else acc

/-- Base-10 `strtoul` on a byte string (digit prefix). -/
def strtoul10 (s : List Nat) : Nat := strtoul10_loop 0 s

/-- The argument-processing loop of `main` (src/main.c lines 308-393).
Arguments are byte strings; `none` means the program exits before seeding
the PRNG (usage error or `-v`), `some opts` means execution continues into
seeding and generation with the accumulated options.  Option bytes: `-` 45,
`r` 114, `w` 119, `h` 104, `c` 99, `p` 112, `o` 111, `f` 102, `v` 118. -/
def parse_args : main_opts → List (List Nat) → Option main_opts
  | opts, [] => some opts
  | _, [] :: _ => none
  | _, (_ :: []) :: _ => none
  | opts, (c0 :: c1 :: a) :: rest =>
      if c0 = 45 then
          if c1 = 114 then
            if a = [] then none else parse_args { opts with random_seed := strhash a } rest
          else if c1 = 119 then
            if a = [] then none else parse_args { opts with columns := strtoul10 a % 2 ^ 32 } rest
          else if c1 = 104 then
            if a = [] then none else parse_args { opts with rows := strtoul10 a % 2 ^ 32 } rest
          else if c1 = 99 then
            if a = [] then none else parse_args { opts with corridor_width := strtoul10 a % 2 ^ 32 } rest
          else if c1 = 112 then
            if a = [] then none else parse_args { opts with pen_radius := strtoul10 a % 2 ^ 32 } rest
          else if c1 = 111 then
            if a = [] then none else parse_args { opts with output := a } rest
          else if c1 = 102 then
            if a = [] then none else parse_args { opts with fg_color := a } rest
          else if c1 = 45 then
            if a = [] then some opts else none
          else if c1 = 118 then none
          else none
      else none

/-- The PRNG state `main` installs before generating, as a function of the
argument list and the previous global stream value `g`
(src/main.c line 395). -/
def main_seed_state (args : List (List Nat)) (g : pcg32_state) : Option pcg32_state :=
  (parse_args main_defaults args).map fun opts => pcg32_srand g opts.random_seed PCG32_INITINC

/-- The complete deterministic pipeline used by the determinism claim:
seed from `seed` (overwriting the arbitrary previous global state `g`),
generate, and render both ways. -/
def program_output (fuel : Nat) (g : pcg32_state) (seed columns rows : Nat)
    (opts : svg_opts) (fg bg : String) : Except GErr (String × String) :=
  maze_generate fuel columns rows (prng_srand g seed) >>= fun out =>
  .ok (maze_draw_ascii out.1 fg bg, maze_draw_svg out.1 opts)

/-! ### Definitions used to state the claims -/

/-- A genuine 32-bit right rotation, as the specification words it:
`(x >> rot) | (x << ((-rot) & 31))` over 32-bit words (`-rot` being 32-bit
two's-complement negation `(2^32 - rot) mod 2^32`). -/
def rotate_right_32 (x rot : Nat) : Nat :=
  (x >>> rot) ||| ((x <<< (((2 ^ 32 - rot) % 2 ^ 32) &&& 31)) % 2 ^ 32)

/-- An argument list in which no argument is a `-r` option. -/
def no_r_opt (args : List (List Nat)) : Prop :=
  ∀ a ∈ args, ∀ t : List Nat, a ≠ 45 :: 114 :: t

/-- `prev` is one unit step away from `curr` in one of the four lattice
directions. -/
def unit_adj (curr prev : pt) : Prop :=
  (prev.x - curr.x = 1 ∧ prev.y = curr.y) ∨ (prev.x - curr.x = -1 ∧ prev.y = curr.y) ∨
    (prev.x = curr.x ∧ prev.y - curr.y = 1) ∨ (prev.x = curr.x ∧ prev.y - curr.y = -1)

/-- The precondition each `maze_step` call satisfies during generation:
a `.visit` is entered with `prev` equal to `curr` or an in-bounds walk cell
one step away, and a `.loop` runs on an in-bounds `curr`. -/
def call_ok (w : grid) : mazeCall → Prop
  | .visit curr prev => prev = curr ∨ (unit_adj curr prev ∧ grid_inb w prev)
  | .loop curr _ => grid_inb w curr

deriving instance DecidableEq for Except

/-- Walk-grid cell `(i, j)` is marked visited. -/
def visitedN (w : grid) (i j : Nat) : Prop := w.cells.getD (j * w.columns + i) 0 ≠ 0

instance (w : grid) (i j : Nat) : Decidable (visitedN w i j) := by
  unfold visitedN; infer_instance

/-- All four lattice neighbours of a visited cell are visited (stated so as
to avoid natural subtraction). -/
def closed_at (w : grid) (i j : Nat) : Prop :=
  (i + 1 < w.columns → visitedN w (i + 1) j) ∧
    (∀ i' : Nat, i = i' + 1 → visitedN w i' j) ∧
    (j + 1 < w.rows → visitedN w i (j + 1)) ∧
    (∀ j' : Nat, j = j' + 1 → visitedN w i j')

/-- The neighbour of `c` in direction `k` is visited whenever it is in
bounds. -/
def visited_nbr (w : grid) (c : pt) (k : Fin 4) : Prop :=
  grid_inb w ⟨c.x + (directions k).x, c.y + (directions k).y⟩ →
    visitedN w (c.x + (directions k).x).toNat (c.y + (directions k).y).toNat

/-- Two rooms of the walk lattice are adjacent (differ by one step in one
coordinate). -/
def adjRooms (a b : Nat × Nat) : Prop :=
  (a.1 = b.1 ∧ (a.2 + 1 = b.2 ∨ b.2 + 1 = a.2)) ∨
    (a.2 = b.2 ∧ (a.1 + 1 = b.1 ∨ b.1 + 1 = a.1))

instance (a b : Nat × Nat) : Decidable (adjRooms a b) := by
  unfold adjRooms; infer_instance

/-- The spec's reading of the maze grid as a graph on rooms: two adjacent
rooms are joined exactly when the mixed-parity cell between room `(i,j)`
(at maze cell `(2i+1, 2j+1)`) and its neighbour has been carved to 0. -/
def carvedEdge (m : grid) (a b : Nat × Nat) : Prop :=
  adjRooms a b ∧ cellN m (a.1 + b.1 + 1) (a.2 + b.2 + 1) = 0

instance (m : grid) (a b : Nat × Nat) : Decidable (carvedEdge m a b) := by
  unfold carvedEdge; infer_instance

/-- The room graph of a maze grid over a `W × H` room lattice. -/
def roomGraph (m : grid) (W H : Nat) : SimpleGraph (Fin W × Fin H) where
  Adj p q := carvedEdge m (p.1.val, p.2.val) (q.1.val, q.2.val)
  symm := by
    intro p q h
    obtain ⟨h1, h2⟩ := h
    refine ⟨?_, ?_⟩
    · unfold adjRooms at h1 ⊢
      dsimp only at h1 ⊢
      omega
    · dsimp only at h2 ⊢
      rw [show p.1.val + q.1.val + 1 = q.1.val + p.1.val + 1 by omega,
        show p.2.val + q.2.val + 1 = q.2.val + p.2.val + 1 by omega] at h2
      exact h2
  loopless := fun p h => by
    have h1 := h.1; simp only [adjRooms] at h1; omega

instance (m : grid) (W H : Nat) : DecidableRel (roomGraph m W H).Adj :=
  fun _ _ => inferInstanceAs (Decidable (carvedEdge m _ _))

/-- Carved horizontal-neighbour walls, indexed by the left room. -/
def hWalls (m : grid) (W H : Nat) : Finset (Nat × Nat) :=
  (Finset.range W ×ˢ Finset.range H).filter
    (fun ij => ij.1 + 1 < W ∧ cellN m (2 * ij.1 + 2) (2 * ij.2 + 1) = 0)

/-- Carved vertical-neighbour walls, indexed by the top room. -/
def vWalls (m : grid) (W H : Nat) : Finset (Nat × Nat) :=
  (Finset.range W ×ˢ Finset.range H).filter
    (fun ij => ij.2 + 1 < H ∧ cellN m (2 * ij.1 + 1) (2 * ij.2 + 2) = 0)

def wallCount (m : grid) (W H : Nat) : Nat :=
  (hWalls m W H).card + (vWalls m W H).card

/-- Number of visited rooms of the walk grid. -/
def visitCount (w : grid) (W H : Nat) : Nat :=
  ((Finset.range W ×ˢ Finset.range H).filter (fun ij => visitedN w ij.1 ij.2)).card

/-- Number of mixed-parity cells of the maze grid carved to 0. -/
def mixedCarvedCount (m : grid) : Nat :=
  ((Finset.range m.columns ×ˢ Finset.range m.rows).filter
    (fun xy => (xy.1 + xy.2) % 2 = 1 ∧ cellN m xy.1 xy.2 = 0)).card

/-- Strengthened call precondition for the spanning-tree invariant: the
top-level `.visit` (with `prev = curr`) starts on an all-unvisited walk grid,
every recursive `.visit` comes from a visited in-bounds `prev`, and a `.loop`
runs on a visited in-bounds `curr`. -/
def call_ok2 (w : grid) : mazeCall → Prop
  | .visit curr prev =>
    (prev = curr ∧ ∀ i j, ¬ visitedN w i j) ∨
      (unit_adj curr prev ∧ grid_inb w prev ∧ visitedN w prev.x.toNat prev.y.toNat)
  | .loop curr _ => grid_inb w curr ∧ visitedN w curr.x.toNat curr.y.toNat

/-- Number of fresh rooms a call visits without carving a wall: 1 for the
top-level call on a fresh in-bounds start, 0 otherwise. -/
def extraOf (w : grid) : mazeCall → Nat
  | .visit curr prev =>
    if prev = curr ∧ grid_inb w curr ∧ ¬ visitedN w curr.x.toNat curr.y.toNat then 1 else 0
  | .loop _ _ => 0

/-- The spanning-tree invariant of the walker over a `W × H` room lattice:
every carved wall joins two visited rooms, the boundary walls are intact,
visited rooms are mutually reachable in the room graph, and the room graph
is acyclic. -/
def treeInv (W H : Nat) (w m : grid) : Prop :=
  (∀ i j, i + 1 < W → j < H → cellN m (2 * i + 2) (2 * j + 1) = 0 →
    visitedN w i j ∧ visitedN w (i + 1) j) ∧
  (∀ i j, i < W → j + 1 < H → cellN m (2 * i + 1) (2 * j + 2) = 0 →
    visitedN w i j ∧ visitedN w i (j + 1)) ∧
  (∀ j, j < H → cellN m 0 (2 * j + 1) ≠ 0 ∧ cellN m (2 * W) (2 * j + 1) ≠ 0) ∧
  (∀ i, i < W → cellN m (2 * i + 1) 0 ≠ 0 ∧ cellN m (2 * i + 1) (2 * H) ≠ 0) ∧
  (∀ p q : Fin W × Fin H,
    visitedN w p.1.val p.2.val → visitedN w q.1.val q.2.val →
    (roomGraph m W H).Reachable p q) ∧
  (roomGraph m W H).IsAcyclic

/-- Iterated LCG state update of the PCG32 stream with increment `c`. -/
def lcgIter (c : Nat) : Nat → Nat → Nat
  | 0, s => s
  | n + 1, s => lcgIter c n ((s * 6364136223846793005 + c) % 2 ^ 64)

/-- Partial geometric sum `1 + A + ... + A^(n-1)` of the PCG32 multiplier. -/
def geomS : Nat → Nat
  | 0 => 0
  | n + 1 => geomS n + 6364136223846793005 ^ n

/-- Iterated state advance of the PCG32 stream. -/
def rngIter : Nat → pcg32_state → pcg32_state
  | 0, r => r
  | n + 1, r => rngIter n (pcg32_nextuint r).2

/-- The XSH-RR output of `pcg32_nextuint` as a function of the old state. -/
def pcg32_out (s : Nat) : Nat :=
  (((((s >>> 18) ^^^ s) >>> 27) % 2 ^ 32) >>> (s >>> 59)) |||
    ((((((s >>> 18) ^^^ s) >>> 27) % 2 ^ 32) <<<
        (((2 ^ 32 - (s >>> 59)) % 2 ^ 32) &&& 31)) % 2 ^ 32)

/-- Number of free direction slots. -/
def doneCount (done : Fin 4 → Bool) : Nat :=
  (Finset.univ.filter (fun i : Fin 4 => done i = false)).card

/-! ### Helper lemmas about list-backed cell buffers -/

theorem getD_set_self (l : List Nat) (i v : Nat) (h : i < l.length) :
    (l.set i v).getD i 0 = v := by
  simp [List.getD_eq_getElem?_getD, List.getElem?_set_self', List.getElem?_eq_getElem, h]

theorem getD_set_other (l : List Nat) (i j v : Nat) (h : i ≠ j) :
    (l.set i v).getD j 0 = l.getD j 0 := by
  simp [List.getD_eq_getElem?_getD, List.getElem?_set_ne h]

theorem getD_replicate (n i v : Nat) (h : i < n) : (List.replicate n v).getD i 0 = v := by
  simp [List.getD_eq_getElem?_getD, List.getElem?_replicate, h]

/-- Row-major index decoding: with both column offsets in range, equal
linear indices force equal coordinates. -/
theorem rowmajor_inj {C i1 j1 i2 j2 : Nat} (h1 : i1 < C) (h2 : i2 < C)
    (h : j1 * C + i1 = j2 * C + i2) : i1 = i2 ∧ j1 = j2 := by
  have e1 : (i1 + j1 * C) % C = i1 := by
    rw [Nat.add_mul_mod_self_right, Nat.mod_eq_of_lt h1]
  have e2 : (i2 + j2 * C) % C = i2 := by
    rw [Nat.add_mul_mod_self_right, Nat.mod_eq_of_lt h2]
  have d1 : (i1 + j1 * C) / C = j1 := by
    rw [Nat.add_mul_div_right _ _ (by omega : 0 < C), Nat.div_eq_of_lt h1]; omega
  have d2 : (i2 + j2 * C) / C = j2 := by
    rw [Nat.add_mul_div_right _ _ (by omega : 0 < C), Nat.div_eq_of_lt h2]; omega
  have h' : i1 + j1 * C = i2 + j2 * C := by omega
  constructor
  · rw [← e1, ← e2, h']
  · rw [← d1, ← d2, h']

/-! ### C3: the PCG32 step -/

theorem shift59_lt (s : Nat) (hs : s < 2 ^ 64) : s >>> 59 < 2 ^ 5 := by
  rw [Nat.shiftRight_eq_div_pow]
  apply (Nat.div_lt_iff_lt_mul (by positivity)).2
  calc s < 2 ^ 64 := hs
    _ = 2 ^ 5 * 2 ^ 59 := by norm_num

/-- C3: one PCG32 draw updates the state to
`old * 6364136223846793005 + (inc | 1)` modulo `2 ^ 64`, leaves `inc`
unchanged, and returns `rotate_right_32 xorshifted rot` where
`xorshifted = ((old >> 18) xor old) >> 27` truncated to 32 bits and
`rot = old >> 59` truncated to 5 bits. -/
theorem claim_C3_pcg32_step (s : pcg32_state) (hs : s.state < 2 ^ 64) :
    (pcg32_nextuint s).2.state = (s.state * 6364136223846793005 + (s.inc ||| 1)) % 2 ^ 64 ∧
    (pcg32_nextuint s).2.inc = s.inc ∧
    (pcg32_nextuint s).1 =
      rotate_right_32 ((((s.state >>> 18) ^^^ s.state) >>> 27) % 2 ^ 32)
        ((s.state >>> 59) % 2 ^ 5) := by
  refine ⟨rfl, rfl, ?_⟩
  rw [Nat.mod_eq_of_lt (shift59_lt s.state hs)]
  rfl

theorem claim_C3_witness :
    (12345 : Nat) < 2 ^ 64 ∧
      ((pcg32_nextuint ⟨12345, 67⟩).2.state =
          ((12345 : Nat) * 6364136223846793005 + ((67 : Nat) ||| 1)) % 2 ^ 64 ∧
        (pcg32_nextuint ⟨12345, 67⟩).2.inc = 67 ∧
        (pcg32_nextuint ⟨12345, 67⟩).1 =
          rotate_right_32 (((((12345 : Nat) >>> 18) ^^^ 12345) >>> 27) % 2 ^ 32)
            (((12345 : Nat) >>> 59) % 2 ^ 5)) :=
  ⟨by norm_num, claim_C3_pcg32_step ⟨12345, 67⟩ (by norm_num)⟩

/-! ### C5: strhash -/

theorem strhash_loop_foldl (s : List Nat) :
    ∀ h : Nat, strhash_loop h s = s.foldl (fun h b => (37 * h + b) % 2 ^ 64) h := by
  induction s with
  | nil => intro h; rfl
  | cons b t ih => intro h; simpa [strhash_loop] using ih ((37 * h + b) % 2 ^ 64)

/-- C5: `strhash` is exactly the fold starting at 57 with step
`hash ← (37 * hash + b) mod 2 ^ 64` over the bytes in order; in particular
`strhash "" = 57`.  (Determinism and independence of process state are
inherent: `strhash` is a pure function of the byte string.) -/
theorem claim_C5_strhash :
    strhash [] = 57 ∧
      (∀ str : List Nat, strhash str = str.foldl (fun h b => (37 * h + b) % 2 ^ 64) 57) ∧
      (∀ (str : List Nat) (b : Nat), strhash (str ++ [b]) = (37 * strhash str + b) % 2 ^ 64) := by
  refine ⟨rfl, fun str => strhash_loop_foldl str 57, fun str b => ?_⟩
  rw [strhash, strhash_loop_foldl, List.foldl_append, strhash, strhash_loop_foldl]
  rfl

/-! ### C4: determinism -/

theorem prng_srand_const (g1 g2 : pcg32_state) (seed : Nat) :
    prng_srand g1 seed = prng_srand g2 seed := rfl

/-- C4: the draw sequence after seeding is a pure function of the seed (the
previous global stream value `g` is irrelevant), and consequently the
generated maze grid and both rendered outputs agree between two runs with
identical seed, width and height. -/
theorem claim_C4_determinism (g1 g2 : pcg32_state) (seed n fuel W H : Nat)
    (opts : svg_opts) (fg bg : String) :
    prng_draws n (prng_srand g1 seed) = prng_draws n (prng_srand g2 seed) ∧
      maze_generate fuel W H (prng_srand g1 seed) = maze_generate fuel W H (prng_srand g2 seed) ∧
      program_output fuel g1 seed W H opts fg bg = program_output fuel g2 seed W H opts fg bg := by
  refine ⟨?_, ?_, ?_⟩
  · rw [prng_srand_const g1 g2 seed]
  · rw [prng_srand_const g1 g2 seed]
  · simp only [program_output, prng_srand_const g1 g2 seed]

/-! ### C6: the default seed -/

theorem parse_args_seed :
    ∀ (args : List (List Nat)) (o opts : main_opts), no_r_opt args →
      parse_args o args = some opts → opts.random_seed = o.random_seed := by
  intro args
  induction args with
  | nil =>
    intro o opts _ h
    simp only [parse_args, Option.some.injEq] at h
    rw [← h]
  | cons arg rest ih =>
    intro o opts hno h
    have hno' : no_r_opt rest := fun a ha t => hno a (List.mem_cons_of_mem _ ha) t
    cases arg with
    | nil => exact Option.noConfusion h
    | cons c0 arg1 =>
      cases arg1 with
      | nil => exact Option.noConfusion h
      | cons c1 a =>
        simp only [parse_args] at h
        by_cases hc0 : c0 = 45
        · rw [if_pos hc0] at h
          by_cases h114 : c1 = 114
          · exact absurd (show c0 :: c1 :: a = 45 :: 114 :: a by rw [hc0, h114])
              (hno _ (List.mem_cons_self _ _) a)
          rw [if_neg h114] at h
          by_cases h119 : c1 = 119
          · rw [if_pos h119] at h
            by_cases ha : a = []
            · rw [if_pos ha] at h; exact Option.noConfusion h
            · rw [if_neg ha] at h; exact (ih _ opts hno' h).trans rfl
          rw [if_neg h119] at h
          by_cases h104 : c1 = 104
          · rw [if_pos h104] at h
            by_cases ha : a = []
            · rw [if_pos ha] at h; exact Option.noConfusion h
            · rw [if_neg ha] at h; exact (ih _ opts hno' h).trans rfl
          rw [if_neg h104] at h
          by_cases h99 : c1 = 99
          · rw [if_pos h99] at h
            by_cases ha : a = []
            · rw [if_pos ha] at h; exact Option.noConfusion h
            · rw [if_neg ha] at h; exact (ih _ opts hno' h).trans rfl
          rw [if_neg h99] at h
          by_cases h112 : c1 = 112
          · rw [if_pos h112] at h
            by_cases ha : a = []
            · rw [if_pos ha] at h; exact Option.noConfusion h
            · rw [if_neg ha] at h; exact (ih _ opts hno' h).trans rfl
          rw [if_neg h112] at h
          by_cases h111 : c1 = 111
          · rw [if_pos h111] at h
            by_cases ha : a = []
            · rw [if_pos ha] at h; exact Option.noConfusion h
            · rw [if_neg ha] at h; exact (ih _ opts hno' h).trans rfl
          rw [if_neg h111] at h
          by_cases h102 : c1 = 102
          · rw [if_pos h102] at h
            by_cases ha : a = []
            · rw [if_pos ha] at h; exact Option.noConfusion h
            · rw [if_neg ha] at h; exact (ih _ opts hno' h).trans rfl
          rw [if_neg h102] at h
          by_cases h45 : c1 = 45
          · rw [if_pos h45] at h
            by_cases ha : a = []
            · rw [if_pos ha] at h
              rw [Option.some.inj h]
            · rw [if_neg ha] at h; exact Option.noConfusion h
          rw [if_neg h45] at h
          by_cases h118 : c1 = 118
          · rw [if_pos h118] at h; exact Option.noConfusion h
          · rw [if_neg h118] at h; exact Option.noConfusion h
        · rw [if_neg hc0] at h
          exact Option.noConfusion h

/-- C6 is false as stated: with no arguments at all (hence no `-r` option)
the parsed options carry `random_seed = 0x853c49e6748fea9b` and `main`
seeds the PRNG with that value, which is not 1 (and differs from the state
seeding with 1 would install). -/
theorem claim_C6_counterexample :
    main_seed_state [] srng_init = some ⟨0x853c49e6748fea9b, 0xda3e39cb94b95bdb⟩ ∧
      main_seed_state [] srng_init ≠ some (prng_srand srng_init 1) ∧
      (0x853c49e6748fea9b : Nat) ≠ 1 := by
  refine ⟨by decide, by decide, by decide⟩

/-- C6 (amended): when the program is run without a `-r` option and reaches
generation, the PRNG is seeded with the default seed `PCG32_INITSTATE =
0x853c49e6748fea9b` (not 1). -/
theorem claim_C6_default_seed (args : List (List Nat)) (g : pcg32_state) (opts : main_opts)
    (hno : no_r_opt args) (hp : parse_args main_defaults args = some opts) :
    opts.random_seed = 0x853c49e6748fea9b ∧
      main_seed_state args g = some ⟨0x853c49e6748fea9b, 0xda3e39cb94b95bdb⟩ := by
  have h := parse_args_seed args main_defaults opts hno hp
  have h' : opts.random_seed = 0x853c49e6748fea9b := by
    rw [h]; rfl
  refine ⟨h', ?_⟩
  simp only [main_seed_state, hp, Option.map_some', pcg32_srand, h']
  norm_num [PCG32_INITINC]

/-! ### Except bind helpers -/

theorem except_bind_ok {a b : Type} (x : a) (f : a → Except GErr b) :
    (Except.ok x >>= f : Except GErr b) = f x := rfl

theorem except_bind_err {a b : Type} (e : GErr) (f : a → Except GErr b) :
    (Except.error e >>= f : Except GErr b) = Except.error e := rfl

/-! ### C7: the 1×1 maze and its SVG rendering -/

/-- In a 1×1 maze, every neighbour probe of the single room is out of
bounds, so the shuffle loop never changes either grid. -/
theorem maze_step_loop_1x1 :
    ∀ (fuel : Nat) (w m : grid) (rng : pcg32_state) (done : Fin 4 → Bool)
      (out : grid × grid × pcg32_state),
      w.columns = 1 → w.rows = 1 →
      maze_step fuel w m rng (.loop ⟨0, 0⟩ done) = .ok out →
      out.1 = w ∧ out.2.1 = m := by
  intro fuel
  induction fuel with
  | zero => intro w m rng done out _ _ h; exact Except.noConfusion h
  | succ n ih =>
    intro w m rng done out hc hr h
    rw [maze_step] at h
    split at h
    · cases h; exact ⟨rfl, rfl⟩
    · rcases hpick : prng_pick_free (n + 1) rng done with e | pick
      · rw [hpick, except_bind_err] at h; exact Except.noConfusion h
      · rw [hpick] at h
        simp only [except_bind_ok] at h
        cases n with
        | zero =>
          rw [maze_step, except_bind_err] at h
          exact Except.noConfusion h
        | succ k =>
          have hoob : maze_step (k + 1) w m pick.2
              (.visit ⟨(⟨0, 0⟩ : pt).x + (directions pick.1).x,
                (⟨0, 0⟩ : pt).y + (directions pick.1).y⟩ ⟨0, 0⟩) =
              .ok (w, m, pick.2) := by
            rw [maze_step, if_pos]
            rcases pick with ⟨r, rng2⟩
            fin_cases r
            all_goals simp [directions, hc, hr]
          rw [hoob] at h
          simp only [except_bind_ok] at h
          exact ih w m pick.2 _ out hc hr h

/-- A successful 1×1 generation always returns the 3×3 grid whose only open
cell is the centre room, regardless of the seed. -/
theorem maze_generate_1x1 (fuel : Nat) (rng : pcg32_state) (m : grid) (r2 : pcg32_state)
    (h : maze_generate fuel 1 1 rng = .ok (m, r2)) :
    m = ⟨3, 3, [1, 1, 1, 1, 0, 1, 1, 1, 1]⟩ := by
  rw [maze_generate] at h
  cases fuel with
  | zero => exact Except.noConfusion h
  | succ n =>
    rw [maze_step] at h
    simp only [Nat.mod_one, Int.ofNat_zero, grid_alloc_init] at h
    norm_num [grid_get, grid_set, grid_inb, grid_idx, except_bind_ok] at h
    rcases hstep : maze_step n ⟨1, 1, [1]⟩ ⟨3, 3, (List.replicate 9 1).set 4 0⟩
        (pcg32_nextuint (pcg32_nextuint rng).2).2 (.loop ⟨0, 0⟩ fun _ => false) with e | out
    · rw [hstep, except_bind_err] at h
      exact Except.noConfusion h
    · rw [hstep, except_bind_ok] at h
      have hm : out.2.1 = m := congrArg Prod.fst (Except.ok.inj h)
      have hl := maze_step_loop_1x1 n _ _ _ _ out rfl rfl hstep
      rw [← hm, hl.2]
      decide

set_option maxRecDepth 4000 in
/-- C7: whatever the seed, once the 1×1 generation completes it produces the
3×3 grid with a single open centre cell, and rendering it with
`corridor_width = 10`, `pen_radius = 1` yields `viewBox` value `0 0 10 10`
and exactly four `<line>` elements — top, bottom, left and right side of the
unit square. -/
theorem claim_C7_unit_svg (fuel : Nat) (rng : pcg32_state) (m : grid) (r2 : pcg32_state)
    (h : maze_generate fuel 1 1 rng = .ok (m, r2)) :
    m = ⟨3, 3, [1, 1, 1, 1, 0, 1, 1, 1, 1]⟩ ∧
      svg_viewbox m 10 = "0 0 10 10" ∧
      svg_all_lines m 10 = [⟨0, 0, 10, 0⟩, ⟨0, 10, 10, 10⟩, ⟨0, 0, 0, 10⟩, ⟨10, 0, 10, 10⟩] ∧
      (svg_all_lines m 10).length = 4 ∧
      maze_draw_svg m ⟨1, 10, "black"⟩ =
        "<?xml version='1.0' standalone='no'?>\n<svg xmlns='http://www.w3.org/2000/svg' viewBox='0 0 10 10'><g stroke-linecap='round' stroke-width='1' stroke='black'><line x1='0' y1='0' x2='10' y2='0'/><line x1='0' y1='10' x2='10' y2='10'/><line x1='0' y1='0' x2='0' y2='10'/><line x1='10' y1='0' x2='10' y2='10'/></g></svg>\n" := by
  have hm := maze_generate_1x1 fuel rng m r2 h
  subst hm
  exact ⟨rfl, by decide, by decide, by decide, by decide⟩

theorem claim_C7_witness :
    maze_generate 100 1 1 (prng_srand srng_init 1) =
        .ok (⟨3, 3, [1, 1, 1, 1, 0, 1, 1, 1, 1]⟩, ⟨11867578115898046953, 15726070495360670683⟩) ∧
      svg_viewbox (⟨3, 3, [1, 1, 1, 1, 0, 1, 1, 1, 1]⟩ : grid) 10 = "0 0 10 10" ∧
      svg_all_lines (⟨3, 3, [1, 1, 1, 1, 0, 1, 1, 1, 1]⟩ : grid) 10 =
        [⟨0, 0, 10, 0⟩, ⟨0, 10, 10, 10⟩, ⟨0, 0, 0, 10⟩, ⟨10, 0, 10, 10⟩] ∧
      (svg_all_lines (⟨3, 3, [1, 1, 1, 1, 0, 1, 1, 1, 1]⟩ : grid) 10).length = 4 := by
  have h : maze_generate 100 1 1 (prng_srand srng_init 1) =
      .ok (⟨3, 3, [1, 1, 1, 1, 0, 1, 1, 1, 1]⟩, ⟨11867578115898046953, 15726070495360670683⟩) := by
    decide
  have hc := claim_C7_unit_svg 100 (prng_srand srng_init 1) _ _ h
  exact ⟨h, hc.2.1, hc.2.2.1, hc.2.2.2.1⟩

/-! ### C8: SVG line coordinates under the u32 cursor arithmetic -/

theorem mulmod_zero (cw : Nat) : ∃ k, (0 : Nat) = k * cw % 2 ^ 32 :=
  ⟨0, by simp⟩

theorem mulmod_add {cw v : Nat} (h : ∃ k, v = k * cw % 2 ^ 32) :
    ∃ k, (v + cw) % 2 ^ 32 = k * cw % 2 ^ 32 := by
  obtain ⟨k, hk⟩ := h
  exact ⟨k + 1, by rw [hk, Nat.mod_add_mod, Nat.add_mul, Nat.one_mul]⟩

theorem svg_wall_scan_h_mul (maze : grid) (cw y : Nat) :
    ∀ fuel x x2, (∃ k, x2 = k * cw % 2 ^ 32) →
      ∃ k, (svg_wall_scan_h maze cw y fuel x x2).2 = k * cw % 2 ^ 32 := by
  intro fuel
  induction fuel with
  | zero => intro x x2 h; exact h
  | succ n ih =>
    intro x x2 h
    rw [svg_wall_scan_h]
    split
    · apply ih
      split
      · exact mulmod_add h
      · exact h
    · exact h

theorem svg_open_scan_h_mul (maze : grid) (cw y : Nat) :
    ∀ fuel x x2, (∃ k, x2 = k * cw % 2 ^ 32) →
      ∃ k, (svg_open_scan_h maze cw y fuel x x2).2 = k * cw % 2 ^ 32 := by
  intro fuel
  induction fuel with
  | zero => intro x x2 h; exact h
  | succ n ih =>
    intro x x2 h
    rw [svg_open_scan_h]
    split
    · exact ih _ _ (mulmod_add h)
    · exact h

theorem svg_row_h_mul (maze : grid) (cw ypos y : Nat) :
    ∀ fuel x x1 x2, (∃ k, x1 = k * cw % 2 ^ 32) → (∃ k, x2 = k * cw % 2 ^ 32) →
      (∃ k, ypos = k * cw % 2 ^ 32) →
      ∀ l ∈ svg_row_h maze cw ypos y fuel x x1 x2,
        (∃ k, l.x1 = k * cw % 2 ^ 32) ∧ (∃ k, l.y1 = k * cw % 2 ^ 32) ∧
          (∃ k, l.x2 = k * cw % 2 ^ 32) ∧ (∃ k, l.y2 = k * cw % 2 ^ 32) := by
  intro fuel
  induction fuel with
  | zero => intro x x1 x2 _ _ _ l hl; simp [svg_row_h] at hl
  | succ n ih =>
    intro x x1 x2 h1 h2 hy l hl
    rw [svg_row_h] at hl
    split at hl
    · have hw : ∃ k, (svg_wall_scan_h maze cw y (maze.columns - x) x x2).2 =
          k * cw % 2 ^ 32 :=
        svg_wall_scan_h_mul maze cw y _ x x2 h2
      have ho : ∃ k, (svg_open_scan_h maze cw y
          (maze.columns - (svg_wall_scan_h maze cw y (maze.columns - x) x x2).1)
          (svg_wall_scan_h maze cw y (maze.columns - x) x x2).1
          (svg_wall_scan_h maze cw y (maze.columns - x) x x2).2).2 =
          k * cw % 2 ^ 32 :=
        svg_open_scan_h_mul maze cw y _ _ _ hw
      rcases List.mem_append.1 hl with hl | hl
      · split at hl
        · rcases List.mem_singleton.1 hl with rfl
          exact ⟨h1, hy, hw, hy⟩
        · simp at hl
      · refine ih _ _ _ ?_ ho hy l hl
        split
        · exact ho
        · exact h1
    · simp at hl

theorem svg_rows_h_mul (maze : grid) (cw : Nat) :
    ∀ fuel y ypos, (∃ k, ypos = k * cw % 2 ^ 32) →
      ∀ l ∈ svg_rows_h maze cw fuel y ypos,
        (∃ k, l.x1 = k * cw % 2 ^ 32) ∧ (∃ k, l.y1 = k * cw % 2 ^ 32) ∧
          (∃ k, l.x2 = k * cw % 2 ^ 32) ∧ (∃ k, l.y2 = k * cw % 2 ^ 32) := by
  intro fuel
  induction fuel with
  | zero => intro y ypos _ l hl; simp [svg_rows_h] at hl
  | succ n ih =>
    intro y ypos hy l hl
    rw [svg_rows_h] at hl
    split at hl
    · rcases List.mem_append.1 hl with hl | hl
      · exact svg_row_h_mul maze cw ypos y _ 0 0 0 (mulmod_zero cw) (mulmod_zero cw)
          hy l hl
      · exact ih _ _ (mulmod_add hy) l hl
    · simp at hl

theorem svg_wall_scan_v_mul (maze : grid) (cw x : Nat) :
    ∀ fuel y y2, (∃ k, y2 = k * cw % 2 ^ 32) →
      ∃ k, (svg_wall_scan_v maze cw x fuel y y2).2 = k * cw % 2 ^ 32 := by
  intro fuel
  induction fuel with
  | zero => intro y y2 h; exact h
  | succ n ih =>
    intro y y2 h
    rw [svg_wall_scan_v]
    split
    · apply ih
      split
      · exact mulmod_add h
      · exact h
    · exact h

theorem svg_open_scan_v_mul (maze : grid) (cw x : Nat) :
    ∀ fuel y y2, (∃ k, y2 = k * cw % 2 ^ 32) →
      ∃ k, (svg_open_scan_v maze cw x fuel y y2).2 = k * cw % 2 ^ 32 := by
  intro fuel
  induction fuel with
  | zero => intro y y2 h; exact h
  | succ n ih =>
    intro y y2 h
    rw [svg_open_scan_v]
    split
    · exact ih _ _ (mulmod_add h)
    · exact h

theorem svg_col_v_mul (maze : grid) (cw xpos x : Nat) :
    ∀ fuel y y1 y2, (∃ k, y1 = k * cw % 2 ^ 32) → (∃ k, y2 = k * cw % 2 ^ 32) →
      (∃ k, xpos = k * cw % 2 ^ 32) →
      ∀ l ∈ svg_col_v maze cw xpos x fuel y y1 y2,
        (∃ k, l.x1 = k * cw % 2 ^ 32) ∧ (∃ k, l.y1 = k * cw % 2 ^ 32) ∧
          (∃ k, l.x2 = k * cw % 2 ^ 32) ∧ (∃ k, l.y2 = k * cw % 2 ^ 32) := by
  intro fuel
  induction fuel with
  | zero => intro y y1 y2 _ _ _ l hl; simp [svg_col_v] at hl
  | succ n ih =>
    intro y y1 y2 h1 h2 hx l hl
    rw [svg_col_v] at hl
    split at hl
    · have hw : ∃ k, (svg_wall_scan_v maze cw x (maze.rows - y) y y2).2 =
          k * cw % 2 ^ 32 :=
        svg_wall_scan_v_mul maze cw x _ y y2 h2
      have ho : ∃ k, (svg_open_scan_v maze cw x
          (maze.rows - (svg_wall_scan_v maze cw x (maze.rows - y) y y2).1)
          (svg_wall_scan_v maze cw x (maze.rows - y) y y2).1
          (svg_wall_scan_v maze cw x (maze.rows - y) y y2).2).2 =
          k * cw % 2 ^ 32 :=
        svg_open_scan_v_mul maze cw x _ _ _ hw
      rcases List.mem_append.1 hl with hl | hl
      · split at hl
        · rcases List.mem_singleton.1 hl with rfl
          exact ⟨hx, h1, hx, hw⟩
        · simp at hl
      · refine ih _ _ _ ?_ ho hx l hl
        split
        · exact ho
        · exact h1
    · simp at hl

theorem svg_cols_v_mul (maze : grid) (cw : Nat) :
    ∀ fuel x xpos, (∃ k, xpos = k * cw % 2 ^ 32) →
      ∀ l ∈ svg_cols_v maze cw fuel x xpos,
        (∃ k, l.x1 = k * cw % 2 ^ 32) ∧ (∃ k, l.y1 = k * cw % 2 ^ 32) ∧
          (∃ k, l.x2 = k * cw % 2 ^ 32) ∧ (∃ k, l.y2 = k * cw % 2 ^ 32) := by
  intro fuel
  induction fuel with
  | zero => intro x xpos _ l hl; simp [svg_cols_v] at hl
  | succ n ih =>
    intro x xpos hx l hl
    rw [svg_cols_v] at hl
    split at hl
    · rcases List.mem_append.1 hl with hl | hl
      · exact svg_col_v_mul maze cw xpos x _ 0 0 0 (mulmod_zero cw) (mulmod_zero cw)
          hx l hl
      · exact ih _ _ (mulmod_add hx) l hl
    · simp at hl

/-- C8 (amended): the SVG cursors are `u32` values, so for every input grid
and every corridor width each of the four coordinates of every emitted
`<line>` element is a multiple of the corridor width reduced modulo
`2 ^ 32` — it equals `k * cw % 2 ^ 32` for some `k`.  When a cursor
overflows (large `cw`), the coordinates need not be exact multiples of
`cw`; see the counterexample with `cw = 4294967295`. -/
theorem claim_C8_line_coords (maze : grid) (cw : Nat) (l : svg_line)
    (hl : l ∈ svg_all_lines maze cw) :
    (∃ k, l.x1 = k * cw % 2 ^ 32) ∧ (∃ k, l.y1 = k * cw % 2 ^ 32) ∧
      (∃ k, l.x2 = k * cw % 2 ^ 32) ∧ (∃ k, l.y2 = k * cw % 2 ^ 32) := by
  rcases List.mem_append.1 hl with h | h
  · exact svg_rows_h_mul maze cw _ 0 0 (mulmod_zero cw) l h
  · exact svg_cols_v_mul maze cw _ 0 0 (mulmod_zero cw) l h

theorem claim_C8_witness :
    (⟨0, 0, 10, 0⟩ : svg_line) ∈ svg_all_lines ⟨3, 3, [1, 1, 1, 1, 0, 1, 1, 1, 1]⟩ 10 ∧
      (∃ k, (0 : Nat) = k * 10 % 2 ^ 32) ∧ (∃ k, (0 : Nat) = k * 10 % 2 ^ 32) ∧
      (∃ k, (10 : Nat) = k * 10 % 2 ^ 32) ∧ (∃ k, (0 : Nat) = k * 10 % 2 ^ 32) := by
  have h : (⟨0, 0, 10, 0⟩ : svg_line) ∈ svg_all_lines ⟨3, 3, [1, 1, 1, 1, 0, 1, 1, 1, 1]⟩ 10 := by
    decide
  have hc := claim_C8_line_coords ⟨3, 3, [1, 1, 1, 1, 0, 1, 1, 1, 1]⟩ 10 ⟨0, 0, 10, 0⟩ h
  exact ⟨h, hc.1, hc.2.1, hc.2.2.1, hc.2.2.2⟩

/-- Counterexample to the original C8 reading: with
`corridor_width = 4294967295` the top wall of a 5×5 maze grid is emitted
with `x2 = (2 * 4294967295) % 2 ^ 32 = 4294967294`, which is not a multiple
of the corridor width. -/
theorem claim_C8_counterexample :
    (⟨0, 0, 4294967294, 0⟩ : svg_line) ∈
        svg_all_lines
          ⟨5, 5, [1, 1, 1, 1, 1, 1, 0, 1, 0, 1, 1, 0, 1, 0, 1, 1, 0, 0, 0, 1, 1, 1, 1, 1, 1]⟩
          4294967295 ∧
      ¬ (4294967295 : Nat) ∣ 4294967294 :=
  ⟨by decide, by omega⟩

theorem claim_C6_witness :
    no_r_opt [[45, 119, 52]] ∧
      parse_args main_defaults [[45, 119, 52]] = some { main_defaults with columns := 4 } ∧
      (({ main_defaults with columns := 4 } : main_opts).random_seed = 0x853c49e6748fea9b ∧
        main_seed_state [[45, 119, 52]] srng_init =
          some ⟨0x853c49e6748fea9b, 0xda3e39cb94b95bdb⟩) :=
  ⟨by intro a ha t; fin_cases ha; simp, by decide,
    claim_C6_default_seed [[45, 119, 52]] srng_init _
      (by intro a ha t; fin_cases ha; simp) (by decide)⟩

theorem grid_set_shape {g g' : grid} {p : pt} {v : Nat} (h : grid_set g p v = .ok g') :
    g'.columns = g.columns ∧ g'.rows = g.rows ∧ g'.cells.length = g.cells.length := by
  unfold grid_set at h
  split at h
  · cases h; exact ⟨rfl, rfl, by simp⟩
  · exact Except.noConfusion h

/-- Shape preservation: a successful `maze_step` leaves both grids'
dimensions and buffer lengths unchanged. -/
theorem maze_step_dims :
    ∀ (fuel : Nat) (w m : grid) (rng : pcg32_state) (call : mazeCall)
      (out : grid × grid × pcg32_state),
      maze_step fuel w m rng call = .ok out →
      out.1.columns = w.columns ∧ out.1.rows = w.rows ∧
        out.1.cells.length = w.cells.length ∧
        out.2.1.columns = m.columns ∧ out.2.1.rows = m.rows ∧
        out.2.1.cells.length = m.cells.length := by
  intro fuel
  induction fuel with
  | zero => intro w m rng call out h; exact Except.noConfusion h
  | succ n ih =>
    intro w m rng call out h
    cases call with
    | visit curr prev =>
      rw [maze_step] at h
      split at h
      · cases h; exact ⟨rfl, rfl, rfl, rfl, rfl, rfl⟩
      · rcases hg : grid_get w curr with e | wv
        · rw [hg, except_bind_err] at h; exact Except.noConfusion h
        · rw [hg, except_bind_ok] at h
          split at h
          · cases h; exact ⟨rfl, rfl, rfl, rfl, rfl, rfl⟩
          · rcases hs1 : grid_set w curr 1 with e | walk1
            · rw [hs1, except_bind_err] at h; exact Except.noConfusion h
            · rw [hs1, except_bind_ok] at h
              rcases hs2 : grid_set m ⟨curr.x * 2 + 1, curr.y * 2 + 1⟩ 0 with e | maze1
              · rw [hs2, except_bind_err] at h; exact Except.noConfusion h
              · rw [hs2, except_bind_ok] at h
                rcases hs3 : grid_set maze1
                    ⟨curr.x * 2 + 1 + (prev.x - curr.x), curr.y * 2 + 1 + (prev.y - curr.y)⟩ 0
                  with e | maze2
                · rw [hs3, except_bind_err] at h; exact Except.noConfusion h
                · rw [hs3, except_bind_ok] at h
                  have ihl := ih walk1 maze2 rng (.loop curr fun _ => false) out h
                  have d1 := grid_set_shape hs1
                  have d2 := grid_set_shape hs2
                  have d3 := grid_set_shape hs3
                  refine ⟨ihl.1.trans d1.1, ihl.2.1.trans d1.2.1, ihl.2.2.1.trans d1.2.2,
                    ihl.2.2.2.1.trans (d3.1.trans d2.1),
                    ihl.2.2.2.2.1.trans (d3.2.1.trans d2.2.1),
                    ihl.2.2.2.2.2.trans (d3.2.2.trans d2.2.2)⟩
    | loop curr done =>
      rw [maze_step] at h
      split at h
      · cases h; exact ⟨rfl, rfl, rfl, rfl, rfl, rfl⟩
      · rcases hpick : prng_pick_free (n + 1) rng done with e | pick
        · rw [hpick, except_bind_err] at h; exact Except.noConfusion h
        · rw [hpick, except_bind_ok] at h
          rcases hsub : maze_step n w m pick.2
              (.visit ⟨curr.x + (directions pick.1).x, curr.y + (directions pick.1).y⟩ curr)
            with e | step
          · rw [hsub, except_bind_err] at h; exact Except.noConfusion h
          · rw [hsub, except_bind_ok] at h
            have ds := ih w m pick.2 _ step hsub
            have dl := ih step.1 step.2.1 step.2.2 _ out h
            refine ⟨dl.1.trans ds.1, dl.2.1.trans ds.2.1, dl.2.2.1.trans ds.2.2.1,
              dl.2.2.2.1.trans ds.2.2.2.1, dl.2.2.2.2.1.trans ds.2.2.2.2.1,
              dl.2.2.2.2.2.trans ds.2.2.2.2.2⟩


theorem prng_pick_free_no_oob :
    ∀ (fuel : Nat) (rng : pcg32_state) (done : Fin 4 → Bool),
      prng_pick_free fuel rng done ≠ .error .oob := by
  intro fuel
  induction fuel with
  | zero => intro rng done h; exact GErr.noConfusion (Except.error.inj h)
  | succ n ih =>
    intro rng done
    rw [prng_pick_free]
    split
    · exact ih _ _
    · intro h; exact Except.noConfusion h

/-- C9 master: under the generation preconditions no call of the walker ever
fails its bounds checks. -/
theorem maze_step_no_oob :
    ∀ (fuel : Nat) (w m : grid) (rng : pcg32_state) (call : mazeCall),
      m.columns = 2 * w.columns + 1 → m.rows = 2 * w.rows + 1 →
      call_ok w call →
      maze_step fuel w m rng call ≠ .error .oob := by
  intro fuel
  induction fuel with
  | zero => intro w m rng call _ _ _ h; exact GErr.noConfusion (Except.error.inj h)
  | succ n ih =>
    intro w m rng call hmc hmr hok
    have hmc' : (m.columns : Int) = 2 * (w.columns : Int) + 1 := by exact_mod_cast hmc
    have hmr' : (m.rows : Int) = 2 * (w.rows : Int) + 1 := by exact_mod_cast hmr
    cases call with
    | visit curr prev =>
      rw [maze_step]
      split
      · intro h; exact Except.noConfusion h
      · rename_i hinb
        push_neg at hinb
        obtain ⟨h1, h2, h3, h4⟩ := hinb
        have hcin : grid_inb w curr := ⟨h1, by omega, h3, by omega⟩
        rw [grid_get, if_pos hcin, except_bind_ok]
        split
        · intro h; exact Except.noConfusion h
        · rw [grid_set, if_pos hcin, except_bind_ok]
          have hin1 : grid_inb m ⟨curr.x * 2 + 1, curr.y * 2 + 1⟩ := by
            show 0 ≤ curr.x * 2 + 1 ∧ curr.x * 2 + 1 < (m.columns : Int) ∧
              0 ≤ curr.y * 2 + 1 ∧ curr.y * 2 + 1 < (m.rows : Int)
            refine ⟨by omega, by omega, by omega, by omega⟩
          rw [grid_set, if_pos hin1, except_bind_ok]
          have hdir : (prev.x - curr.x = 0 ∧ prev.y - curr.y = 0) ∨
              (prev.x - curr.x = 1 ∧ prev.y - curr.y = 0) ∨
              (prev.x - curr.x = -1 ∧ prev.y - curr.y = 0) ∨
              (prev.x - curr.x = 0 ∧ prev.y - curr.y = 1) ∨
              (prev.x - curr.x = 0 ∧ prev.y - curr.y = -1) := by
            rcases hok with rfl | ⟨hadj, _⟩
            · exact Or.inl ⟨by omega, by omega⟩
            · rcases hadj with ⟨hx, hy⟩ | ⟨hx, hy⟩ | ⟨hx, hy⟩ | ⟨hx, hy⟩
              · exact Or.inr (Or.inl ⟨by omega, by omega⟩)
              · exact Or.inr (Or.inr (Or.inl ⟨by omega, by omega⟩))
              · exact Or.inr (Or.inr (Or.inr (Or.inl ⟨by omega, by omega⟩)))
              · exact Or.inr (Or.inr (Or.inr (Or.inr ⟨by omega, by omega⟩)))
          have hin2 : grid_inb
              ⟨m.columns, m.rows, m.cells.set (grid_idx m ⟨curr.x * 2 + 1, curr.y * 2 + 1⟩) 0⟩
              ⟨curr.x * 2 + 1 + (prev.x - curr.x), curr.y * 2 + 1 + (prev.y - curr.y)⟩ := by
            show 0 ≤ curr.x * 2 + 1 + (prev.x - curr.x) ∧
              curr.x * 2 + 1 + (prev.x - curr.x) < (m.columns : Int) ∧
              0 ≤ curr.y * 2 + 1 + (prev.y - curr.y) ∧
              curr.y * 2 + 1 + (prev.y - curr.y) < (m.rows : Int)
            rcases hdir with ⟨hx, hy⟩ | ⟨hx, hy⟩ | ⟨hx, hy⟩ | ⟨hx, hy⟩ | ⟨hx, hy⟩ <;>
              exact ⟨by omega, by omega, by omega, by omega⟩
          rw [grid_set, if_pos hin2, except_bind_ok]
          exact ih _ _ rng (.loop curr fun _ => false) hmc hmr hcin
    | loop curr done =>
      rw [maze_step]
      split
      · intro h; exact Except.noConfusion h
      · rcases hpick : prng_pick_free (n + 1) rng done with e | pick
        · rw [except_bind_err]
          cases e with
          | oob => exact absurd hpick (prng_pick_free_no_oob _ _ _)
          | fuel => intro h; exact GErr.noConfusion (Except.error.inj h)
        · rw [except_bind_ok]
          rcases pick with ⟨r, rng2⟩
          have hvc : call_ok w (.visit
              ⟨curr.x + (directions r).x, curr.y + (directions r).y⟩ curr) := by
            refine Or.inr ⟨?_, hok⟩
            fin_cases r <;> (unfold unit_adj directions; norm_num)
          rcases hsub : maze_step n w m rng2
              (.visit ⟨curr.x + (directions r).x, curr.y + (directions r).y⟩ curr) with e | step
          · rw [except_bind_err]
            cases e with
            | oob => exact absurd hsub (ih _ _ _ _ hmc hmr hvc)
            | fuel => intro hh; exact GErr.noConfusion (Except.error.inj hh)
          · rw [except_bind_ok]
            have ds := maze_step_dims n w m rng2 _ step hsub
            have hmc2 : step.2.1.columns = 2 * step.1.columns + 1 := by
              rw [ds.2.2.2.1, ds.1, hmc]
            have hmr2 : step.2.1.rows = 2 * step.1.rows + 1 := by
              rw [ds.2.2.2.2.1, ds.2.1, hmr]
            have hok' : grid_inb w curr := hok
            have hok2 : call_ok step.1 (.loop curr fun i => if i = r then true else done i) := by
              show grid_inb step.1 curr
              refine ⟨hok'.1, ?_, hok'.2.2.1, ?_⟩
              · rw [ds.1]; exact hok'.2.1
              · rw [ds.2.1]; exact hok'.2.2.2
            exact ih step.1 step.2.1 step.2.2 _ hmc2 hmr2 hok2


/-- C9: when `maze_visit` is called on a `W × H` walk grid and a
`(2W+1) × (2H+1)` maze grid with `prev` equal to `curr` or an in-bounds
cell one lattice step away, no grid index computed after the function's own
bounds check is ever out of range: the checked embedding never returns the
out-of-bounds error. -/
theorem claim_C9_no_oob (fuel : Nat) (W H : Nat) (w m : grid) (rng : pcg32_state)
    (curr prev : pt) (hwc : w.columns = W) (hwr : w.rows = H)
    (hmc : m.columns = 2 * W + 1) (hmr : m.rows = 2 * H + 1)
    (hprev : prev = curr ∨ (unit_adj curr prev ∧ grid_inb w prev)) :
    maze_visit fuel w m rng curr prev ≠ .error .oob :=
  maze_step_no_oob fuel w m rng (.visit curr prev) (by rw [hmc, hwc]) (by rw [hmr, hwr]) hprev

theorem claim_C9_witness :
    (⟨1, 1, [0]⟩ : grid).columns = 1 ∧ (⟨1, 1, [0]⟩ : grid).rows = 1 ∧
      (⟨3, 3, List.replicate 9 1⟩ : grid).columns = 2 * 1 + 1 ∧
      (⟨3, 3, List.replicate 9 1⟩ : grid).rows = 2 * 1 + 1 ∧
      maze_visit 5 ⟨1, 1, [0]⟩ ⟨3, 3, List.replicate 9 1⟩ srng_init ⟨0, 0⟩ ⟨0, 0⟩ ≠
        .error .oob :=
  ⟨rfl, rfl, rfl, rfl,
    claim_C9_no_oob 5 1 1 ⟨1, 1, [0]⟩ ⟨3, 3, List.replicate 9 1⟩ srng_init ⟨0, 0⟩ ⟨0, 0⟩
      rfl rfl rfl rfl (Or.inl rfl)⟩




theorem getD_set_general (l : List Nat) (k idx v : Nat) :
    (l.set k v).getD idx 0 = if k = idx ∧ k < l.length then v else l.getD idx 0 := by
  by_cases h1 : k = idx
  · subst h1
    by_cases h2 : k < l.length
    · rw [if_pos ⟨rfl, h2⟩]; exact getD_set_self l k v h2
    · rw [if_neg (by tauto), List.set_eq_of_length_le (by omega)]
  · rw [if_neg (by tauto)]; exact getD_set_other l k idx v h1

theorem grid_set_ok {g g' : grid} {p : pt} {v : Nat} (h : grid_set g p v = .ok g') :
    grid_inb g p ∧ g' = ⟨g.columns, g.rows, g.cells.set (grid_idx g p) v⟩ := by
  unfold grid_set at h
  split at h
  · exact ⟨by assumption, (Except.ok.inj h).symm⟩
  · exact Except.noConfusion h

theorem idx_lt {i j C R : Nat} (hi : i < C) (hj : j < R) : j * C + i < C * R :=
  calc j * C + i < j * C + C := by omega
    _ = (j + 1) * C := by ring
    _ ≤ R * C := Nat.mul_le_mul_right C hj
    _ = C * R := Nat.mul_comm R C

/-- Monotonicity: a successful `maze_step` only adds visited marks to the
walk grid and only writes zeros into the maze grid. -/
theorem maze_step_mono :
    ∀ (fuel : Nat) (w m : grid) (rng : pcg32_state) (call : mazeCall)
      (out : grid × grid × pcg32_state),
      maze_step fuel w m rng call = .ok out →
      (∀ i j, visitedN w i j → visitedN out.1 i j) ∧
        (∀ idx, m.cells.getD idx 0 = 0 → out.2.1.cells.getD idx 0 = 0) := by
  intro fuel
  induction fuel with
  | zero => intro w m rng call out h; exact Except.noConfusion h
  | succ n ih =>
    intro w m rng call out h
    cases call with
    | visit curr prev =>
      rw [maze_step] at h
      split at h
      · cases h; exact ⟨fun i j hv => hv, fun idx hz => hz⟩
      · rcases hg : grid_get w curr with e | wv
        · rw [hg, except_bind_err] at h; exact Except.noConfusion h
        · rw [hg, except_bind_ok] at h
          split at h
          · cases h; exact ⟨fun i j hv => hv, fun idx hz => hz⟩
          · rcases hs1 : grid_set w curr 1 with e | walk1
            · rw [hs1, except_bind_err] at h; exact Except.noConfusion h
            · rw [hs1, except_bind_ok] at h
              rcases hs2 : grid_set m ⟨curr.x * 2 + 1, curr.y * 2 + 1⟩ 0 with e | maze1
              · rw [hs2, except_bind_err] at h; exact Except.noConfusion h
              · rw [hs2, except_bind_ok] at h
                rcases hs3 : grid_set maze1
                    ⟨curr.x * 2 + 1 + (prev.x - curr.x), curr.y * 2 + 1 + (prev.y - curr.y)⟩ 0
                  with e | maze2
                · rw [hs3, except_bind_err] at h; exact Except.noConfusion h
                · rw [hs3, except_bind_ok] at h
                  have ihl := ih walk1 maze2 rng (.loop curr fun _ => false) out h
                  constructor
                  · intro i j hv
                    apply ihl.1
                    rw [(grid_set_ok hs1).2]
                    show (w.cells.set (grid_idx w curr) 1).getD (j * w.columns + i) 0 ≠ 0
                    rw [getD_set_general]
                    split
                    · omega
                    · exact hv
                  · intro idx hz
                    apply ihl.2
                    rw [(grid_set_ok hs3).2]
                    show ((maze1.cells.set (grid_idx maze1 _) 0)).getD idx 0 = 0
                    rw [getD_set_general]
                    split
                    · rfl
                    · rw [(grid_set_ok hs2).2]
                      show ((m.cells.set (grid_idx m _) 0)).getD idx 0 = 0
                      rw [getD_set_general]
                      split
                      · rfl
                      · exact hz
    | loop curr done =>
      rw [maze_step] at h
      split at h
      · cases h; exact ⟨fun i j hv => hv, fun idx hz => hz⟩
      · rcases hpick : prng_pick_free (n + 1) rng done with e | pick
        · rw [hpick, except_bind_err] at h; exact Except.noConfusion h
        · rw [hpick, except_bind_ok] at h
          rcases hsub : maze_step n w m pick.2
              (.visit ⟨curr.x + (directions pick.1).x, curr.y + (directions pick.1).y⟩ curr)
            with e | step
          · rw [hsub, except_bind_err] at h; exact Except.noConfusion h
          · rw [hsub, except_bind_ok] at h
            have m1 := ih w m pick.2 _ step hsub
            have m2 := ih step.1 step.2.1 step.2.2 _ out h
            exact ⟨fun i j hv => m2.1 i j (m1.1 i j hv), fun idx hz => m2.2 idx (m1.2 idx hz)⟩

/-- An in-bounds `.visit` leaves `curr` visited (it either already was, or
is marked now). -/
theorem maze_step_visits :
    ∀ (fuel : Nat) (w m : grid) (rng : pcg32_state) (curr prev : pt)
      (out : grid × grid × pcg32_state),
      maze_step fuel w m rng (.visit curr prev) = .ok out →
      w.cells.length = w.columns * w.rows →
      grid_inb w curr → visitedN out.1 curr.x.toNat curr.y.toNat := by
  intro fuel
  cases fuel with
  | zero => intro w m rng curr prev out h; exact fun _ _ => absurd h (by exact Except.noConfusion)
  | succ n =>
    intro w m rng curr prev out h hlen hin
    obtain ⟨a1, a2, a3, a4⟩ := hin
    have hin : grid_inb w curr := ⟨a1, a2, a3, a4⟩
    rw [maze_step] at h
    rw [if_neg (by push_neg; exact ⟨a1, a2, a3, a4⟩)] at h
    rw [grid_get, if_pos hin, except_bind_ok] at h
    split at h
    · rename_i hwv
      cases h
      show w.cells.getD (curr.y.toNat * w.columns + curr.x.toNat) 0 ≠ 0
      have : grid_idx w curr = curr.y.toNat * w.columns + curr.x.toNat := rfl
      rw [← this]
      exact hwv
    · rcases hs1 : grid_set w curr 1 with e | walk1
      · rw [hs1, except_bind_err] at h; exact Except.noConfusion h
      · rw [hs1, except_bind_ok] at h
        rcases hs2 : grid_set m ⟨curr.x * 2 + 1, curr.y * 2 + 1⟩ 0 with e | maze1
        · rw [hs2, except_bind_err] at h; exact Except.noConfusion h
        · rw [hs2, except_bind_ok] at h
          rcases hs3 : grid_set maze1
              ⟨curr.x * 2 + 1 + (prev.x - curr.x), curr.y * 2 + 1 + (prev.y - curr.y)⟩ 0
            with e | maze2
          · rw [hs3, except_bind_err] at h; exact Except.noConfusion h
          · rw [hs3, except_bind_ok] at h
            apply (maze_step_mono n walk1 maze2 rng _ out h).1
            rw [(grid_set_ok hs1).2]
            show (w.cells.set (grid_idx w curr) 1).getD
              (curr.y.toNat * w.columns + curr.x.toNat) 0 ≠ 0
            rw [getD_set_general]
            rw [if_pos]
            · omega
            · constructor
              · rfl
              · rw [hlen]
                exact idx_lt (by omega) (by omega)



theorem visited_nbr_transport {g1 g2 : grid} (c : pt) (k : Fin 4)
    (hmono : ∀ i j, visitedN g1 i j → visitedN g2 i j)
    (hc : g2.columns = g1.columns) (hr : g2.rows = g1.rows)
    (h : visited_nbr g1 c k) : visited_nbr g2 c k := by
  intro hinb
  exact hmono _ _ (h ⟨hinb.1, by rw [← hc]; exact hinb.2.1, hinb.2.2.1,
    by rw [← hr]; exact hinb.2.2.2⟩)

theorem closed_at_mono {g1 g2 : grid} {i j : Nat}
    (hmono : ∀ i j, visitedN g1 i j → visitedN g2 i j)
    (hc : g2.columns = g1.columns) (hr : g2.rows = g1.rows)
    (h : closed_at g1 i j) : closed_at g2 i j := by
  refine ⟨fun hl => hmono _ _ (h.1 (by rw [hc] at hl; exact hl)),
    fun i' hi => hmono _ _ (h.2.1 i' hi),
    fun hl => hmono _ _ (h.2.2.1 (by rw [hr] at hl; exact hl)),
    fun j' hj => hmono _ _ (h.2.2.2 j' hj)⟩

/-- If every direction's neighbour of the in-bounds cell `c` is visited
(when in bounds), then `c` is a closed cell. -/
theorem visited_nbr_closed (g : grid) (c : pt) (h0x : 0 ≤ c.x) (h0y : 0 ≤ c.y)
    (hx : c.x < (g.columns : Int)) (hy : c.y < (g.rows : Int))
    (h : ∀ k : Fin 4, visited_nbr g c k) : closed_at g c.x.toNat c.y.toNat := by
  have h0 := h 0
  have h1 := h 1
  have h2 := h 2
  have h3 := h 3
  unfold visited_nbr at h0 h1 h2 h3
  have e0 : directions 0 = ⟨1, 0⟩ := rfl
  have e1 : directions 1 = ⟨-1, 0⟩ := rfl
  have e2 : directions 2 = ⟨0, 1⟩ := rfl
  have e3 : directions 3 = ⟨0, -1⟩ := rfl
  rw [e0] at h0
  rw [e1] at h1
  rw [e2] at h2
  rw [e3] at h3
  refine ⟨?_, ?_, ?_, ?_⟩
  · intro hlt
    have hinb : grid_inb g ⟨c.x + (⟨1, 0⟩ : pt).x, c.y + (⟨1, 0⟩ : pt).y⟩ := by
      show 0 ≤ c.x + 1 ∧ c.x + 1 < (g.columns : Int) ∧ 0 ≤ c.y + 0 ∧ c.y + 0 < (g.rows : Int)
      refine ⟨by omega, by omega, by omega, by omega⟩
    have hv := h0 hinb
    have ex : (c.x + (⟨1, 0⟩ : pt).x).toNat = c.x.toNat + 1 := by
      show (c.x + 1).toNat = c.x.toNat + 1
      omega
    have ey : (c.y + (⟨1, 0⟩ : pt).y).toNat = c.y.toNat := by
      show (c.y + 0).toNat = c.y.toNat
      omega
    rw [ex, ey] at hv
    exact hv
  · intro i' hi
    have hinb : grid_inb g ⟨c.x + (⟨-1, 0⟩ : pt).x, c.y + (⟨-1, 0⟩ : pt).y⟩ := by
      show 0 ≤ c.x + -1 ∧ c.x + -1 < (g.columns : Int) ∧ 0 ≤ c.y + 0 ∧ c.y + 0 < (g.rows : Int)
      refine ⟨by omega, by omega, by omega, by omega⟩
    have hv := h1 hinb
    have ex : (c.x + (⟨-1, 0⟩ : pt).x).toNat = i' := by
      show (c.x + -1).toNat = i'
      omega
    have ey : (c.y + (⟨-1, 0⟩ : pt).y).toNat = c.y.toNat := by
      show (c.y + 0).toNat = c.y.toNat
      omega
    rw [ex, ey] at hv
    exact hv
  · intro hlt
    have hinb : grid_inb g ⟨c.x + (⟨0, 1⟩ : pt).x, c.y + (⟨0, 1⟩ : pt).y⟩ := by
      show 0 ≤ c.x + 0 ∧ c.x + 0 < (g.columns : Int) ∧ 0 ≤ c.y + 1 ∧ c.y + 1 < (g.rows : Int)
      refine ⟨by omega, by omega, by omega, by omega⟩
    have hv := h2 hinb
    have ex : (c.x + (⟨0, 1⟩ : pt).x).toNat = c.x.toNat := by
      show (c.x + 0).toNat = c.x.toNat
      omega
    have ey : (c.y + (⟨0, 1⟩ : pt).y).toNat = c.y.toNat + 1 := by
      show (c.y + 1).toNat = c.y.toNat + 1
      omega
    rw [ex, ey] at hv
    exact hv
  · intro j' hj
    have hinb : grid_inb g ⟨c.x + (⟨0, -1⟩ : pt).x, c.y + (⟨0, -1⟩ : pt).y⟩ := by
      show 0 ≤ c.x + 0 ∧ c.x + 0 < (g.columns : Int) ∧ 0 ≤ c.y + -1 ∧ c.y + -1 < (g.rows : Int)
      refine ⟨by omega, by omega, by omega, by omega⟩
    have hv := h3 hinb
    have ex : (c.x + (⟨0, -1⟩ : pt).x).toNat = c.x.toNat := by
      show (c.x + 0).toNat = c.x.toNat
      omega
    have ey : (c.y + (⟨0, -1⟩ : pt).y).toNat = j' := by
      show (c.y + -1).toNat = j'
      omega
    rw [ex, ey] at hv
    exact hv


/-- DFS closure: every cell newly visited by a successful call has all its
in-bounds neighbours visited on return, and a completed shuffle loop leaves
all four neighbours of its centre visited. -/
theorem maze_step_closure :
    ∀ (fuel : Nat) (w m : grid) (rng : pcg32_state) (call : mazeCall)
      (out : grid × grid × pcg32_state),
      maze_step fuel w m rng call = .ok out →
      w.cells.length = w.columns * w.rows →
      (∀ curr prev, call = .visit curr prev →
        ∀ i j, i < w.columns → j < w.rows → visitedN out.1 i j → ¬visitedN w i j →
          closed_at out.1 i j) ∧
      (∀ curr done2, call = .loop curr done2 →
        (∀ k : Fin 4, done2 k = true → visited_nbr w curr k) →
        (∀ i j, i < w.columns → j < w.rows → visitedN out.1 i j → ¬visitedN w i j →
            closed_at out.1 i j) ∧
          (∀ k : Fin 4, visited_nbr out.1 curr k)) := by
  intro fuel
  induction fuel with
  | zero => intro w m rng call out h hlen; exact Except.noConfusion h
  | succ n ih =>
    intro w m rng call out h hlen
    cases call with
    | visit curr prev =>
      refine ⟨?_, fun c d hcd => mazeCall.noConfusion hcd⟩
      intro c p hcp i j hi hj hv hnv
      injection hcp with hc hp
      subst hc
      subst hp
      rw [maze_step] at h
      split at h
      · cases h; exact absurd hv hnv
      · rcases hg : grid_get w curr with e | wv
        · rw [hg, except_bind_err] at h; exact Except.noConfusion h
        · rw [hg, except_bind_ok] at h
          split at h
          · cases h; exact absurd hv hnv
          · rcases hs1 : grid_set w curr 1 with e | walk1
            · rw [hs1, except_bind_err] at h; exact Except.noConfusion h
            · rw [hs1, except_bind_ok] at h
              rcases hs2 : grid_set m ⟨curr.x * 2 + 1, curr.y * 2 + 1⟩ 0 with e | maze1
              · rw [hs2, except_bind_err] at h; exact Except.noConfusion h
              · rw [hs2, except_bind_ok] at h
                rcases hs3 : grid_set maze1
                    ⟨curr.x * 2 + 1 + (prev.x - curr.x), curr.y * 2 + 1 + (prev.y - curr.y)⟩ 0
                  with e | maze2
                · rw [hs3, except_bind_err] at h; exact Except.noConfusion h
                · rw [hs3, except_bind_ok] at h
                  obtain ⟨hinb1, hw1eq⟩ := grid_set_ok hs1
                  have hlen1 : walk1.cells.length = walk1.columns * walk1.rows := by
                    rw [hw1eq]
                    show (w.cells.set (grid_idx w curr) 1).length = w.columns * w.rows
                    rw [List.length_set]
                    exact hlen
                  have ihl := (ih walk1 maze2 rng _ out h hlen1).2 curr (fun _ => false) rfl
                    (fun k hk => absurd hk (by simp))
                  by_cases hv1 : visitedN walk1 i j
                  · have hdecode : i = curr.x.toNat ∧ j = curr.y.toNat := by
                      unfold visitedN at hv1 hnv
                      rw [hw1eq] at hv1
                      dsimp only at hv1
                      rw [getD_set_general] at hv1
                      split at hv1
                      · rename_i hcond
                        have hidx : curr.y.toNat * w.columns + curr.x.toNat =
                            j * w.columns + i := hcond.1
                        have hxlt : curr.x.toNat < w.columns := by
                          have := hinb1.2.1
                          omega
                        obtain ⟨e1, e2⟩ := rowmajor_inj hxlt hi hidx
                        exact ⟨e1.symm, e2.symm⟩
                      · exact absurd hv1 hnv
                    obtain ⟨rfl, rfl⟩ := hdecode
                    have ds := maze_step_dims n walk1 maze2 rng _ out h
                    apply visited_nbr_closed out.1 curr hinb1.1 hinb1.2.2.1 ?_ ?_ ihl.2
                    · rw [ds.1, hw1eq]
                      exact hinb1.2.1
                    · rw [ds.2.1, hw1eq]
                      exact hinb1.2.2.2
                  · refine ihl.1 i j ?_ ?_ hv hv1
                    · rw [hw1eq]; exact hi
                    · rw [hw1eq]; exact hj
    | loop curr done2 =>
      rw [maze_step] at h
      split at h
      · rename_i hall
        cases h
        refine ⟨fun c p hcp => mazeCall.noConfusion hcp, ?_⟩
        intro c d hcd hdone
        injection hcd with hc hd
        subst hc
        subst hd
        refine ⟨fun i j _ _ hv hnv => absurd hv hnv, ?_⟩
        intro k
        apply hdone
        simp only [Bool.and_eq_true] at hall
        fin_cases k
        · exact hall.1.1.1
        · exact hall.1.1.2
        · exact hall.1.2
        · exact hall.2
      · rcases hpick : prng_pick_free (n + 1) rng done2 with e | pick
        · rw [hpick, except_bind_err] at h; exact Except.noConfusion h
        · rw [hpick, except_bind_ok] at h
          rcases hsub : maze_step n w m pick.2
              (.visit ⟨curr.x + (directions pick.1).x, curr.y + (directions pick.1).y⟩ curr)
            with e | step
          · rw [hsub, except_bind_err] at h; exact Except.noConfusion h
          · rw [hsub, except_bind_ok] at h
            refine ⟨fun c p hcp => mazeCall.noConfusion hcp, ?_⟩
            intro c d hcd hdone
            injection hcd with hc hd
            subst hc
            subst hd
            have ds := maze_step_dims n w m pick.2 _ step hsub
            have msub := maze_step_mono n w m pick.2 _ step hsub
            have hlen1 : step.1.cells.length = step.1.columns * step.1.rows := by
              rw [ds.2.2.1, ds.1, ds.2.1]
              exact hlen
            have hdone' : ∀ k : Fin 4, (if k = pick.1 then true else done2 k) = true →
                visited_nbr step.1 curr k := by
              intro k hk
              by_cases hkr : k = pick.1
              · intro hinb
                rw [hkr] at hinb
                rw [hkr]
                have hinbw : grid_inb w
                    ⟨curr.x + (directions pick.1).x, curr.y + (directions pick.1).y⟩ :=
                  ⟨hinb.1, by rw [← ds.1]; exact hinb.2.1, hinb.2.2.1,
                    by rw [← ds.2.1]; exact hinb.2.2.2⟩
                exact maze_step_visits n w m pick.2 _ curr step hsub hlen hinbw
              · rw [if_neg hkr] at hk
                exact visited_nbr_transport curr k msub.1 ds.1 ds.2.1 (hdone k hk)
            have ihl := (ih step.1 step.2.1 step.2.2 _ out h hlen1).2 curr _ rfl hdone'
            constructor
            · intro i j hi hj hv hnv
              by_cases hv1 : visitedN step.1 i j
              · have ihv := (ih w m pick.2 _ step hsub hlen).1 _ curr rfl i j hi hj hv1 hnv
                have ml := maze_step_mono n step.1 step.2.1 step.2.2 _ out h
                have dl := maze_step_dims n step.1 step.2.1 step.2.2 _ out h
                exact closed_at_mono ml.1 dl.1 dl.2.1 ihv
              · refine ihl.1 i j ?_ ?_ hv hv1
                · rw [ds.1]; exact hi
                · rw [ds.2.1]; exact hj
            · exact ihl.2


/-- A nonempty subset of the W × H lattice that is closed under in-bounds
neighbours is the whole lattice. -/
theorem lattice_closed_full (W H : Nat) (S : Nat → Nat → Prop)
    (closed : ∀ i j, i < W → j < H → S i j →
      ((i + 1 < W → S (i + 1) j) ∧ (∀ i' : Nat, i = i' + 1 → S i' j) ∧
        (j + 1 < H → S i (j + 1)) ∧ (∀ j' : Nat, j = j' + 1 → S i j')))
    (si sj : Nat) (hsi : si < W) (hsj : sj < H) (hs : S si sj) :
    ∀ i j, i < W → j < H → S i j := by
  have row : ∀ i, i < W → S i sj := by
    have up : ∀ d, si + d < W → S (si + d) sj := by
      intro d
      induction d with
      | zero => intro _; simpa using hs
      | succ k ihk =>
        intro hlt
        have hk : si + k < W := by omega
        have hstep := (closed _ _ hk hsj (ihk hk)).1 (by omega)
        have he : si + k + 1 = si + (k + 1) := by omega
        rw [he] at hstep
        exact hstep
    have dn : ∀ d, d ≤ si → S (si - d) sj := by
      intro d
      induction d with
      | zero => intro _; simpa using hs
      | succ k ihk =>
        intro hle
        have hv := ihk (by omega)
        have hstep := (closed _ _ (by omega) hsj hv).2.1 (si - (k + 1)) (by omega)
        exact hstep
    intro i hi
    rcases le_or_lt si i with hle | hlt
    · have he : i = si + (i - si) := by omega
      rw [he]
      exact up _ (by omega)
    · have he : i = si - (si - i) := by omega
      rw [he]
      exact dn _ (by omega)
  intro i j hi hj
  have base := row i hi
  have upv : ∀ d, sj + d < H → S i (sj + d) := by
    intro d
    induction d with
    | zero => intro _; simpa using base
    | succ k ihk =>
      intro hlt
      have hk : sj + k < H := by omega
      have hstep := (closed _ _ hi hk (ihk hk)).2.2.1 (by omega)
      have he : sj + k + 1 = sj + (k + 1) := by omega
      rw [he] at hstep
      exact hstep
  have dnv : ∀ d, d ≤ sj → S i (sj - d) := by
    intro d
    induction d with
    | zero => intro _; simpa using base
    | succ k ihk =>
      intro hle
      have hv := ihk (by omega)
      have hstep := (closed _ _ hi (by omega) hv).2.2.2 (sj - (k + 1)) (by omega)
      exact hstep
  rcases le_or_lt sj j with hle | hlt
  · have he : j = sj + (j - sj) := by omega
    rw [he]
    exact upv _ (by omega)
  · have he : j = sj - (sj - j) := by omega
    rw [he]
    exact dnv _ (by omega)

theorem getD_replicate_zero (n idx : Nat) : (List.replicate n 0).getD idx 0 = 0 := by
  by_cases h : idx < n
  · exact getD_replicate n idx 0 h
  · rw [List.getD_eq_getElem?_getD, List.getElem?_eq_none (by simpa using by omega)]
    rfl

/-- After a successful top-level walk from an in-bounds start on a fresh
walk grid, every walk cell is visited. -/
theorem maze_step_all_visited (fuel : Nat) (W H : Nat) (m0 : grid) (rng : pcg32_state)
    (start : pt) (out : grid × grid × pcg32_state)
    (hs : grid_inb (grid_alloc_init W H 0) start)
    (h : maze_step fuel (grid_alloc_init W H 0) m0 rng (.visit start start) = .ok out) :
    ∀ i j, i < W → j < H → visitedN out.1 i j := by
  have hlen : (grid_alloc_init W H 0).cells.length =
      (grid_alloc_init W H 0).columns * (grid_alloc_init W H 0).rows := by
    show (List.replicate (W * H) 0).length = W * H
    simp
  have hnv : ∀ i j, ¬ visitedN (grid_alloc_init W H 0) i j := by
    intro i j hv
    exact hv (getD_replicate_zero _ _)
  have hcl := (maze_step_closure fuel _ m0 rng _ out h hlen).1 start start rfl
  have hvis := maze_step_visits fuel _ m0 rng start start out h hlen hs
  have ds := maze_step_dims fuel _ m0 rng _ out h
  have dsc : out.1.columns = W := ds.1
  have dsr : out.1.rows = H := ds.2.1
  obtain ⟨b1, b2, b3, b4⟩ := hs
  refine lattice_closed_full W H (fun i j => visitedN out.1 i j) ?_
    start.x.toNat start.y.toNat (by simp only [grid_alloc_init] at b2; omega)
    (by simp only [grid_alloc_init] at b4; omega) hvis
  intro i j hi hj hv
  have hc := hcl i j hi hj hv (hnv i j)
  exact ⟨fun hl => hc.1 (by rw [dsc]; exact hl),
    fun i' hi' => hc.2.1 i' hi',
    fun hl => hc.2.2.1 (by rw [dsr]; exact hl),
    fun j' hj' => hc.2.2.2 j' hj'⟩


/-- Carve invariant: if every visited room is carved in the maze grid, this
remains true after any successful call. -/
theorem maze_step_rooms :
    ∀ (fuel : Nat) (w m : grid) (rng : pcg32_state) (call : mazeCall)
      (out : grid × grid × pcg32_state),
      maze_step fuel w m rng call = .ok out →
      m.cells.length = m.columns * m.rows →
      m.columns = 2 * w.columns + 1 → m.rows = 2 * w.rows + 1 →
      (∀ i j, i < w.columns → j < w.rows → visitedN w i j →
        cellN m (2 * i + 1) (2 * j + 1) = 0) →
      ∀ i j, i < w.columns → j < w.rows → visitedN out.1 i j →
        cellN out.2.1 (2 * i + 1) (2 * j + 1) = 0 := by
  intro fuel
  induction fuel with
  | zero => intro w m rng call out h; exact Except.noConfusion h
  | succ n ih =>
    intro w m rng call out h hmlen hmc hmr hinv
    cases call with
    | visit curr prev =>
      rw [maze_step] at h
      split at h
      · cases h; exact hinv
      · rcases hg : grid_get w curr with e | wv
        · rw [hg, except_bind_err] at h; exact Except.noConfusion h
        · rw [hg, except_bind_ok] at h
          split at h
          · cases h; exact hinv
          · rcases hs1 : grid_set w curr 1 with e | walk1
            · rw [hs1, except_bind_err] at h; exact Except.noConfusion h
            · rw [hs1, except_bind_ok] at h
              rcases hs2 : grid_set m ⟨curr.x * 2 + 1, curr.y * 2 + 1⟩ 0 with e | maze1
              · rw [hs2, except_bind_err] at h; exact Except.noConfusion h
              · rw [hs2, except_bind_ok] at h
                rcases hs3 : grid_set maze1
                    ⟨curr.x * 2 + 1 + (prev.x - curr.x), curr.y * 2 + 1 + (prev.y - curr.y)⟩ 0
                  with e | maze2
                · rw [hs3, except_bind_err] at h; exact Except.noConfusion h
                · rw [hs3, except_bind_ok] at h
                  obtain ⟨hinb1, hw1eq⟩ := grid_set_ok hs1
                  obtain ⟨hinb2, hm1eq⟩ := grid_set_ok hs2
                  obtain ⟨hinb3, hm2eq⟩ := grid_set_ok hs3
                  have hm1len : maze1.cells.length = m.cells.length := by
                    rw [hm1eq]; exact List.length_set m.cells _ 0
                  have hm2len : maze2.cells.length = m.cells.length := by
                    rw [hm2eq, List.length_set]; exact hm1len
                  have hinv1 : ∀ i j, i < walk1.columns → j < walk1.rows →
                      visitedN walk1 i j → cellN maze2 (2 * i + 1) (2 * j + 1) = 0 := by
                    intro i j hi hj hv
                    have hmc2 : maze2.columns = m.columns := by
                      rw [hm2eq]
                      show maze1.columns = m.columns
                      rw [hm1eq]
                    unfold cellN
                    rw [hmc2]
                    have hroom_lt : (2 * j + 1) * m.columns + (2 * i + 1) < m.cells.length := by
                      rw [hmlen]
                      refine idx_lt ?_ ?_
                      · rw [hw1eq] at hi; rw [hmc]
                        have : i < w.columns := hi
                        omega
                      · rw [hw1eq] at hj; rw [hmr]
                        have : j < w.rows := hj
                        omega
                    have znew : ∀ idx, maze1.cells.getD idx 0 = 0 →
                        maze2.cells.getD idx 0 = 0 := by
                      intro idx hz
                      rw [hm2eq]
                      show (maze1.cells.set (grid_idx maze1 _) 0).getD idx 0 = 0
                      rw [getD_set_general]
                      split
                      · rfl
                      · exact hz
                    unfold visitedN at hv
                    rw [hw1eq] at hv
                    dsimp only at hv
                    rw [getD_set_general] at hv
                    rename' hv => hv2
                    revert hv2
                    split
                    · rename_i hcond
                      intro _
                      have hxlt : curr.x.toNat < w.columns := by
                        have := hinb1.2.1; omega
                      have hylt : curr.y.toNat < w.rows := by
                        have := hinb1.2.2.2; omega
                      obtain ⟨e1, e2⟩ := rowmajor_inj hxlt (by rw [hw1eq] at hi; exact hi)
                        hcond.1
                      apply znew
                      rw [hm1eq]
                      show (m.cells.set (grid_idx m ⟨curr.x * 2 + 1, curr.y * 2 + 1⟩) 0).getD
                        ((2 * j + 1) * m.columns + (2 * i + 1)) 0 = 0
                      have hidx : grid_idx m ⟨curr.x * 2 + 1, curr.y * 2 + 1⟩ =
                          (2 * j + 1) * m.columns + (2 * i + 1) := by
                        show (curr.y * 2 + 1).toNat * m.columns + (curr.x * 2 + 1).toNat =
                          (2 * j + 1) * m.columns + (2 * i + 1)
                        have h0x := hinb1.1
                        have h0y := hinb1.2.2.1
                        have ex : (curr.x * 2 + 1).toNat = 2 * curr.x.toNat + 1 := by omega
                        have ey : (curr.y * 2 + 1).toNat = 2 * curr.y.toNat + 1 := by omega
                        rw [ex, ey, e1, e2]
                      rw [hidx, getD_set_general, if_pos ⟨rfl, by rw [hmlen] at hroom_lt; rw [hmlen]; exact hroom_lt⟩]
                    · intro hv2
                      apply znew
                      rw [hm1eq]
                      show (m.cells.set (grid_idx m ⟨curr.x * 2 + 1, curr.y * 2 + 1⟩) 0).getD
                        ((2 * j + 1) * m.columns + (2 * i + 1)) 0 = 0
                      rw [getD_set_general]
                      split
                      · rfl
                      · exact hinv i j (by rw [hw1eq] at hi; exact hi)
                          (by rw [hw1eq] at hj; exact hj) hv2
                  have hout := ih walk1 maze2 rng _ out h
                    (by rw [hm2len, hm2eq, hm1eq]; show m.cells.length = m.columns * m.rows; exact hmlen)
                    (by rw [hm2eq, hm1eq, hw1eq]; exact hmc)
                    (by rw [hm2eq, hm1eq, hw1eq]; exact hmr) hinv1
                  intro i j hi hj hv
                  exact hout i j (by rw [hw1eq]; exact hi) (by rw [hw1eq]; exact hj) hv
    | loop curr done2 =>
      rw [maze_step] at h
      split at h
      · cases h; exact hinv
      · rcases hpick : prng_pick_free (n + 1) rng done2 with e | pick
        · rw [hpick, except_bind_err] at h; exact Except.noConfusion h
        · rw [hpick, except_bind_ok] at h
          rcases hsub : maze_step n w m pick.2
              (.visit ⟨curr.x + (directions pick.1).x, curr.y + (directions pick.1).y⟩ curr)
            with e | step
          · rw [hsub, except_bind_err] at h; exact Except.noConfusion h
          · rw [hsub, except_bind_ok] at h
            have ds := maze_step_dims n w m pick.2 _ step hsub
            have hmid := ih w m pick.2 _ step hsub hmlen hmc hmr hinv
            have hout := ih step.1 step.2.1 step.2.2 _ out h
              (by rw [ds.2.2.2.2.2, ds.2.2.2.1, ds.2.2.2.2.1]; exact hmlen)
              (by rw [ds.2.2.2.1, ds.1]; exact hmc)
              (by rw [ds.2.2.2.2.1, ds.2.1]; exact hmr)
              (fun i j hi hj hv => hmid i j (by rw [ds.1] at hi; exact hi)
                (by rw [ds.2.1] at hj; exact hj) hv)
            intro i j hi hj hv
            exact hout i j (by rw [ds.1]; exact hi) (by rw [ds.2.1]; exact hj) hv


theorem unit_adj_dir (c : pt) (k : Fin 4) :
    unit_adj ⟨c.x + (directions k).x, c.y + (directions k).y⟩ c := by
  fin_cases k
  all_goals (unfold unit_adj directions; norm_num)

/-- The generator never writes an even-even (pillar) cell: under the call
preconditions, every such cell of the maze grid is unchanged by a
successful call. -/
theorem maze_step_even_cells :
    ∀ (fuel : Nat) (w m : grid) (rng : pcg32_state) (call : mazeCall)
      (out : grid × grid × pcg32_state),
      maze_step fuel w m rng call = .ok out →
      m.columns = 2 * w.columns + 1 → m.rows = 2 * w.rows + 1 →
      call_ok w call →
      ∀ x y, x < m.columns → y < m.rows → x % 2 = 0 → y % 2 = 0 →
        cellN out.2.1 x y = cellN m x y := by
  intro fuel
  induction fuel with
  | zero => intro w m rng call out h; exact Except.noConfusion h
  | succ n ih =>
    intro w m rng call out h hmc hmr hok
    cases call with
    | visit curr prev =>
      rw [maze_step] at h
      split at h
      · cases h; intro x y _ _ _ _; rfl
      · rename_i hinb
        push_neg at hinb
        obtain ⟨h1, h2, h3, h4⟩ := hinb
        rcases hg : grid_get w curr with e | wv
        · rw [hg, except_bind_err] at h; exact Except.noConfusion h
        · rw [hg, except_bind_ok] at h
          split at h
          · cases h; intro x y _ _ _ _; rfl
          · rcases hs1 : grid_set w curr 1 with e | walk1
            · rw [hs1, except_bind_err] at h; exact Except.noConfusion h
            · rw [hs1, except_bind_ok] at h
              rcases hs2 : grid_set m ⟨curr.x * 2 + 1, curr.y * 2 + 1⟩ 0 with e | maze1
              · rw [hs2, except_bind_err] at h; exact Except.noConfusion h
              · rw [hs2, except_bind_ok] at h
                rcases hs3 : grid_set maze1
                    ⟨curr.x * 2 + 1 + (prev.x - curr.x), curr.y * 2 + 1 + (prev.y - curr.y)⟩ 0
                  with e | maze2
                · rw [hs3, except_bind_err] at h; exact Except.noConfusion h
                · rw [hs3, except_bind_ok] at h
                  obtain ⟨hinb1, hw1eq⟩ := grid_set_ok hs1
                  obtain ⟨hinb2, hm1eq⟩ := grid_set_ok hs2
                  obtain ⟨hinb3, hm2eq⟩ := grid_set_ok hs3
                  have hdir : (prev.x - curr.x = 0 ∧ prev.y - curr.y = 0) ∨
                      (prev.x - curr.x = 1 ∧ prev.y - curr.y = 0) ∨
                      (prev.x - curr.x = -1 ∧ prev.y - curr.y = 0) ∨
                      (prev.x - curr.x = 0 ∧ prev.y - curr.y = 1) ∨
                      (prev.x - curr.x = 0 ∧ prev.y - curr.y = -1) := by
                    rcases hok with rfl | ⟨hadj, _⟩
                    · exact Or.inl ⟨by omega, by omega⟩
                    · rcases hadj with ⟨hx, hy⟩ | ⟨hx, hy⟩ | ⟨hx, hy⟩ | ⟨hx, hy⟩
                      · exact Or.inr (Or.inl ⟨by omega, by omega⟩)
                      · exact Or.inr (Or.inr (Or.inl ⟨by omega, by omega⟩))
                      · exact Or.inr (Or.inr (Or.inr (Or.inl ⟨by omega, by omega⟩)))
                      · exact Or.inr (Or.inr (Or.inr (Or.inr ⟨by omega, by omega⟩)))
                  intro x y hx hy hex hey
                  have hloop := ih walk1 maze2 rng _ out h
                    (by rw [hm2eq, hm1eq, hw1eq]; exact hmc)
                    (by rw [hm2eq, hm1eq, hw1eq]; exact hmr)
                    (show grid_inb walk1 curr by
                      rw [hw1eq]
                      show 0 ≤ curr.x ∧ curr.x < (w.columns : Int) ∧ 0 ≤ curr.y ∧
                        curr.y < (w.rows : Int)
                      exact ⟨h1, by omega, h3, by omega⟩)
                    x y
                    (by rw [hm2eq]; show x < maze1.columns; rw [hm1eq]; exact hx)
                    (by rw [hm2eq]; show y < maze1.rows; rw [hm1eq]; exact hy)
                    hex hey
                  rw [hloop]
                  have hmc2 : maze2.columns = m.columns := by
                    rw [hm2eq]; show maze1.columns = m.columns; rw [hm1eq]
                  unfold cellN
                  rw [hmc2]
                  rw [hm2eq]
                  show ((maze1.cells.set (grid_idx maze1
                      ⟨curr.x * 2 + 1 + (prev.x - curr.x),
                        curr.y * 2 + 1 + (prev.y - curr.y)⟩) 0)).getD
                      (y * m.columns + x) 0 =
                    m.cells.getD (y * m.columns + x) 0
                  have hmc1 : maze1.columns = m.columns := by rw [hm1eq]
                  have hidx2 : grid_idx maze1
                      ⟨curr.x * 2 + 1 + (prev.x - curr.x), curr.y * 2 + 1 + (prev.y - curr.y)⟩ =
                      (curr.y * 2 + 1 + (prev.y - curr.y)).toNat * m.columns +
                        (curr.x * 2 + 1 + (prev.x - curr.x)).toNat := by
                    show (curr.y * 2 + 1 + (prev.y - curr.y)).toNat * maze1.columns +
                        (curr.x * 2 + 1 + (prev.x - curr.x)).toNat = _
                    rw [hmc1]
                  rw [getD_set_general, hidx2]
                  rw [if_neg]
                  · rw [hm1eq]
                    show ((m.cells.set (grid_idx m ⟨curr.x * 2 + 1, curr.y * 2 + 1⟩) 0)).getD
                      (y * m.columns + x) 0 = m.cells.getD (y * m.columns + x) 0
                    have hidx1 : grid_idx m ⟨curr.x * 2 + 1, curr.y * 2 + 1⟩ =
                        (curr.y * 2 + 1).toNat * m.columns + (curr.x * 2 + 1).toNat := rfl
                    rw [getD_set_general, hidx1]
                    rw [if_neg]
                    intro hcon
                    obtain ⟨ec, _⟩ := rowmajor_inj
                      (show (curr.x * 2 + 1).toNat < m.columns by omega) hx hcon.1
                    omega
                  · intro hcon
                    have hxo : (curr.x * 2 + 1 + (prev.x - curr.x)).toNat < m.columns := by
                      rcases hdir with ⟨dx, dy⟩ | ⟨dx, dy⟩ | ⟨dx, dy⟩ | ⟨dx, dy⟩ | ⟨dx, dy⟩ <;>
                        omega
                    obtain ⟨ec, er⟩ := rowmajor_inj hxo hx hcon.1
                    rcases hdir with ⟨dx, dy⟩ | ⟨dx, dy⟩ | ⟨dx, dy⟩ | ⟨dx, dy⟩ | ⟨dx, dy⟩ <;>
                      omega
    | loop curr done2 =>
      rw [maze_step] at h
      split at h
      · cases h; intro x y _ _ _ _; rfl
      · rcases hpick : prng_pick_free (n + 1) rng done2 with e | pick
        · rw [hpick, except_bind_err] at h; exact Except.noConfusion h
        · rw [hpick, except_bind_ok] at h
          rcases hsub : maze_step n w m pick.2
              (.visit ⟨curr.x + (directions pick.1).x, curr.y + (directions pick.1).y⟩ curr)
            with e | step
          · rw [hsub, except_bind_err] at h; exact Except.noConfusion h
          · rw [hsub, except_bind_ok] at h
            have ds := maze_step_dims n w m pick.2 _ step hsub
            have hok' : grid_inb w curr := hok
            have hvc : call_ok w (.visit
                ⟨curr.x + (directions pick.1).x, curr.y + (directions pick.1).y⟩ curr) :=
              Or.inr ⟨unit_adj_dir curr pick.1, hok'⟩
            have hmid := ih w m pick.2 _ step hsub hmc hmr hvc
            have hlast := ih step.1 step.2.1 step.2.2 _ out h
              (by rw [ds.2.2.2.1, ds.1]; exact hmc)
              (by rw [ds.2.2.2.2.1, ds.2.1]; exact hmr)
              (show grid_inb step.1 curr from
                ⟨hok'.1, by rw [ds.1]; exact hok'.2.1, hok'.2.2.1,
                  by rw [ds.2.1]; exact hok'.2.2.2⟩)
            intro x y hx hy hex hey
            have e1 := hlast x y (by rw [ds.2.2.2.1]; exact hx)
              (by rw [ds.2.2.2.2.1]; exact hy) hex hey
            have e2 := hmid x y hx hy hex hey
            rw [e1]
            have hcols : step.2.1.columns = m.columns := ds.2.2.2.1
            unfold cellN at e2 ⊢
            rw [hcols] at e2 ⊢
            exact e2


/-- A fresh in-bounds visit whose room column `2x+1` falls outside the maze
grid never completes: the first carve is out of bounds. -/
theorem maze_step_narrow (fuel : Nat) (w m : grid) (rng : pcg32_state) (curr prev : pt)
    (hin : grid_inb w curr)
    (hfresh : w.cells.getD (grid_idx w curr) 0 = 0)
    (hm : (m.columns : Int) ≤ curr.x * 2 + 1) :
    ∀ out, maze_step fuel w m rng (.visit curr prev) ≠ .ok out := by
  intro out h
  cases fuel with
  | zero => exact Except.noConfusion h
  | succ n =>
    rw [maze_step] at h
    have hoob : ¬ (curr.x < 0 ∨ (w.columns : Int) ≤ curr.x ∨ curr.y < 0 ∨
        (w.rows : Int) ≤ curr.y) := by
      obtain ⟨b1, b2, b3, b4⟩ := hin
      push_neg
      exact ⟨b1, b2, b3, b4⟩
    rw [if_neg hoob, grid_get, if_pos hin, except_bind_ok, hfresh,
      if_neg (fun hh => hh rfl : ¬ (0 : Nat) ≠ 0),
      grid_set, if_pos hin, except_bind_ok] at h
    have hnin : ¬ grid_inb m ⟨curr.x * 2 + 1, curr.y * 2 + 1⟩ := by
      rintro ⟨-, h2, -, -⟩
      dsimp only at h2
      omega
    rw [grid_set, if_neg hnin, except_bind_err] at h
    exact Except.noConfusion h

/-- Dimension overflow: at `W = 2^31` the maze grid's `u32` width
`2W + 1` wraps to 1, so the very first room carve of the walk is out of
bounds (in the C source this write has no bounds check and scribbles past
the 1×3 allocation) and no maze grid is ever returned. -/
theorem maze_generate_wrap31 (rng : pcg32_state) :
    ∀ (fuel : Nat) (g : grid) (r2 : pcg32_state),
      maze_generate fuel (2 ^ 31) 1 rng ≠ .ok (g, r2) := by
  intro fuel g r2 h
  rw [maze_generate] at h
  rcases hstep : maze_step fuel (grid_alloc_init (2 ^ 31) 1 0)
      (grid_alloc_init ((2 ^ 31 * 2 + 1) % 2 ^ 32) ((1 * 2 + 1) % 2 ^ 32) 1)
      (pcg32_nextuint (pcg32_nextuint rng).2).2
      (.visit
        ⟨Int.ofNat ((pcg32_nextuint rng).1 % 2 ^ 31),
          Int.ofNat ((pcg32_nextuint (pcg32_nextuint rng).2).1 % 1)⟩
        ⟨Int.ofNat ((pcg32_nextuint rng).1 % 2 ^ 31),
          Int.ofNat ((pcg32_nextuint (pcg32_nextuint rng).2).1 % 1)⟩) with e | out
  · rw [hstep, except_bind_err] at h; exact Except.noConfusion h
  · have hx : (pcg32_nextuint rng).1 % 2 ^ 31 < 2 ^ 31 :=
      Nat.mod_lt _ (by norm_num)
    have hin : grid_inb (grid_alloc_init (2 ^ 31) 1 0)
        ⟨Int.ofNat ((pcg32_nextuint rng).1 % 2 ^ 31),
          Int.ofNat ((pcg32_nextuint (pcg32_nextuint rng).2).1 % 1)⟩ := by
      show (0 : Int) ≤ Int.ofNat ((pcg32_nextuint rng).1 % 2 ^ 31) ∧
        Int.ofNat ((pcg32_nextuint rng).1 % 2 ^ 31) < ((2 ^ 31 : Nat) : Int) ∧
        (0 : Int) ≤ Int.ofNat ((pcg32_nextuint (pcg32_nextuint rng).2).1 % 1) ∧
        Int.ofNat ((pcg32_nextuint (pcg32_nextuint rng).2).1 % 1) < ((1 : Nat) : Int)
      simp only [Int.ofNat_eq_coe]
      refine ⟨by omega, by omega, by omega, by omega⟩
    have hfresh : (grid_alloc_init (2 ^ 31) 1 0).cells.getD
        (grid_idx (grid_alloc_init (2 ^ 31) 1 0)
          ⟨Int.ofNat ((pcg32_nextuint rng).1 % 2 ^ 31),
            Int.ofNat ((pcg32_nextuint (pcg32_nextuint rng).2).1 % 1)⟩) 0 = 0 :=
      getD_replicate_zero _ _
    have hm : (((grid_alloc_init ((2 ^ 31 * 2 + 1) % 2 ^ 32) ((1 * 2 + 1) % 2 ^ 32)
          1).columns : Nat) : Int) ≤
        Int.ofNat ((pcg32_nextuint rng).1 % 2 ^ 31) * 2 + 1 := by
      show (((2 ^ 31 * 2 + 1) % 2 ^ 32 : Nat) : Int) ≤
        Int.ofNat ((pcg32_nextuint rng).1 % 2 ^ 31) * 2 + 1
      rw [show (2 ^ 31 * 2 + 1) % 2 ^ 32 = 1 by norm_num]
      simp only [Int.ofNat_eq_coe]
      omega
    exact maze_step_narrow fuel _ _ _ _ _ hin hfresh hm out hstep

theorem adjRooms_symm {a b : Nat × Nat} (h : adjRooms a b) : adjRooms b a := by
  unfold adjRooms at h ⊢; omega

theorem carvedEdge_symm {m : grid} {a b : Nat × Nat} (h : carvedEdge m a b) :
    carvedEdge m b a :=
  ⟨adjRooms_symm h.1, by
    rw [show b.1 + a.1 + 1 = a.1 + b.1 + 1 by omega,
      show b.2 + a.2 + 1 = a.2 + b.2 + 1 by omega]
    exact h.2⟩



theorem unit_adj_ne {curr prev : pt} (h : unit_adj curr prev) : prev ≠ curr := by
  intro he
  subst he
  unfold unit_adj at h
  omega

/-- Any walk between distinct vertices contains an edge into its endpoint. -/
theorem walk_last_edge {V : Type} {G : SimpleGraph V} :
    ∀ {u v : V} (q : G.Walk u v), u ≠ v → ∃ t, G.Adj t v ∧ s(t, v) ∈ q.edges := by
  intro u v q
  induction q with
  | nil => intro h; exact absurd rfl h
  | cons hab p ih =>
    rename_i a b c
    intro _
    by_cases hbc : b = c
    · subst hbc
      exact ⟨a, hab, by simp [SimpleGraph.Walk.edges_cons]⟩
    · obtain ⟨t, ht, hmem⟩ := ih hbc
      exact ⟨t, ht, by simp [SimpleGraph.Walk.edges_cons, hmem]⟩

/-- Attaching a pendant edge `u — v` to an isolated vertex `v` of an acyclic
graph keeps it acyclic. -/
theorem pendant_acyclic {V : Type} [DecidableEq V] {G : SimpleGraph V} {u v : V}
    (hG : G.IsAcyclic) (huv : u ≠ v) (hv : ∀ t, ¬ G.Adj v t) :
    (G ⊔ SimpleGraph.fromEdgeSet {s(u, v)}).IsAcyclic := by
  intro a c hc
  by_cases hmem : s(u, v) ∈ c.edges
  · have hvsup : v ∈ c.support := SimpleGraph.Walk.snd_mem_support_of_mem_edges c hmem
    have hc' := hc.rotate hvsup
    generalize c.rotate hvsup = c' at hc'
    cases c' with
    | nil => exact hc'.ne_nil rfl
    | cons hadj q =>
      rename_i b
      have hbu : b = u := by
        rcases (SimpleGraph.sup_adj _ _ _ _).mp hadj with hL | hR
        · exact absurd hL (hv b)
        · rw [SimpleGraph.fromEdgeSet_adj, Set.mem_singleton_iff, Sym2.eq_iff] at hR
          rcases hR.1 with ⟨hvu, _⟩ | ⟨_, hbu⟩
          · exact absurd hvu.symm huv
          · exact hbu
      rw [SimpleGraph.Walk.cons_isCycle_iff] at hc'
      have hq_ne : b ≠ v := by rw [hbu]; exact huv
      obtain ⟨t, ht, hmem'⟩ := walk_last_edge q hq_ne
      have htu : t = u := by
        rcases (SimpleGraph.sup_adj _ _ _ _).mp ht with hL | hR
        · exact absurd hL.symm (hv t)
        · rw [SimpleGraph.fromEdgeSet_adj, Set.mem_singleton_iff, Sym2.eq_iff] at hR
          rcases hR.1 with ⟨htu, _⟩ | ⟨htv, hvu⟩
          · exact htu
          · exact absurd hvu.symm huv
      rw [htu] at hmem'
      have he : s(v, b) = s(u, v) := by rw [hbu]; exact Sym2.eq_swap
      refine hc'.2 ?_
      rw [he]
      exact hmem'
  · have hsub : ∀ e ∈ c.edges, e ∈ G.edgeSet := by
      intro e he
      have h1 : e ∈ (G ⊔ SimpleGraph.fromEdgeSet {s(u, v)}).edgeSet :=
        c.edges_subset_edgeSet he
      rw [SimpleGraph.edgeSet_sup] at h1
      rcases h1 with h1 | h1
      · exact h1
      · rw [SimpleGraph.edgeSet_fromEdgeSet] at h1
        exact absurd (h1.1 ▸ he) hmem
    exact hG (c.transfer G hsub) (hc.transfer hsub)

theorem adjRooms_bounds {W H : Nat} {a b : Nat × Nat} (ha1 : a.1 < W) (ha2 : a.2 < H)
    (hb1 : b.1 < W) (hb2 : b.2 < H) (hadj : adjRooms a b) :
    a.1 + b.1 + 1 < 2 * W + 1 ∧ a.2 + b.2 + 1 < 2 * H + 1 ∧
      (a.1 + b.1 + 1 + (a.2 + b.2 + 1)) % 2 = 1 := by
  unfold adjRooms at hadj
  omega

/-- The connecting cell determines the unordered pair of rooms it joins. -/
theorem wall_inj {a b c d : Nat × Nat} (h1 : adjRooms a b) (h2 : adjRooms c d)
    (hx : a.1 + b.1 = c.1 + d.1) (hy : a.2 + b.2 = c.2 + d.2) :
    (a = c ∧ b = d) ∨ (a = d ∧ b = c) := by
  rcases a with ⟨a1, a2⟩
  rcases b with ⟨b1, b2⟩
  rcases c with ⟨c1, c2⟩
  rcases d with ⟨d1, d2⟩
  unfold adjRooms at h1 h2
  simp only [Prod.mk.injEq]
  dsimp only at h1 h2 hx hy
  omega

theorem adjRooms_ne_fin {W H : Nat} {a b : Fin W × Fin H}
    (h : adjRooms (a.1.val, a.2.val) (b.1.val, b.2.val)) : a ≠ b := by
  intro he
  rw [he] at h
  simp only [adjRooms] at h
  omega

theorem finpair_val_inj {W H : Nat} {a c : Fin W × Fin H}
    (h : ((a.1.val, a.2.val) : Nat × Nat) = (c.1.val, c.2.val)) : a = c := by
  rcases a with ⟨a1, a2⟩
  rcases c with ⟨c1, c2⟩
  simp only [Prod.mk.injEq] at h ⊢
  exact ⟨Fin.ext h.1, Fin.ext h.2⟩

/-- The two maze-grid writes of a fresh visit: the connecting cell `mp` ends
carved, and every other in-range mixed-parity cell is untouched (the room
cell `mc` has odd-odd coordinates). -/
theorem carve_mixed_facts {m maze1 maze2 : grid} {mc mp : pt} {W H : Nat}
    (hmcols : m.columns = 2 * W + 1) (hmrows : m.rows = 2 * H + 1)
    (hmlen : m.cells.length = m.columns * m.rows)
    (hs2 : grid_set m mc 0 = .ok maze1)
    (hs3 : grid_set maze1 mp 0 = .ok maze2)
    (hmcx : mc.x.toNat % 2 = 1) (hmcy : mc.y.toNat % 2 = 1) :
    cellN maze2 mp.x.toNat mp.y.toNat = 0 ∧
    (∀ x y, x < 2 * W + 1 → y < 2 * H + 1 → (x + y) % 2 = 1 →
      ¬(x = mp.x.toNat ∧ y = mp.y.toNat) → cellN maze2 x y = cellN m x y) ∧
    maze2.columns = m.columns ∧ maze2.rows = m.rows := by
  obtain ⟨hinb2, hm1eq⟩ := grid_set_ok hs2
  obtain ⟨hinb3, hm2eq⟩ := grid_set_ok hs3
  have h1c : maze1.columns = m.columns := by rw [hm1eq]
  have h1r : maze1.rows = m.rows := by rw [hm1eq]
  have h1l : maze1.cells.length = m.cells.length := by
    rw [hm1eq]; exact List.length_set m.cells _ 0
  have h2c : maze2.columns = m.columns := by rw [hm2eq]; exact h1c
  have h2r : maze2.rows = m.rows := by rw [hm2eq]; exact h1r
  have hmpx : mp.x.toNat < maze1.columns := by
    have := hinb3.2.1; have := hinb3.1; omega
  have hmpy : mp.y.toNat < maze1.rows := by
    have := hinb3.2.2.2; have := hinb3.2.2.1; omega
  have hmcxlt : mc.x.toNat < m.columns := by
    have := hinb2.2.1; have := hinb2.1; omega
  refine ⟨?_, ?_, h2c, h2r⟩
  · unfold cellN
    rw [h2c, hm2eq]
    show (maze1.cells.set (grid_idx maze1 mp) 0).getD
      (mp.y.toNat * m.columns + mp.x.toNat) 0 = 0
    have hidx : grid_idx maze1 mp = mp.y.toNat * m.columns + mp.x.toNat := by
      show mp.y.toNat * maze1.columns + mp.x.toNat = _
      rw [h1c]
    rw [← hidx]
    apply getD_set_self
    rw [h1l, hmlen]
    show mp.y.toNat * maze1.columns + mp.x.toNat < m.columns * m.rows
    rw [h1c]
    exact idx_lt (by omega) (by omega)
  · intro x y hx hy hpar hne
    unfold cellN
    rw [h2c, hm2eq]
    show (maze1.cells.set (grid_idx maze1 mp) 0).getD (y * m.columns + x) 0 = _
    rw [getD_set_general, if_neg ?hne3]
    case hne3 =>
      rintro ⟨hidxeq, -⟩
      have hidx : grid_idx maze1 mp = mp.y.toNat * m.columns + mp.x.toNat := by
        show mp.y.toNat * maze1.columns + mp.x.toNat = _
        rw [h1c]
      rw [hidx] at hidxeq
      obtain ⟨e1, e2⟩ := rowmajor_inj (by omega) (by omega) hidxeq
      exact hne ⟨e1.symm, e2.symm⟩
    rw [hm1eq]
    show (m.cells.set (grid_idx m mc) 0).getD (y * m.columns + x) 0 = _
    rw [getD_set_general, if_neg ?hne2]
    case hne2 =>
      rintro ⟨hidxeq, -⟩
      have hidx : grid_idx m mc = mc.y.toNat * m.columns + mc.x.toNat := rfl
      rw [hidx] at hidxeq
      obtain ⟨e1, e2⟩ := rowmajor_inj (by omega) (by omega) hidxeq
      omega

/-- Two maze grids that agree on all in-range mixed-parity cells present the
same room graph. -/
theorem roomGraph_congr {m m' : grid} (W H : Nat)
    (h : ∀ x y, x < 2 * W + 1 → y < 2 * H + 1 → (x + y) % 2 = 1 →
      cellN m' x y = cellN m x y) :
    roomGraph m' W H = roomGraph m W H := by
  ext p q
  constructor
  · rintro ⟨hadj, hcell⟩
    refine ⟨hadj, ?_⟩
    obtain ⟨w1, w2, w3⟩ := adjRooms_bounds p.1.isLt p.2.isLt q.1.isLt q.2.isLt hadj
    rw [← h _ _ w1 w2 w3]
    exact hcell
  · rintro ⟨hadj, hcell⟩
    refine ⟨hadj, ?_⟩
    obtain ⟨w1, w2, w3⟩ := adjRooms_bounds p.1.isLt p.2.isLt q.1.isLt q.2.isLt hadj
    rw [h _ _ w1 w2 w3]
    exact hcell

/-- Carving exactly the connecting cell between rooms `c` and `p` adds
exactly the edge `c — p` to the room graph. -/
theorem roomGraph_carve {m maze2 : grid} {W H : Nat} (c p : Fin W × Fin H)
    (hadj : adjRooms (c.1.val, c.2.val) (p.1.val, p.2.val))
    (hcarve : cellN maze2 (c.1.val + p.1.val + 1) (c.2.val + p.2.val + 1) = 0)
    (hother : ∀ x y, x < 2 * W + 1 → y < 2 * H + 1 → (x + y) % 2 = 1 →
      ¬(x = c.1.val + p.1.val + 1 ∧ y = c.2.val + p.2.val + 1) →
      cellN maze2 x y = cellN m x y) :
    roomGraph maze2 W H = roomGraph m W H ⊔ SimpleGraph.fromEdgeSet {s(c, p)} := by
  ext a b
  constructor
  · rintro ⟨haab, hcell⟩
    obtain ⟨w1, w2, w3⟩ := adjRooms_bounds a.1.isLt a.2.isLt b.1.isLt b.2.isLt haab
    rw [SimpleGraph.sup_adj]
    by_cases hw : a.1.val + b.1.val = c.1.val + p.1.val ∧
        a.2.val + b.2.val = c.2.val + p.2.val
    · right
      rw [SimpleGraph.fromEdgeSet_adj, Set.mem_singleton_iff]
      refine ⟨?_, adjRooms_ne_fin haab⟩
      rcases wall_inj haab hadj hw.1 hw.2 with ⟨hac, hbp⟩ | ⟨hap, hbc⟩
      · rw [finpair_val_inj hac, finpair_val_inj hbp]
      · rw [finpair_val_inj hap, finpair_val_inj hbc]
        exact Sym2.eq_swap
    · left
      refine ⟨haab, ?_⟩
      rw [← hother _ _ w1 w2 w3 (fun he => hw ⟨by omega, by omega⟩)]
      exact hcell
  · intro hab
    rw [SimpleGraph.sup_adj] at hab
    rcases hab with ⟨haab, hcell⟩ | hnew
    · refine ⟨haab, ?_⟩
      obtain ⟨w1, w2, w3⟩ := adjRooms_bounds a.1.isLt a.2.isLt b.1.isLt b.2.isLt haab
      by_cases hw : a.1.val + b.1.val + 1 = c.1.val + p.1.val + 1 ∧
          a.2.val + b.2.val + 1 = c.2.val + p.2.val + 1
      · rw [hw.1, hw.2]
        exact hcarve
      · rw [hother _ _ w1 w2 w3 hw]
        exact hcell
    · rw [SimpleGraph.fromEdgeSet_adj, Set.mem_singleton_iff, Sym2.eq_iff] at hnew
      rcases hnew.1 with ⟨hac, hbp⟩ | ⟨hap, hbc⟩
      · rw [hac, hbp]
        exact ⟨hadj, hcarve⟩
      · rw [hap, hbc]
        refine ⟨adjRooms_symm hadj, ?_⟩
        rw [show p.1.val + c.1.val + 1 = c.1.val + p.1.val + 1 by omega,
          show p.2.val + c.2.val + 1 = c.2.val + p.2.val + 1 by omega]
        exact hcarve

/-- An unvisited room is isolated in the room graph whenever every carved
wall joins two visited rooms. -/
theorem unvisited_isolated {w m : grid} {W H : Nat}
    (hT1a : ∀ i j, i + 1 < W → j < H → cellN m (2 * i + 2) (2 * j + 1) = 0 →
      visitedN w i j ∧ visitedN w (i + 1) j)
    (hT1b : ∀ i j, i < W → j + 1 < H → cellN m (2 * i + 1) (2 * j + 2) = 0 →
      visitedN w i j ∧ visitedN w i (j + 1))
    (c : Fin W × Fin H)
    (hnv : ¬ visitedN w c.1.val c.2.val) :
    ∀ t, ¬ (roomGraph m W H).Adj c t := by
  rintro t ⟨ha, hcell⟩
  have ha' := ha
  unfold adjRooms at ha'
  dsimp only at ha'
  rcases ha' with ⟨he, h1 | h1⟩ | ⟨he, h1 | h1⟩
  · have hcell' : cellN m (2 * c.1.val + 1) (2 * c.2.val + 2) = 0 := by
      rw [show 2 * c.1.val + 1 = c.1.val + t.1.val + 1 by omega,
        show 2 * c.2.val + 2 = c.2.val + t.2.val + 1 by omega]
      exact hcell
    have hv := hT1b c.1.val c.2.val c.1.isLt (by have := t.2.isLt; omega) hcell'
    exact hnv hv.1
  · have hcell' : cellN m (2 * t.1.val + 1) (2 * t.2.val + 2) = 0 := by
      rw [show 2 * t.1.val + 1 = c.1.val + t.1.val + 1 by omega,
        show 2 * t.2.val + 2 = c.2.val + t.2.val + 1 by omega]
      exact hcell
    have hv := hT1b t.1.val t.2.val t.1.isLt (by have := c.2.isLt; omega) hcell'
    refine hnv ?_
    rw [show c.1.val = t.1.val by omega, show c.2.val = t.2.val + 1 by omega]
    exact hv.2
  · have hcell' : cellN m (2 * c.1.val + 2) (2 * c.2.val + 1) = 0 := by
      rw [show 2 * c.1.val + 2 = c.1.val + t.1.val + 1 by omega,
        show 2 * c.2.val + 1 = c.2.val + t.2.val + 1 by omega]
      exact hcell
    have hv := hT1a c.1.val c.2.val (by have := t.1.isLt; omega) c.2.isLt hcell'
    exact hnv hv.1
  · have hcell' : cellN m (2 * t.1.val + 2) (2 * t.2.val + 1) = 0 := by
      rw [show 2 * t.1.val + 2 = c.1.val + t.1.val + 1 by omega,
        show 2 * t.2.val + 1 = c.2.val + t.2.val + 1 by omega]
      exact hcell
    have hv := hT1a t.1.val t.2.val (by have := c.1.isLt; omega) t.2.isLt hcell'
    refine hnv ?_
    rw [show c.1.val = t.1.val + 1 by omega, show c.2.val = t.2.val by omega]
    exact hv.2

/-- A single maze-grid write at `mp`: the written cell is carved and all
other columns-bounded cells are untouched. -/
theorem carve_one_facts {maze1 maze2 : grid} {mp : pt}
    (hlen : maze1.cells.length = maze1.columns * maze1.rows)
    (hs3 : grid_set maze1 mp 0 = .ok maze2) :
    cellN maze2 mp.x.toNat mp.y.toNat = 0 ∧
    (∀ x y, x < maze1.columns → ¬(x = mp.x.toNat ∧ y = mp.y.toNat) →
      cellN maze2 x y = cellN maze1 x y) ∧
    maze2.columns = maze1.columns ∧ maze2.rows = maze1.rows := by
  obtain ⟨hinb3, hm2eq⟩ := grid_set_ok hs3
  have h2c : maze2.columns = maze1.columns := by rw [hm2eq]
  have h2r : maze2.rows = maze1.rows := by rw [hm2eq]
  have hmpx : mp.x.toNat < maze1.columns := by
    have := hinb3.2.1; have := hinb3.1; omega
  have hmpy : mp.y.toNat < maze1.rows := by
    have := hinb3.2.2.2; have := hinb3.2.2.1; omega
  have hidx : grid_idx maze1 mp = mp.y.toNat * maze1.columns + mp.x.toNat := rfl
  refine ⟨?_, ?_, h2c, h2r⟩
  · unfold cellN
    rw [h2c, hm2eq]
    show (maze1.cells.set (grid_idx maze1 mp) 0).getD
      (mp.y.toNat * maze1.columns + mp.x.toNat) 0 = 0
    rw [← hidx]
    apply getD_set_self
    rw [hlen]
    exact idx_lt hmpx hmpy
  · intro x y hx hne
    unfold cellN
    rw [h2c, hm2eq]
    show (maze1.cells.set (grid_idx maze1 mp) 0).getD (y * maze1.columns + x) 0 = _
    rw [hidx, getD_set_general, if_neg ?hne1]
    case hne1 =>
      rintro ⟨hidxeq, -⟩
      obtain ⟨e1, e2⟩ := rowmajor_inj hmpx hx hidxeq
      exact hne ⟨e1.symm, e2.symm⟩

theorem hWalls_congr {m m' : grid} (W H : Nat)
    (h : ∀ i j, i + 1 < W → j < H →
      cellN m' (2 * i + 2) (2 * j + 1) = cellN m (2 * i + 2) (2 * j + 1)) :
    hWalls m' W H = hWalls m W H := by
  unfold hWalls
  apply Finset.filter_congr
  intro ij hij
  rw [Finset.mem_product, Finset.mem_range, Finset.mem_range] at hij
  by_cases hlt : ij.1 + 1 < W
  · rw [h ij.1 ij.2 hlt hij.2]
  · constructor
    · rintro ⟨h1, -⟩; exact absurd h1 hlt
    · rintro ⟨h1, -⟩; exact absurd h1 hlt

theorem vWalls_congr {m m' : grid} (W H : Nat)
    (h : ∀ i j, i < W → j + 1 < H →
      cellN m' (2 * i + 1) (2 * j + 2) = cellN m (2 * i + 1) (2 * j + 2)) :
    vWalls m' W H = vWalls m W H := by
  unfold vWalls
  apply Finset.filter_congr
  intro ij hij
  rw [Finset.mem_product, Finset.mem_range, Finset.mem_range] at hij
  by_cases hlt : ij.2 + 1 < H
  · rw [h ij.1 ij.2 hij.1 hlt]
  · constructor
    · rintro ⟨h1, -⟩; exact absurd h1 hlt
    · rintro ⟨h1, -⟩; exact absurd h1 hlt

/-- Carving the wall right of room `(i, j)` inserts exactly `(i, j)` into
the horizontal wall set and leaves the vertical one unchanged. -/
theorem hWalls_carve {maze1 maze2 : grid} {mp : pt} {W H i j : Nat}
    (hs3 : grid_set maze1 mp 0 = .ok maze2)
    (hc : maze1.columns = 2 * W + 1)
    (hlen : maze1.cells.length = maze1.columns * maze1.rows)
    (hi : i + 1 < W) (hj : j < H)
    (hmpx : mp.x.toNat = 2 * i + 2) (hmpy : mp.y.toNat = 2 * j + 1) :
    hWalls maze2 W H = insert (i, j) (hWalls maze1 W H) ∧
      vWalls maze2 W H = vWalls maze1 W H := by
  obtain ⟨f1, f2, _, _⟩ := carve_one_facts hlen hs3
  rw [hmpx, hmpy] at f1 f2
  constructor
  · ext ⟨a, b⟩
    simp only [hWalls, Finset.mem_insert, Finset.mem_filter, Finset.mem_product,
      Finset.mem_range, Prod.mk.injEq]
    constructor
    · rintro ⟨⟨haW, hbH⟩, hA, hcell⟩
      by_cases he : a = i ∧ b = j
      · exact Or.inl he
      · refine Or.inr ⟨⟨haW, hbH⟩, hA, ?_⟩
        rw [← f2 (2 * a + 2) (2 * b + 1) (by omega) (by omega)]
        exact hcell
    · rintro (⟨e1, e2⟩ | ⟨⟨haW, hbH⟩, hA, hcell⟩)
      · subst e1; subst e2
        exact ⟨⟨by omega, hj⟩, hi, f1⟩
      · by_cases he : a = i ∧ b = j
        · refine ⟨⟨haW, hbH⟩, hA, ?_⟩
          rw [he.1, he.2]
          exact f1
        · refine ⟨⟨haW, hbH⟩, hA, ?_⟩
          rw [f2 (2 * a + 2) (2 * b + 1) (by omega) (by omega)]
          exact hcell
  · ext ⟨a, b⟩
    simp only [vWalls, Finset.mem_filter, Finset.mem_product, Finset.mem_range]
    constructor
    · rintro ⟨⟨haW, hbH⟩, hB, hcell⟩
      refine ⟨⟨haW, hbH⟩, hB, ?_⟩
      rw [← f2 (2 * a + 1) (2 * b + 2) (by omega) (by omega)]
      exact hcell
    · rintro ⟨⟨haW, hbH⟩, hB, hcell⟩
      refine ⟨⟨haW, hbH⟩, hB, ?_⟩
      rw [f2 (2 * a + 1) (2 * b + 2) (by omega) (by omega)]
      exact hcell

/-- Carving the wall below room `(i, j)` inserts exactly `(i, j)` into the
vertical wall set and leaves the horizontal one unchanged. -/
theorem vWalls_carve {maze1 maze2 : grid} {mp : pt} {W H i j : Nat}
    (hs3 : grid_set maze1 mp 0 = .ok maze2)
    (hc : maze1.columns = 2 * W + 1)
    (hlen : maze1.cells.length = maze1.columns * maze1.rows)
    (hi : i < W) (hj : j + 1 < H)
    (hmpx : mp.x.toNat = 2 * i + 1) (hmpy : mp.y.toNat = 2 * j + 2) :
    vWalls maze2 W H = insert (i, j) (vWalls maze1 W H) ∧
      hWalls maze2 W H = hWalls maze1 W H := by
  obtain ⟨f1, f2, _, _⟩ := carve_one_facts hlen hs3
  rw [hmpx, hmpy] at f1 f2
  constructor
  · ext ⟨a, b⟩
    simp only [vWalls, Finset.mem_insert, Finset.mem_filter, Finset.mem_product,
      Finset.mem_range, Prod.mk.injEq]
    constructor
    · rintro ⟨⟨haW, hbH⟩, hB, hcell⟩
      by_cases he : a = i ∧ b = j
      · exact Or.inl he
      · refine Or.inr ⟨⟨haW, hbH⟩, hB, ?_⟩
        rw [← f2 (2 * a + 1) (2 * b + 2) (by omega) (by omega)]
        exact hcell
    · rintro (⟨e1, e2⟩ | ⟨⟨haW, hbH⟩, hB, hcell⟩)
      · subst e1; subst e2
        exact ⟨⟨hi, by omega⟩, hj, f1⟩
      · by_cases he : a = i ∧ b = j
        · refine ⟨⟨haW, hbH⟩, hB, ?_⟩
          rw [he.1, he.2]
          exact f1
        · refine ⟨⟨haW, hbH⟩, hB, ?_⟩
          rw [f2 (2 * a + 1) (2 * b + 2) (by omega) (by omega)]
          exact hcell
  · ext ⟨a, b⟩
    simp only [hWalls, Finset.mem_filter, Finset.mem_product, Finset.mem_range]
    constructor
    · rintro ⟨⟨haW, hbH⟩, hA, hcell⟩
      refine ⟨⟨haW, hbH⟩, hA, ?_⟩
      rw [← f2 (2 * a + 2) (2 * b + 1) (by omega) (by omega)]
      exact hcell
    · rintro ⟨⟨haW, hbH⟩, hA, hcell⟩
      refine ⟨⟨haW, hbH⟩, hA, ?_⟩
      rw [f2 (2 * a + 2) (2 * b + 1) (by omega) (by omega)]
      exact hcell

/-- What marking `curr` does to the visited predicate. -/
theorem visited_walk1 {w walk1 : grid} {curr : pt}
    (hs : grid_set w curr 1 = .ok walk1)
    (hlen : w.cells.length = w.columns * w.rows) :
    (∀ i j, visitedN w i j → visitedN walk1 i j) ∧
    visitedN walk1 curr.x.toNat curr.y.toNat ∧
    (∀ i j, i < w.columns → visitedN walk1 i j →
      (i = curr.x.toNat ∧ j = curr.y.toNat) ∨ visitedN w i j) ∧
    walk1.columns = w.columns ∧ walk1.rows = w.rows := by
  obtain ⟨hinb, heq⟩ := grid_set_ok hs
  have hcx : curr.x.toNat < w.columns := by
    have := hinb.2.1; have := hinb.1; omega
  have hcy : curr.y.toNat < w.rows := by
    have := hinb.2.2.2; have := hinb.2.2.1; omega
  have hidx : grid_idx w curr = curr.y.toNat * w.columns + curr.x.toNat := rfl
  have hlt : grid_idx w curr < w.cells.length := by
    rw [hlen, hidx]; exact idx_lt hcx hcy
  refine ⟨?_, ?_, ?_, by rw [heq], by rw [heq]⟩
  · intro i j hv
    unfold visitedN at hv ⊢
    rw [heq]
    show (w.cells.set (grid_idx w curr) 1).getD (j * w.columns + i) 0 ≠ 0
    rw [getD_set_general]
    split
    · omega
    · exact hv
  · unfold visitedN
    rw [heq]
    show (w.cells.set (grid_idx w curr) 1).getD
      (curr.y.toNat * w.columns + curr.x.toNat) 0 ≠ 0
    rw [← hidx, getD_set_self w.cells _ 1 hlt]
    omega
  · intro i j hiW hv
    unfold visitedN at hv
    rw [heq] at hv
    have hv' : (w.cells.set (grid_idx w curr) 1).getD (j * w.columns + i) 0 ≠ 0 := hv
    rw [hidx, getD_set_general] at hv'
    revert hv'
    split
    · rename_i hcond
      intro _
      obtain ⟨e1, e2⟩ := rowmajor_inj hcx hiW hcond.1
      exact Or.inl ⟨e1.symm, e2.symm⟩
    · intro hv2
      exact Or.inr hv2

theorem visitCount_set {w walk1 : grid} {curr : pt}
    (hs : grid_set w curr 1 = .ok walk1)
    (hlen : w.cells.length = w.columns * w.rows)
    (hnv : ¬ visitedN w curr.x.toNat curr.y.toNat) :
    visitCount walk1 w.columns w.rows = visitCount w w.columns w.rows + 1 := by
  obtain ⟨hmono, hnew, hdec, hc, hr⟩ := visited_walk1 hs hlen
  obtain ⟨hinb, -⟩ := grid_set_ok hs
  have hcx : curr.x.toNat < w.columns := by
    have := hinb.2.1; have := hinb.1; omega
  have hcy : curr.y.toNat < w.rows := by
    have := hinb.2.2.2; have := hinb.2.2.1; omega
  unfold visitCount
  have hset : (Finset.range w.columns ×ˢ Finset.range w.rows).filter
      (fun ij => visitedN walk1 ij.1 ij.2) =
      insert (curr.x.toNat, curr.y.toNat)
        ((Finset.range w.columns ×ˢ Finset.range w.rows).filter
          (fun ij => visitedN w ij.1 ij.2)) := by
    ext ⟨a, b⟩
    simp only [Finset.mem_insert, Finset.mem_filter, Finset.mem_product,
      Finset.mem_range, Prod.mk.injEq]
    constructor
    · rintro ⟨⟨haW, hbH⟩, hv⟩
      rcases hdec a b haW hv with ⟨e1, e2⟩ | hv'
      · exact Or.inl ⟨e1, e2⟩
      · exact Or.inr ⟨⟨haW, hbH⟩, hv'⟩
    · rintro (⟨e1, e2⟩ | ⟨⟨haW, hbH⟩, hv⟩)
      · subst e1; subst e2
        exact ⟨⟨hcx, hcy⟩, hnew⟩
      · exact ⟨⟨haW, hbH⟩, hmono a b hv⟩
  rw [hset, Finset.card_insert_of_not_mem]
  intro hmem
  rw [Finset.mem_filter] at hmem
  exact hnv hmem.2

theorem visitCount_full {w : grid} {W H : Nat}
    (hall : ∀ i j, i < W → j < H → visitedN w i j) :
    visitCount w W H = W * H := by
  unfold visitCount
  rw [Finset.filter_true_of_mem]
  · rw [Finset.card_product, Finset.card_range, Finset.card_range]
  · rintro ⟨a, b⟩ hab
    rw [Finset.mem_product, Finset.mem_range, Finset.mem_range] at hab
    exact hall a b hab.1 hab.2

theorem visitCount_zero (W H : Nat) : visitCount (grid_alloc_init W H 0) W H = 0 := by
  unfold visitCount
  rw [Finset.filter_false_of_mem, Finset.card_empty]
  rintro ⟨a, b⟩ - hv
  exact hv (getD_replicate_zero _ _)

theorem wallCount_init (W H : Nat) :
    wallCount (grid_alloc_init (W * 2 + 1) (H * 2 + 1) 1) W H = 0 := by
  unfold wallCount
  have h1 : hWalls (grid_alloc_init (W * 2 + 1) (H * 2 + 1) 1) W H = ∅ := by
    unfold hWalls
    rw [Finset.filter_false_of_mem]
    rintro ⟨a, b⟩ hab
    rw [Finset.mem_product, Finset.mem_range, Finset.mem_range] at hab
    rintro ⟨hA, hcell⟩
    simp only [cellN, grid_alloc_init] at hcell
    rw [getD_replicate] at hcell
    · exact absurd hcell (by omega)
    · exact idx_lt (by omega) (by omega)
  have h2 : vWalls (grid_alloc_init (W * 2 + 1) (H * 2 + 1) 1) W H = ∅ := by
    unfold vWalls
    rw [Finset.filter_false_of_mem]
    rintro ⟨a, b⟩ hab
    rw [Finset.mem_product, Finset.mem_range, Finset.mem_range] at hab
    rintro ⟨hB, hcell⟩
    simp only [cellN, grid_alloc_init] at hcell
    rw [getD_replicate] at hcell
    · exact absurd hcell (by omega)
    · exact idx_lt (by omega) (by omega)
  rw [h1, h2]
  rfl

/-- One fresh `.visit` step entered from a visited neighbour room
`(px, py)`: marking `curr` and carving the room cell and the connecting
cell preserves the spanning-tree invariant, carves exactly one new wall and
visits exactly one new room. -/
theorem fresh_visit_step {W H : Nat} {w m walk1 maze1 maze2 : grid} {curr mc mp : pt}
    (hlen : w.cells.length = w.columns * w.rows)
    (hmlen : m.cells.length = m.columns * m.rows)
    (hwc : w.columns = W) (hwr : w.rows = H)
    (hmc : m.columns = 2 * W + 1) (hmr : m.rows = 2 * H + 1)
    (hs1 : grid_set w curr 1 = .ok walk1)
    (hs2 : grid_set m mc 0 = .ok maze1)
    (hs3 : grid_set maze1 mp 0 = .ok maze2)
    (hmcx : mc.x.toNat % 2 = 1) (hmcy : mc.y.toNat % 2 = 1)
    {px py : Nat}
    (hpW : px < W) (hpH : py < H)
    (hadj : adjRooms (curr.x.toNat, curr.y.toNat) (px, py))
    (hmpx : mp.x.toNat = curr.x.toNat + px + 1)
    (hmpy : mp.y.toNat = curr.y.toNat + py + 1)
    (hpv : visitedN w px py)
    (hnv : ¬ visitedN w curr.x.toNat curr.y.toNat)
    (hinv : treeInv W H w m) :
    treeInv W H walk1 maze2 ∧
      wallCount maze2 W H = wallCount m W H + 1 ∧
      visitCount walk1 W H = visitCount w W H + 1 := by
  obtain ⟨hinb1, -⟩ := grid_set_ok hs1
  have hcx : curr.x.toNat < W := by
    have hb := hinb1.2.1; have hb0 := hinb1.1; omega
  have hcy : curr.y.toNat < H := by
    have hb := hinb1.2.2.2; have hb0 := hinb1.2.2.1; omega
  have hT1a := hinv.1
  have hT1b := hinv.2.1
  have hT0a := hinv.2.2.1
  have hT0b := hinv.2.2.2.1
  have hT3 := hinv.2.2.2.2.1
  have hAcy := hinv.2.2.2.2.2
  have hadj' := hadj
  unfold adjRooms at hadj'
  dsimp only at hadj'
  obtain ⟨hmono, hnew, hdec, hw1c, hw1r⟩ := visited_walk1 hs1 hlen
  obtain ⟨f1, f2, h2c, h2r⟩ := carve_mixed_facts hmc hmr hmlen hs2 hs3 hmcx hmcy
  rw [hmpx, hmpy] at f1
  have f2' : ∀ x y, x < 2 * W + 1 → y < 2 * H + 1 → (x + y) % 2 = 1 →
      ¬(x = curr.x.toNat + px + 1 ∧ y = curr.y.toNat + py + 1) →
      cellN maze2 x y = cellN m x y := by
    intro x y hx hy hp hne
    refine f2 x y hx hy hp ?_
    rw [hmpx, hmpy]
    exact hne
  have hgraph : roomGraph maze2 W H =
      roomGraph m W H ⊔ SimpleGraph.fromEdgeSet
        {s(((⟨curr.x.toNat, hcx⟩, ⟨curr.y.toNat, hcy⟩) : Fin W × Fin H),
          ((⟨px, hpW⟩, ⟨py, hpH⟩) : Fin W × Fin H))} :=
    roomGraph_carve (⟨curr.x.toNat, hcx⟩, ⟨curr.y.toNat, hcy⟩) (⟨px, hpW⟩, ⟨py, hpH⟩)
      hadj f1 f2'
  have hRne : ((⟨curr.x.toNat, hcx⟩, ⟨curr.y.toNat, hcy⟩) : Fin W × Fin H) ≠
      (⟨px, hpW⟩, ⟨py, hpH⟩) := adjRooms_ne_fin hadj
  have hadj2 : (roomGraph maze2 W H).Adj (⟨curr.x.toNat, hcx⟩, ⟨curr.y.toNat, hcy⟩)
      (⟨px, hpW⟩, ⟨py, hpH⟩) := by
    rw [hgraph, SimpleGraph.sup_adj]
    right
    rw [SimpleGraph.fromEdgeSet_adj, Set.mem_singleton_iff]
    exact ⟨rfl, hRne⟩
  have hreach2 : ∀ r : Fin W × Fin H, visitedN walk1 r.1.val r.2.val →
      (roomGraph maze2 W H).Reachable r (⟨curr.x.toNat, hcx⟩, ⟨curr.y.toNat, hcy⟩) := by
    intro r hr
    rcases hdec r.1.val r.2.val (by rw [hwc]; exact r.1.isLt) hr with ⟨e1, e2⟩ | hrw
    · have hre : r = (⟨curr.x.toNat, hcx⟩, ⟨curr.y.toNat, hcy⟩) :=
        finpair_val_inj (show ((r.1.val, r.2.val) : Nat × Nat) =
          (curr.x.toNat, curr.y.toNat) by rw [e1, e2])
      rw [hre]
    · have h1 : (roomGraph m W H).Reachable r (⟨px, hpW⟩, ⟨py, hpH⟩) :=
        hT3 r _ hrw hpv
      have h2 : (roomGraph maze2 W H).Reachable r (⟨px, hpW⟩, ⟨py, hpH⟩) := by
        rw [hgraph]
        exact h1.mono le_sup_left
      exact h2.trans hadj2.reachable.symm
  have hT3' : ∀ p q : Fin W × Fin H, visitedN walk1 p.1.val p.2.val →
      visitedN walk1 q.1.val q.2.val → (roomGraph maze2 W H).Reachable p q := by
    intro p q hp hq
    exact (hreach2 p hp).trans (hreach2 q hq).symm
  have hAcy' : (roomGraph maze2 W H).IsAcyclic := by
    have hsw : s(((⟨curr.x.toNat, hcx⟩, ⟨curr.y.toNat, hcy⟩) : Fin W × Fin H),
        ((⟨px, hpW⟩, ⟨py, hpH⟩) : Fin W × Fin H)) =
        s(((⟨px, hpW⟩, ⟨py, hpH⟩) : Fin W × Fin H),
          ((⟨curr.x.toNat, hcx⟩, ⟨curr.y.toNat, hcy⟩) : Fin W × Fin H)) := Sym2.eq_swap
    rw [hgraph, hsw]
    exact pendant_acyclic hAcy (Ne.symm hRne)
      (unvisited_isolated hT1a hT1b (⟨curr.x.toNat, hcx⟩, ⟨curr.y.toNat, hcy⟩) hnv)
  have hT1a' : ∀ i j, i + 1 < W → j < H → cellN maze2 (2 * i + 2) (2 * j + 1) = 0 →
      visitedN walk1 i j ∧ visitedN walk1 (i + 1) j := by
    intro i j hi hj hcell
    by_cases hcase : 2 * i + 2 = curr.x.toNat + px + 1 ∧ 2 * j + 1 = curr.y.toNat + py + 1
    · have key : (i = curr.x.toNat ∧ j = curr.y.toNat ∧ px = i + 1 ∧ py = j) ∨
          (i = px ∧ j = py ∧ curr.x.toNat = i + 1 ∧ curr.y.toNat = j) := by
        omega
      rcases key with ⟨e1, e2, e3, e4⟩ | ⟨e1, e2, e3, e4⟩
      · constructor
        · rw [e1, e2]; exact hnew
        · rw [show i + 1 = px from e3.symm, show j = py from e4.symm]
          exact hmono px py hpv
      · constructor
        · rw [e1, e2]; exact hmono px py hpv
        · rw [show i + 1 = curr.x.toNat from e3.symm, show j = curr.y.toNat from e4.symm]
          exact hnew
    · have hm0 : cellN m (2 * i + 2) (2 * j + 1) = 0 := by
        rw [← f2' (2 * i + 2) (2 * j + 1) (by omega) (by omega) (by omega) hcase]
        exact hcell
      obtain ⟨v1, v2⟩ := hT1a i j hi hj hm0
      exact ⟨hmono _ _ v1, hmono _ _ v2⟩
  have hT1b' : ∀ i j, i < W → j + 1 < H → cellN maze2 (2 * i + 1) (2 * j + 2) = 0 →
      visitedN walk1 i j ∧ visitedN walk1 i (j + 1) := by
    intro i j hi hj hcell
    by_cases hcase : 2 * i + 1 = curr.x.toNat + px + 1 ∧ 2 * j + 2 = curr.y.toNat + py + 1
    · have key : (i = curr.x.toNat ∧ j = curr.y.toNat ∧ px = i ∧ py = j + 1) ∨
          (i = px ∧ j = py ∧ curr.x.toNat = i ∧ curr.y.toNat = j + 1) := by
        omega
      rcases key with ⟨e1, e2, e3, e4⟩ | ⟨e1, e2, e3, e4⟩
      · constructor
        · rw [e1, e2]; exact hnew
        · rw [show i = px from e3.symm, show j + 1 = py from e4.symm]
          exact hmono px py hpv
      · constructor
        · rw [e1, e2]; exact hmono px py hpv
        · rw [show i = curr.x.toNat from e3.symm, show j + 1 = curr.y.toNat from e4.symm]
          exact hnew
    · have hm0 : cellN m (2 * i + 1) (2 * j + 2) = 0 := by
        rw [← f2' (2 * i + 1) (2 * j + 2) (by omega) (by omega) (by omega) hcase]
        exact hcell
      obtain ⟨v1, v2⟩ := hT1b i j hi hj hm0
      exact ⟨hmono _ _ v1, hmono _ _ v2⟩
  have hT0a' : ∀ j, j < H → cellN maze2 0 (2 * j + 1) ≠ 0 ∧
      cellN maze2 (2 * W) (2 * j + 1) ≠ 0 := by
    intro j hj
    constructor
    · rw [f2' 0 (2 * j + 1) (by omega) (by omega) (by omega) (by omega)]
      exact (hT0a j hj).1
    · rw [f2' (2 * W) (2 * j + 1) (by omega) (by omega) (by omega) (by omega)]
      exact (hT0a j hj).2
  have hT0b' : ∀ i, i < W → cellN maze2 (2 * i + 1) 0 ≠ 0 ∧
      cellN maze2 (2 * i + 1) (2 * H) ≠ 0 := by
    intro i hi
    constructor
    · rw [f2' (2 * i + 1) 0 (by omega) (by omega) (by omega) (by omega)]
      exact (hT0b i hi).1
    · rw [f2' (2 * i + 1) (2 * H) (by omega) (by omega) (by omega) (by omega)]
      exact (hT0b i hi).2
  have hm1len : maze1.cells.length = maze1.columns * maze1.rows := by
    obtain ⟨-, hm1eq⟩ := grid_set_ok hs2
    rw [hm1eq]
    show (m.cells.set (grid_idx m mc) 0).length = m.columns * m.rows
    rw [List.length_set]
    exact hmlen
  have h1c : maze1.columns = m.columns := by
    obtain ⟨-, hm1eq⟩ := grid_set_ok hs2
    rw [hm1eq]
  have hc1 : maze1.columns = 2 * W + 1 := by rw [h1c]; exact hmc
  obtain ⟨-, g2, -, -⟩ := carve_one_facts hmlen hs2
  have hhw1 : hWalls maze1 W H = hWalls m W H := by
    apply hWalls_congr
    intro i j hi hj
    refine g2 (2 * i + 2) (2 * j + 1) (by omega) ?_
    rintro ⟨hex, -⟩
    omega
  have hvw1 : vWalls maze1 W H = vWalls m W H := by
    apply vWalls_congr
    intro i j hi hj
    refine g2 (2 * i + 1) (2 * j + 2) (by omega) ?_
    rintro ⟨-, hey⟩
    omega
  have hwcount : wallCount maze2 W H = wallCount m W H + 1 := by
    rcases hadj' with ⟨he, h1 | h1⟩ | ⟨he, h1 | h1⟩
    · obtain ⟨hins, hoth⟩ := vWalls_carve hs3 hc1 hm1len
        (show curr.x.toNat < W from hcx) (show curr.y.toNat + 1 < H by omega)
        (show mp.x.toNat = 2 * curr.x.toNat + 1 by omega)
        (show mp.y.toNat = 2 * curr.y.toNat + 2 by omega)
      unfold wallCount
      rw [hins, hoth, hhw1, hvw1, Finset.card_insert_of_not_mem]
      · omega
      · intro hmem
        simp only [vWalls, Finset.mem_filter] at hmem
        exact hnv (hT1b curr.x.toNat curr.y.toNat hcx (by omega) hmem.2.2).1
    · obtain ⟨hins, hoth⟩ := vWalls_carve hs3 hc1 hm1len
        (show px < W from hpW) (show py + 1 < H by omega)
        (show mp.x.toNat = 2 * px + 1 by omega)
        (show mp.y.toNat = 2 * py + 2 by omega)
      unfold wallCount
      rw [hins, hoth, hhw1, hvw1, Finset.card_insert_of_not_mem]
      · omega
      · intro hmem
        simp only [vWalls, Finset.mem_filter] at hmem
        refine hnv ?_
        rw [show curr.x.toNat = px by omega, show curr.y.toNat = py + 1 by omega]
        exact (hT1b px py hpW (by omega) hmem.2.2).2
    · obtain ⟨hins, hoth⟩ := hWalls_carve hs3 hc1 hm1len
        (show curr.x.toNat + 1 < W by omega) (show curr.y.toNat < H from hcy)
        (show mp.x.toNat = 2 * curr.x.toNat + 2 by omega)
        (show mp.y.toNat = 2 * curr.y.toNat + 1 by omega)
      unfold wallCount
      rw [hins, hoth, hhw1, hvw1, Finset.card_insert_of_not_mem]
      · omega
      · intro hmem
        simp only [hWalls, Finset.mem_filter] at hmem
        exact hnv (hT1a curr.x.toNat curr.y.toNat (by omega) hcy hmem.2.2).1
    · obtain ⟨hins, hoth⟩ := hWalls_carve hs3 hc1 hm1len
        (show px + 1 < W by omega) (show py < H from hpH)
        (show mp.x.toNat = 2 * px + 2 by omega)
        (show mp.y.toNat = 2 * py + 1 by omega)
      unfold wallCount
      rw [hins, hoth, hhw1, hvw1, Finset.card_insert_of_not_mem]
      · omega
      · intro hmem
        simp only [hWalls, Finset.mem_filter] at hmem
        refine hnv ?_
        rw [show curr.x.toNat = px + 1 by omega, show curr.y.toNat = py by omega]
        exact (hT1a px py (by omega) hpH hmem.2.2).2
  have hvcount : visitCount walk1 W H = visitCount w W H + 1 := by
    have hvs := visitCount_set hs1 hlen hnv
    rw [hwc, hwr] at hvs
    exact hvs
  exact ⟨⟨hT1a', hT1b', hT0a', hT0b', hT3', hAcy'⟩, hwcount, hvcount⟩

/-- C2 master induction: a successful walker call preserves the
spanning-tree invariant, and the number of carved walls balances the number
of visited rooms (the only unbalanced visit is the top-level one, counted
by `extraOf`). -/
theorem maze_step_tree :
    ∀ (fuel : Nat) (w m : grid) (rng : pcg32_state) (call : mazeCall)
      (out : grid × grid × pcg32_state),
      maze_step fuel w m rng call = .ok out →
      w.cells.length = w.columns * w.rows →
      m.cells.length = m.columns * m.rows →
      m.columns = 2 * w.columns + 1 → m.rows = 2 * w.rows + 1 →
      call_ok2 w call →
      treeInv w.columns w.rows w m →
      treeInv w.columns w.rows out.1 out.2.1 ∧
        wallCount out.2.1 w.columns w.rows + visitCount w w.columns w.rows +
            extraOf w call =
          wallCount m w.columns w.rows + visitCount out.1 w.columns w.rows := by
  intro fuel
  induction fuel with
  | zero => intro w m rng call out h; exact Except.noConfusion h
  | succ n ih =>
    intro w m rng call out h hlen hmlen hmc hmr hok hinv
    cases call with
    | visit curr prev =>
      rw [maze_step] at h
      split at h
      · rename_i hoob
        cases h
        refine ⟨hinv, ?_⟩
        have hex : extraOf w (.visit curr prev) = 0 := by
          simp only [extraOf]
          rw [if_neg]
          rintro ⟨-, hin, -⟩
          obtain ⟨b1, b2, b3, b4⟩ := hin
          rcases hoob with hx | hx | hx | hx <;> omega
        rw [hex]
        dsimp only
        omega
      · rename_i hoobn
        push_neg at hoobn
        obtain ⟨h1, h2, h3, h4⟩ := hoobn
        have hcin : grid_inb w curr := ⟨h1, by omega, h3, by omega⟩
        rcases hg : grid_get w curr with e | wv
        · rw [hg, except_bind_err] at h; exact Except.noConfusion h
        · rw [hg, except_bind_ok] at h
          have hgv : w.cells.getD (grid_idx w curr) 0 = wv := by
            rw [grid_get, if_pos hcin] at hg
            exact Except.ok.inj hg
          split at h
          · rename_i hwv
            cases h
            refine ⟨hinv, ?_⟩
            have hv : visitedN w curr.x.toNat curr.y.toNat := by
              unfold visitedN
              rw [show curr.y.toNat * w.columns + curr.x.toNat = grid_idx w curr from rfl,
                hgv]
              exact hwv
            have hex : extraOf w (.visit curr prev) = 0 := by
              simp only [extraOf]
              rw [if_neg]
              rintro ⟨-, -, hnv'⟩
              exact hnv' hv
            rw [hex]
            dsimp only
            omega
          · rename_i hwvn
            have hwv0 : wv = 0 := not_not.mp hwvn
            have hnv : ¬ visitedN w curr.x.toNat curr.y.toNat := by
              intro hv
              unfold visitedN at hv
              rw [show curr.y.toNat * w.columns + curr.x.toNat = grid_idx w curr from rfl,
                hgv] at hv
              exact hv hwv0
            rcases hs1 : grid_set w curr 1 with e | walk1
            · rw [hs1, except_bind_err] at h; exact Except.noConfusion h
            · rw [hs1, except_bind_ok] at h
              rcases hs2 : grid_set m ⟨curr.x * 2 + 1, curr.y * 2 + 1⟩ 0 with e | maze1
              · rw [hs2, except_bind_err] at h; exact Except.noConfusion h
              · rw [hs2, except_bind_ok] at h
                rcases hs3 : grid_set maze1
                    ⟨curr.x * 2 + 1 + (prev.x - curr.x), curr.y * 2 + 1 + (prev.y - curr.y)⟩ 0
                  with e | maze2
                · rw [hs3, except_bind_err] at h; exact Except.noConfusion h
                · rw [hs3, except_bind_ok] at h
                  obtain ⟨hinb1, hw1eq⟩ := grid_set_ok hs1
                  have hw1c : walk1.columns = w.columns := by rw [hw1eq]
                  have hw1r : walk1.rows = w.rows := by rw [hw1eq]
                  have hw1len : walk1.cells.length = walk1.columns * walk1.rows := by
                    rw [hw1eq]
                    show (w.cells.set (grid_idx w curr) 1).length = w.columns * w.rows
                    rw [List.length_set]
                    exact hlen
                  obtain ⟨hmono, hnew, hdec, -, -⟩ := visited_walk1 hs1 hlen
                  have hmcx2 : (⟨curr.x * 2 + 1, curr.y * 2 + 1⟩ : pt).x.toNat % 2 = 1 := by
                    show (curr.x * 2 + 1).toNat % 2 = 1
                    omega
                  have hmcy2 : (⟨curr.x * 2 + 1, curr.y * 2 + 1⟩ : pt).y.toNat % 2 = 1 := by
                    show (curr.y * 2 + 1).toNat % 2 = 1
                    omega
                  have hfacts := carve_mixed_facts hmc hmr hmlen hs2 hs3 hmcx2 hmcy2
                  have hm2len : maze2.cells.length = maze2.columns * maze2.rows := by
                    obtain ⟨-, hm1eq⟩ := grid_set_ok hs2
                    obtain ⟨-, hm2eq⟩ := grid_set_ok hs3
                    rw [hm2eq]
                    show (maze1.cells.set (grid_idx maze1 _) 0).length =
                      maze1.columns * maze1.rows
                    rw [List.length_set, hm1eq]
                    show (m.cells.set (grid_idx m _) 0).length = m.columns * m.rows
                    rw [List.length_set]
                    exact hmlen
                  have hm2c1 : maze2.columns = 2 * walk1.columns + 1 := by
                    rw [hfacts.2.2.1, hw1c]
                    exact hmc
                  have hm2r1 : maze2.rows = 2 * walk1.rows + 1 := by
                    rw [hfacts.2.2.2, hw1r]
                    exact hmr
                  have hvc : visitCount walk1 w.columns w.rows =
                      visitCount w w.columns w.rows + 1 := visitCount_set hs1 hlen hnv
                  rcases hok with ⟨hpc, hempty⟩ | ⟨hadjU, hpin, hpv⟩
                  · -- top-level call: prev = curr on an all-unvisited walk grid
                    have hmpxv : (⟨curr.x * 2 + 1 + (prev.x - curr.x),
                        curr.y * 2 + 1 + (prev.y - curr.y)⟩ : pt).x.toNat =
                        2 * curr.x.toNat + 1 := by
                      show (curr.x * 2 + 1 + (prev.x - curr.x)).toNat = 2 * curr.x.toNat + 1
                      rw [hpc]
                      omega
                    have hmpyv : (⟨curr.x * 2 + 1 + (prev.x - curr.x),
                        curr.y * 2 + 1 + (prev.y - curr.y)⟩ : pt).y.toNat =
                        2 * curr.y.toNat + 1 := by
                      show (curr.y * 2 + 1 + (prev.y - curr.y)).toNat = 2 * curr.y.toNat + 1
                      rw [hpc]
                      omega
                    have hmix : ∀ x y, x < 2 * w.columns + 1 → y < 2 * w.rows + 1 →
                        (x + y) % 2 = 1 → cellN maze2 x y = cellN m x y := by
                      intro x y hx hy hp
                      refine hfacts.2.1 x y hx hy hp ?_
                      rintro ⟨hex, hey⟩
                      rw [hmpxv] at hex
                      rw [hmpyv] at hey
                      omega
                    have hgr : roomGraph maze2 w.columns w.rows =
                        roomGraph m w.columns w.rows :=
                      roomGraph_congr w.columns w.rows hmix
                    have hwallsEq : wallCount maze2 w.columns w.rows =
                        wallCount m w.columns w.rows := by
                      unfold wallCount
                      rw [hWalls_congr w.columns w.rows
                          (fun i j hi hj => hmix _ _ (by omega) (by omega) (by omega)),
                        vWalls_congr w.columns w.rows
                          (fun i j hi hj => hmix _ _ (by omega) (by omega) (by omega))]
                    have hti : treeInv w.columns w.rows walk1 maze2 := by
                      refine ⟨?_, ?_, ?_, ?_, ?_, ?_⟩
                      · intro i j hi hj hcell
                        rw [hmix _ _ (by omega) (by omega) (by omega)] at hcell
                        exact absurd (hinv.1 i j hi hj hcell).1 (hempty i j)
                      · intro i j hi hj hcell
                        rw [hmix _ _ (by omega) (by omega) (by omega)] at hcell
                        exact absurd (hinv.2.1 i j hi hj hcell).1 (hempty i j)
                      · intro j hj
                        constructor
                        · rw [hmix 0 (2 * j + 1) (by omega) (by omega) (by omega)]
                          exact (hinv.2.2.1 j hj).1
                        · rw [hmix (2 * w.columns) (2 * j + 1) (by omega) (by omega)
                            (by omega)]
                          exact (hinv.2.2.1 j hj).2
                      · intro i hi
                        constructor
                        · rw [hmix (2 * i + 1) 0 (by omega) (by omega) (by omega)]
                          exact (hinv.2.2.2.1 i hi).1
                        · rw [hmix (2 * i + 1) (2 * w.rows) (by omega) (by omega)
                            (by omega)]
                          exact (hinv.2.2.2.1 i hi).2
                      · intro p q hp hq
                        rcases hdec p.1.val p.2.val p.1.isLt hp with ⟨e1, e2⟩ | hw1
                        · rcases hdec q.1.val q.2.val q.1.isLt hq with ⟨e3, e4⟩ | hw2
                          · have hpq : p = q := finpair_val_inj
                              (show ((p.1.val, p.2.val) : Nat × Nat) = (q.1.val, q.2.val)
                                by rw [e1, e2, e3, e4])
                            rw [hpq]
                          · exact absurd hw2 (hempty _ _)
                        · exact absurd hw1 (hempty _ _)
                      · rw [hgr]
                        exact hinv.2.2.2.2.2
                    have hti1 : treeInv walk1.columns walk1.rows walk1 maze2 := by
                      rw [hw1c, hw1r]
                      exact hti
                    have hok1 : call_ok2 walk1 (.loop curr (fun _ => false)) := by
                      refine ⟨?_, hnew⟩
                      obtain ⟨b1, b2, b3, b4⟩ := hcin
                      exact ⟨b1, by rw [hw1c]; exact b2, b3, by rw [hw1r]; exact b4⟩
                    have ihl := ih walk1 maze2 rng (.loop curr (fun _ => false)) out h
                      hw1len hm2len hm2c1 hm2r1 hok1 hti1
                    rw [hw1c, hw1r] at ihl
                    refine ⟨ihl.1, ?_⟩
                    have e2 := ihl.2
                    have hexl : extraOf walk1 (.loop curr (fun _ => false)) = 0 := rfl
                    rw [hexl] at e2
                    have hex : extraOf w (.visit curr prev) = 1 := by
                      simp only [extraOf]
                      rw [if_pos ⟨hpc, hcin, hnv⟩]
                    rw [hex]
                    omega
                  · -- recursive call from a visited neighbour
                    have hne_pc : prev ≠ curr := unit_adj_ne hadjU
                    have hpxw : prev.x.toNat < w.columns := by
                      have := hpin.2.1; have := hpin.1; omega
                    have hpyw : prev.y.toNat < w.rows := by
                      have := hpin.2.2.2; have := hpin.2.2.1; omega
                    have hadjN : adjRooms (curr.x.toNat, curr.y.toNat)
                        (prev.x.toNat, prev.y.toNat) := by
                      unfold unit_adj at hadjU
                      unfold adjRooms
                      dsimp only
                      obtain ⟨a1, a2, a3, a4⟩ := hcin
                      obtain ⟨b1, b2, b3, b4⟩ := hpin
                      omega
                    have hmpxN : (⟨curr.x * 2 + 1 + (prev.x - curr.x),
                        curr.y * 2 + 1 + (prev.y - curr.y)⟩ : pt).x.toNat =
                        curr.x.toNat + prev.x.toNat + 1 := by
                      show (curr.x * 2 + 1 + (prev.x - curr.x)).toNat =
                        curr.x.toNat + prev.x.toNat + 1
                      obtain ⟨a1, -, -, -⟩ := hcin
                      obtain ⟨b1, -, -, -⟩ := hpin
                      omega
                    have hmpyN : (⟨curr.x * 2 + 1 + (prev.x - curr.x),
                        curr.y * 2 + 1 + (prev.y - curr.y)⟩ : pt).y.toNat =
                        curr.y.toNat + prev.y.toNat + 1 := by
                      show (curr.y * 2 + 1 + (prev.y - curr.y)).toNat =
                        curr.y.toNat + prev.y.toNat + 1
                      obtain ⟨-, -, a3, -⟩ := hcin
                      obtain ⟨-, -, b3, -⟩ := hpin
                      omega
                    obtain ⟨hti, hwc2, hvc2⟩ := fresh_visit_step hlen hmlen rfl rfl hmc hmr
                      hs1 hs2 hs3 hmcx2 hmcy2 hpxw hpyw hadjN hmpxN hmpyN hpv hnv hinv
                    have hti1 : treeInv walk1.columns walk1.rows walk1 maze2 := by
                      rw [hw1c, hw1r]
                      exact hti
                    have hok1 : call_ok2 walk1 (.loop curr (fun _ => false)) := by
                      refine ⟨?_, hnew⟩
                      obtain ⟨b1, b2, b3, b4⟩ := hcin
                      exact ⟨b1, by rw [hw1c]; exact b2, b3, by rw [hw1r]; exact b4⟩
                    have ihl := ih walk1 maze2 rng (.loop curr (fun _ => false)) out h
                      hw1len hm2len hm2c1 hm2r1 hok1 hti1
                    rw [hw1c, hw1r] at ihl
                    refine ⟨ihl.1, ?_⟩
                    have e2 := ihl.2
                    have hexl : extraOf walk1 (.loop curr (fun _ => false)) = 0 := rfl
                    rw [hexl] at e2
                    have hex : extraOf w (.visit curr prev) = 0 := by
                      simp only [extraOf]
                      rw [if_neg]
                      rintro ⟨hpc2, -, -⟩
                      exact hne_pc hpc2
                    rw [hex]
                    omega
    | loop curr done2 =>
      rw [maze_step] at h
      split at h
      · cases h
        refine ⟨hinv, ?_⟩
        have hexl : extraOf w (.loop curr done2) = 0 := rfl
        rw [hexl]
        dsimp only
        omega
      · rcases hpick : prng_pick_free (n + 1) rng done2 with e | pick
        · rw [hpick, except_bind_err] at h; exact Except.noConfusion h
        · rw [hpick, except_bind_ok] at h
          rcases hsub : maze_step n w m pick.2
              (.visit ⟨curr.x + (directions pick.1).x, curr.y + (directions pick.1).y⟩ curr)
            with e | step
          · rw [hsub, except_bind_err] at h; exact Except.noConfusion h
          · rw [hsub, except_bind_ok] at h
            have ds := maze_step_dims n w m pick.2 _ step hsub
            obtain ⟨hokin, hokv⟩ := hok
            have hok1 : call_ok2 w (.visit
                ⟨curr.x + (directions pick.1).x, curr.y + (directions pick.1).y⟩ curr) :=
              Or.inr ⟨unit_adj_dir curr pick.1, hokin, hokv⟩
            have ih1 := ih w m pick.2 _ step hsub hlen hmlen hmc hmr hok1 hinv
            have hw2len : step.1.cells.length = step.1.columns * step.1.rows := by
              rw [ds.2.2.1, ds.1, ds.2.1]
              exact hlen
            have hm2len2 : step.2.1.cells.length = step.2.1.columns * step.2.1.rows := by
              rw [ds.2.2.2.2.2, ds.2.2.2.1, ds.2.2.2.2.1]
              exact hmlen
            have hmc2 : step.2.1.columns = 2 * step.1.columns + 1 := by
              rw [ds.2.2.2.1, ds.1]
              exact hmc
            have hmr2 : step.2.1.rows = 2 * step.1.rows + 1 := by
              rw [ds.2.2.2.2.1, ds.2.1]
              exact hmr
            have hvis := (maze_step_mono n w m pick.2 _ step hsub).1
              curr.x.toNat curr.y.toNat hokv
            have hok2 : call_ok2 step.1
                (.loop curr (fun i => if i = pick.1 then true else done2 i)) := by
              refine ⟨?_, hvis⟩
              obtain ⟨b1, b2, b3, b4⟩ := hokin
              exact ⟨b1, by rw [ds.1]; exact b2, b3, by rw [ds.2.1]; exact b4⟩
            have hti1 : treeInv step.1.columns step.1.rows step.1 step.2.1 := by
              rw [ds.1, ds.2.1]
              exact ih1.1
            have ih2 := ih step.1 step.2.1 step.2.2 _ out h hw2len hm2len2 hmc2 hmr2
              hok2 hti1
            rw [ds.1, ds.2.1] at ih2
            refine ⟨ih2.1, ?_⟩
            have e1 := ih1.2
            have e2 := ih2.2
            have hexv : extraOf w (.visit
                ⟨curr.x + (directions pick.1).x, curr.y + (directions pick.1).y⟩ curr) = 0 := by
              simp only [extraOf]
              rw [if_neg]
              rintro ⟨hpc, -, -⟩
              exact unit_adj_ne (unit_adj_dir curr pick.1) hpc
            have hexl1 : extraOf step.1
                (.loop curr (fun i => if i = pick.1 then true else done2 i)) = 0 := rfl
            have hexl2 : extraOf w (.loop curr done2) = 0 := rfl
            rw [hexv] at e1
            rw [hexl1] at e2
            rw [hexl2]
            omega

theorem mem_hWalls {m : grid} {W H i j : Nat} :
    (i, j) ∈ hWalls m W H ↔
      (i + 1 < W ∧ j < H ∧ cellN m (2 * i + 2) (2 * j + 1) = 0) := by
  unfold hWalls
  rw [Finset.mem_filter, Finset.mem_product, Finset.mem_range, Finset.mem_range]
  constructor
  · rintro ⟨⟨h1, h2⟩, h3, h4⟩
    exact ⟨h3, h2, h4⟩
  · rintro ⟨h1, h2, h3⟩
    exact ⟨⟨by omega, h2⟩, h1, h3⟩

theorem mem_vWalls {m : grid} {W H i j : Nat} :
    (i, j) ∈ vWalls m W H ↔
      (i < W ∧ j + 1 < H ∧ cellN m (2 * i + 1) (2 * j + 2) = 0) := by
  unfold vWalls
  rw [Finset.mem_filter, Finset.mem_product, Finset.mem_range, Finset.mem_range]
  constructor
  · rintro ⟨⟨h1, h2⟩, h3, h4⟩
    exact ⟨h1, h3, h4⟩
  · rintro ⟨h1, h2, h3⟩
    exact ⟨⟨h1, by omega⟩, h2, h3⟩

/-- With the boundary walls intact, the carved mixed-parity cells are
exactly the interior walls: their number is the wall count. -/
theorem mixedCarved_eq (m : grid) (W H : Nat)
    (hmc : m.columns = 2 * W + 1) (hmr : m.rows = 2 * H + 1)
    (hb1 : ∀ j, j < H → cellN m 0 (2 * j + 1) ≠ 0 ∧ cellN m (2 * W) (2 * j + 1) ≠ 0)
    (hb2 : ∀ i, i < W → cellN m (2 * i + 1) 0 ≠ 0 ∧ cellN m (2 * i + 1) (2 * H) ≠ 0) :
    mixedCarvedCount m = wallCount m W H := by
  unfold mixedCarvedCount
  rw [hmc, hmr]
  have hset : (Finset.range (2 * W + 1) ×ˢ Finset.range (2 * H + 1)).filter
      (fun xy => (xy.1 + xy.2) % 2 = 1 ∧ cellN m xy.1 xy.2 = 0) =
      (hWalls m W H).image (fun ij => (2 * ij.1 + 2, 2 * ij.2 + 1)) ∪
        (vWalls m W H).image (fun ij => (2 * ij.1 + 1, 2 * ij.2 + 2)) := by
    ext xy
    rcases xy with ⟨x, y⟩
    rw [Finset.mem_filter, Finset.mem_product, Finset.mem_range, Finset.mem_range,
      Finset.mem_union, Finset.mem_image, Finset.mem_image]
    constructor
    · rintro ⟨⟨hx, hy⟩, hpar, hcell⟩
      dsimp only at hpar hcell
      by_cases hxe : x % 2 = 0
      · left
        have hx0 : x ≠ 0 := by
          intro he
          rw [he] at hcell
          refine (hb1 (y / 2) (by omega)).1 ?_
          rw [show 2 * (y / 2) + 1 = y by omega]
          exact hcell
        have hxW : x ≠ 2 * W := by
          intro he
          rw [he] at hcell
          refine (hb1 (y / 2) (by omega)).2 ?_
          rw [show 2 * (y / 2) + 1 = y by omega]
          exact hcell
        refine ⟨(x / 2 - 1, y / 2), ?_, ?_⟩
        · rw [mem_hWalls]
          refine ⟨by omega, by omega, ?_⟩
          rw [show 2 * (x / 2 - 1) + 2 = x by omega, show 2 * (y / 2) + 1 = y by omega]
          exact hcell
        · rw [show 2 * (x / 2 - 1) + 2 = x by omega, show 2 * (y / 2) + 1 = y by omega]
      · right
        have hy0 : y ≠ 0 := by
          intro he
          rw [he] at hcell
          refine (hb2 (x / 2) (by omega)).1 ?_
          rw [show 2 * (x / 2) + 1 = x by omega]
          exact hcell
        have hyH : y ≠ 2 * H := by
          intro he
          rw [he] at hcell
          refine (hb2 (x / 2) (by omega)).2 ?_
          rw [show 2 * (x / 2) + 1 = x by omega]
          exact hcell
        refine ⟨(x / 2, y / 2 - 1), ?_, ?_⟩
        · rw [mem_vWalls]
          refine ⟨by omega, by omega, ?_⟩
          rw [show 2 * (x / 2) + 1 = x by omega, show 2 * (y / 2 - 1) + 2 = y by omega]
          exact hcell
        · rw [show 2 * (x / 2) + 1 = x by omega, show 2 * (y / 2 - 1) + 2 = y by omega]
    · rintro (⟨⟨i, j⟩, hmem', heq⟩ | ⟨⟨i, j⟩, hmem', heq⟩)
      · rw [mem_hWalls] at hmem'
        obtain ⟨hiW, hjH, hcell⟩ := hmem'
        have hex : 2 * i + 2 = x := congrArg Prod.fst heq
        have hey : 2 * j + 1 = y := congrArg Prod.snd heq
        refine ⟨⟨by omega, by omega⟩, ?_, ?_⟩
        · dsimp only
          omega
        · dsimp only
          rw [← hex, ← hey]
          exact hcell
      · rw [mem_vWalls] at hmem'
        obtain ⟨hiW, hjH, hcell⟩ := hmem'
        have hex : 2 * i + 1 = x := congrArg Prod.fst heq
        have hey : 2 * j + 2 = y := congrArg Prod.snd heq
        refine ⟨⟨by omega, by omega⟩, ?_, ?_⟩
        · dsimp only
          omega
        · dsimp only
          rw [← hex, ← hey]
          exact hcell
  rw [hset, Finset.card_union_of_disjoint, Finset.card_image_of_injective,
    Finset.card_image_of_injective]
  · rfl
  · rintro ⟨i1, j1⟩ ⟨i2, j2⟩ he
    have e1 : 2 * i1 + 1 = 2 * i2 + 1 := congrArg Prod.fst he
    have e2 : 2 * j1 + 2 = 2 * j2 + 2 := congrArg Prod.snd he
    rw [Prod.mk.injEq]
    exact ⟨by omega, by omega⟩
  · rintro ⟨i1, j1⟩ ⟨i2, j2⟩ he
    have e1 : 2 * i1 + 2 = 2 * i2 + 2 := congrArg Prod.fst he
    have e2 : 2 * j1 + 1 = 2 * j2 + 1 := congrArg Prod.snd he
    rw [Prod.mk.injEq]
    exact ⟨by omega, by omega⟩
  · rw [Finset.disjoint_left]
    rintro ⟨x, y⟩ hmem1 hmem2
    rw [Finset.mem_image] at hmem1 hmem2
    obtain ⟨⟨i1, j1⟩, -, he1⟩ := hmem1
    obtain ⟨⟨i2, j2⟩, -, he2⟩ := hmem2
    have e1 : 2 * i1 + 2 = x := congrArg Prod.fst he1
    have e2 : 2 * i2 + 1 = x := congrArg Prod.fst he2
    omega

theorem roomGraph_init_no_adj (W H : Nat) :
    ∀ p q : Fin W × Fin H,
      ¬ (roomGraph (grid_alloc_init (W * 2 + 1) (H * 2 + 1) 1) W H).Adj p q := by
  rintro p q ⟨hadj, hcell⟩
  obtain ⟨w1, w2, -⟩ := adjRooms_bounds p.1.isLt p.2.isLt q.1.isLt q.2.isLt hadj
  simp only [cellN, grid_alloc_init] at hcell
  rw [getD_replicate] at hcell
  · exact absurd hcell (by omega)
  · exact idx_lt (by omega) (by omega)

/-- The fresh all-walls maze over an unvisited walk grid satisfies the
spanning-tree invariant. -/
theorem treeInv_init (W H : Nat) :
    treeInv W H (grid_alloc_init W H 0) (grid_alloc_init (W * 2 + 1) (H * 2 + 1) 1) := by
  have hone : ∀ x y, x < W * 2 + 1 → y < H * 2 + 1 →
      cellN (grid_alloc_init (W * 2 + 1) (H * 2 + 1) 1) x y = 1 := by
    intro x y hx hy
    simp only [cellN, grid_alloc_init]
    rw [getD_replicate]
    exact idx_lt (by omega) (by omega)
  refine ⟨?_, ?_, ?_, ?_, ?_, ?_⟩
  · intro i j hi hj hcell
    rw [hone _ _ (by omega) (by omega)] at hcell
    exact absurd hcell (by omega)
  · intro i j hi hj hcell
    rw [hone _ _ (by omega) (by omega)] at hcell
    exact absurd hcell (by omega)
  · intro j hj
    constructor
    · rw [hone 0 (2 * j + 1) (by omega) (by omega)]
      omega
    · rw [hone (2 * W) (2 * j + 1) (by omega) (by omega)]
      omega
  · intro i hi
    constructor
    · rw [hone (2 * i + 1) 0 (by omega) (by omega)]
      omega
    · rw [hone (2 * i + 1) (2 * H) (by omega) (by omega)]
      omega
  · intro p q hp
    exact absurd (getD_replicate_zero (W * H) _) hp
  · intro a c hc
    cases c with
    | nil => exact hc.ne_nil rfl
    | cons hadj q => exact roomGraph_init_no_adj W H _ _ hadj

theorem geomS_succ_mul (n : Nat) :
    geomS (n + 1) = 6364136223846793005 * geomS n + 1 := by
  induction n with
  | zero => norm_num [geomS]
  | succ n ih =>
    calc geomS (n + 2) = geomS (n + 1) + 6364136223846793005 ^ (n + 1) := rfl
      _ = (6364136223846793005 * geomS n + 1) + 6364136223846793005 ^ (n + 1) := by
          rw [ih]
      _ = 6364136223846793005 * (geomS n + 6364136223846793005 ^ n) + 1 := by ring
      _ = 6364136223846793005 * geomS (n + 1) + 1 := rfl

theorem geomS_linear (n : Nat) :
    6364136223846793004 * geomS n + 1 = 6364136223846793005 ^ n := by
  induction n with
  | zero => norm_num [geomS]
  | succ n ih =>
    calc 6364136223846793004 * geomS (n + 1) + 1
        = (6364136223846793004 * geomS n + 1) + 6364136223846793004 * 6364136223846793005 ^ n := by
          show 6364136223846793004 * (geomS n + 6364136223846793005 ^ n) + 1 = _
          ring
      _ = 6364136223846793005 ^ n + 6364136223846793004 * 6364136223846793005 ^ n := by
          rw [ih]
      _ = 6364136223846793005 ^ (n + 1) := by rw [pow_succ]; ring

theorem geomS_double (n : Nat) :
    geomS (2 * n) = geomS n * (6364136223846793005 ^ n + 1) := by
  induction n with
  | zero => norm_num [geomS]
  | succ n ih =>
    have hkey : geomS n + 6364136223846793005 ^ n =
        6364136223846793005 * geomS n + 1 := by
      rw [show geomS n + 6364136223846793005 ^ n = geomS (n + 1) from rfl,
        geomS_succ_mul]
    have h2 : 2 * (n + 1) = 2 * n + 1 + 1 := by ring
    calc geomS (2 * (n + 1))
        = geomS (2 * n) + 6364136223846793005 ^ (2 * n) +
            6364136223846793005 ^ (2 * n + 1) := by rw [h2]; rfl
      _ = geomS n * (6364136223846793005 ^ n + 1) + 6364136223846793005 ^ (2 * n) +
            6364136223846793005 ^ (2 * n + 1) := by rw [ih]
      _ = geomS n * (6364136223846793005 ^ n + 1) +
            6364136223846793005 ^ n * 6364136223846793005 ^ n +
            6364136223846793005 ^ n * 6364136223846793005 ^ n * 6364136223846793005 := by
          rw [pow_succ, show 2 * n = n + n by ring, pow_add]
      _ = geomS n +
            6364136223846793005 ^ n * 6364136223846793005 ^ n * 6364136223846793005 +
            6364136223846793005 ^ n * (geomS n + 6364136223846793005 ^ n) := by ring
      _ = geomS n +
            6364136223846793005 ^ n * 6364136223846793005 ^ n * 6364136223846793005 +
            6364136223846793005 ^ n * (6364136223846793005 * geomS n + 1) := by
          rw [hkey]
      _ = (geomS n + 6364136223846793005 ^ n) *
            (6364136223846793005 ^ n * 6364136223846793005 + 1) := by ring
      _ = geomS (n + 1) * (6364136223846793005 ^ (n + 1) + 1) := by
          rw [pow_succ]
          rfl

theorem pow_A_mod2 (n : Nat) : 6364136223846793005 ^ n % 2 = 1 := by
  rw [Nat.pow_mod]
  norm_num

theorem pow_A_mod4 (n : Nat) : 6364136223846793005 ^ n % 4 = 1 := by
  rw [Nat.pow_mod]
  norm_num

theorem geomS_mod_two (n : Nat) : geomS n % 2 = n % 2 := by
  induction n with
  | zero => rfl
  | succ n ih =>
    have h := pow_A_mod2 n
    show (geomS n + 6364136223846793005 ^ n) % 2 = (n + 1) % 2
    omega

/-- The 2-adic valuation of the geometric sum is that of its length: the key
full-period fact for a multiplier ≡ 1 (mod 4). -/
theorem geomS_dvd : ∀ k n, 2 ^ k ∣ geomS n → 2 ^ k ∣ n := by
  intro k
  induction k with
  | zero =>
    intro n _
    simp
  | succ k ih =>
    intro n h
    by_cases hpar : n % 2 = 0
    · obtain ⟨m, hm⟩ : ∃ m, n = 2 * m := ⟨n / 2, by omega⟩
      subst hm
      rw [geomS_double] at h
      have h4 := pow_A_mod4 m
      obtain ⟨u, hu, huodd⟩ : ∃ u, 6364136223846793005 ^ m + 1 = 2 * u ∧ u % 2 = 1 :=
        ⟨(6364136223846793005 ^ m + 1) / 2, by omega, by omega⟩
      rw [hu] at h
      have h2 : 2 ^ k ∣ geomS m * u := by
        have hrw : geomS m * (2 * u) = 2 * (geomS m * u) := by ring
        rw [hrw, pow_succ, Nat.mul_comm (2 ^ k) 2] at h
        exact (Nat.mul_dvd_mul_iff_left (by omega : 0 < 2)).mp h
      have hcop : Nat.Coprime (2 ^ k) u :=
        Nat.Coprime.pow_left k ((Nat.prime_two.coprime_iff_not_dvd).mpr (by omega))
      have h3 : 2 ^ k ∣ geomS m := hcop.dvd_of_dvd_mul_right h2
      obtain ⟨t, ht⟩ := ih m h3
      exact ⟨t, by rw [ht, pow_succ]; ring⟩
    · exfalso
      have hs2 := geomS_mod_two n
      have h2 : 2 ∣ geomS n := dvd_trans (dvd_pow_self 2 (Nat.succ_ne_zero k)) h
      omega

theorem lcgIter_add (c a b s : Nat) :
    lcgIter c (a + b) s = lcgIter c b (lcgIter c a s) := by
  induction a generalizing s with
  | zero =>
    rw [Nat.zero_add]
    rfl
  | succ a iha =>
    rw [show a + 1 + b = (a + b) + 1 by ring]
    show lcgIter c (a + b) ((s * 6364136223846793005 + c) % 2 ^ 64) = _
    rw [iha]
    rfl

theorem lcgIter_lt {s : Nat} (hs : s < 2 ^ 64) (c n : Nat) : lcgIter c n s < 2 ^ 64 := by
  induction n generalizing s with
  | zero => exact hs
  | succ n ih =>
    show lcgIter c n ((s * 6364136223846793005 + c) % 2 ^ 64) < 2 ^ 64
    exact ih (Nat.mod_lt _ (by norm_num))

theorem lcgIter_closed {s : Nat} (hs : s < 2 ^ 64) (c n : Nat) :
    lcgIter c n s =
      (s * 6364136223846793005 ^ n + c * geomS n) % 2 ^ 64 := by
  induction n generalizing s with
  | zero =>
    show s = (s * 6364136223846793005 ^ 0 + c * geomS 0) % 2 ^ 64
    simp only [geomS, pow_zero, Nat.mul_one, Nat.mul_zero, Nat.add_zero]
    exact (Nat.mod_eq_of_lt hs).symm
  | succ n ih =>
    have hlt : (s * 6364136223846793005 + c) % 2 ^ 64 < 2 ^ 64 :=
      Nat.mod_lt _ (by norm_num)
    have h1 : ((s * 6364136223846793005 + c) % 2 ^ 64) * 6364136223846793005 ^ n +
        c * geomS n ≡ (s * 6364136223846793005 + c) * 6364136223846793005 ^ n +
        c * geomS n [MOD 2 ^ 64] :=
      Nat.ModEq.add_right _ (Nat.ModEq.mul_right _ (Nat.mod_modEq _ _))
    have h2 : (s * 6364136223846793005 + c) * 6364136223846793005 ^ n + c * geomS n =
        s * 6364136223846793005 ^ (n + 1) + c * geomS (n + 1) := by
      show _ = s * 6364136223846793005 ^ (n + 1) + c * (geomS n + 6364136223846793005 ^ n)
      rw [pow_succ]
      ring
    calc lcgIter c (n + 1) s
        = lcgIter c n ((s * 6364136223846793005 + c) % 2 ^ 64) := rfl
      _ = (((s * 6364136223846793005 + c) % 2 ^ 64) * 6364136223846793005 ^ n +
            c * geomS n) % 2 ^ 64 := ih hlt
      _ = ((s * 6364136223846793005 + c) * 6364136223846793005 ^ n + c * geomS n) %
            2 ^ 64 := h1
      _ = (s * 6364136223846793005 ^ (n + 1) + c * geomS (n + 1)) % 2 ^ 64 := by rw [h2]

/-- A state below `2^64` returns to itself only after a multiple of `2^64`
steps: the LCG has full period. -/
theorem lcgIter_fix {c s n : Nat} (hs : s < 2 ^ 64) (hc : c % 2 = 1)
    (h : lcgIter c n s = s) : 2 ^ 64 ∣ n := by
  rw [lcgIter_closed hs] at h
  have key : (6364136223846793004 * s + c) * geomS n + s ≡ s [MOD 2 ^ 64] := by
    have heq : s * 6364136223846793005 ^ n + c * geomS n =
        (6364136223846793004 * s + c) * geomS n + s := by
      rw [← geomS_linear n]
      ring
    show _ % 2 ^ 64 = s % 2 ^ 64
    rw [← heq, h, Nat.mod_eq_of_lt hs]
  have hdvd : 2 ^ 64 ∣ (6364136223846793004 * s + c) * geomS n := by
    have hd := (Nat.modEq_iff_dvd' (Nat.le_add_left s _)).mp key.symm
    rwa [Nat.add_sub_cancel] at hd
  have hodd : ¬ 2 ∣ (6364136223846793004 * s + c) := by omega
  have hcop : Nat.Coprime (2 ^ 64) (6364136223846793004 * s + c) :=
    Nat.Coprime.pow_left _ ((Nat.prime_two.coprime_iff_not_dvd).mpr hodd)
  have hSdvd : 2 ^ 64 ∣ geomS n := hcop.dvd_of_dvd_mul_left hdvd
  exact geomS_dvd 64 n hSdvd

/-- Full period: from any state, any state is reached in fewer than `2^64`
steps. -/
theorem lcgIter_reach {c : Nat} (hc : c % 2 = 1) {s t : Nat} (hs : s < 2 ^ 64)
    (ht : t < 2 ^ 64) : ∃ n, n < 2 ^ 64 ∧ lcgIter c n s = t := by
  have key : ∀ a b : Fin (2 ^ 64), a.val ≤ b.val →
      lcgIter c a.val s = lcgIter c b.val s → a = b := by
    intro a b hab heq
    have hsplit : b.val = a.val + (b.val - a.val) := by omega
    have hcomp : lcgIter c b.val s = lcgIter c (b.val - a.val) (lcgIter c a.val s) := by
      calc lcgIter c b.val s = lcgIter c (a.val + (b.val - a.val)) s := by rw [← hsplit]
        _ = lcgIter c (b.val - a.val) (lcgIter c a.val s) := lcgIter_add _ _ _ _
    have hfix : lcgIter c (b.val - a.val) (lcgIter c a.val s) = lcgIter c a.val s := by
      rw [← hcomp]
      exact heq.symm
    have hdvd := lcgIter_fix (lcgIter_lt hs c a.val) hc hfix
    have hz : b.val - a.val = 0 := Nat.eq_zero_of_dvd_of_lt hdvd (by omega)
    exact Fin.ext (by omega)
  have hinj : Function.Injective
      (fun n : Fin (2 ^ 64) => (⟨lcgIter c n.val s, lcgIter_lt hs c n.val⟩ :
        Fin (2 ^ 64))) := by
    intro n1 n2 he
    have he' : lcgIter c n1.val s = lcgIter c n2.val s := congrArg Fin.val he
    rcases Nat.le_total n1.val n2.val with hle | hle
    · exact key n1 n2 hle he'
    · exact (key n2 n1 hle he'.symm).symm
  have hsurj := Finite.injective_iff_surjective.mp hinj
  obtain ⟨n, hn⟩ := hsurj ⟨t, ht⟩
  exact ⟨n.val, n.isLt, congrArg Fin.val hn⟩


theorem rngIter_state (n : Nat) (r : pcg32_state) :
    rngIter n r = ⟨lcgIter (r.inc ||| 1) n r.state, r.inc⟩ := by
  induction n generalizing r with
  | zero => rfl
  | succ n ih =>
    show rngIter n (pcg32_nextuint r).2 = _
    rw [ih]
    rfl


theorem pcg32_nextuint_fst (r : pcg32_state) :
    (pcg32_nextuint r).1 = pcg32_out r.state := by rfl

/-- Residue witnesses: the state `r·2^27` outputs exactly `r`. -/
theorem pcg32_out_residue : ∀ r : Fin 4, pcg32_out (r.val * 2 ^ 27) % 4 = r.val := by
  decide

/-- From any 64-bit state, every output residue mod 4 is eventually drawn. -/
theorem pcg32_residue_reach (r : pcg32_state) (hs : r.state < 2 ^ 64) (r0 : Fin 4) :
    ∃ n, n < 2 ^ 64 ∧ (pcg32_nextuint (rngIter n r)).1 % 4 = r0.val := by
  have hc : (r.inc ||| 1) % 2 = 1 := by
    rw [Nat.mod_two_eq_one_iff_testBit_zero]
    simp
  have htlt : r0.val * 2 ^ 27 < 2 ^ 64 := by
    have := r0.isLt
    omega
  obtain ⟨n, hn, hstate⟩ := lcgIter_reach hc hs htlt
  refine ⟨n, hn, ?_⟩
  rw [rngIter_state, pcg32_nextuint_fst]
  show pcg32_out (lcgIter (r.inc ||| 1) n r.state) % 4 = r0.val
  rw [hstate]
  exact pcg32_out_residue r0

theorem prng_pick_free_mono :
    ∀ (fuel : Nat) (rng : pcg32_state) (done : Fin 4 → Bool) (res : Fin 4 × pcg32_state),
      prng_pick_free fuel rng done = .ok res →
      prng_pick_free (fuel + 1) rng done = .ok res := by
  intro fuel
  induction fuel with
  | zero => intro rng done res h; exact Except.noConfusion h
  | succ n ih =>
    intro rng done res h
    rw [prng_pick_free] at h
    rw [prng_pick_free]
    split at h
    · rename_i hcond
      rw [if_pos hcond]
      exact ih _ _ _ h
    · rename_i hcond
      rw [if_neg hcond]
      exact h

theorem prng_pick_free_mono_le {f1 f2 : Nat} (h : f1 ≤ f2) {rng : pcg32_state}
    {done : Fin 4 → Bool} {res : Fin 4 × pcg32_state}
    (hok : prng_pick_free f1 rng done = .ok res) :
    prng_pick_free f2 rng done = .ok res := by
  induction f2, h using Nat.le_induction with
  | base => exact hok
  | succ n hn ih => exact prng_pick_free_mono n _ _ _ ih

/-- A successful pick returns a free slot and a reduced state. -/
theorem prng_pick_free_ok_facts :
    ∀ (fuel : Nat) (rng : pcg32_state) (done : Fin 4 → Bool) (res : Fin 4 × pcg32_state),
      prng_pick_free fuel rng done = .ok res →
      done res.1 = false ∧ res.2.state < 2 ^ 64 := by
  intro fuel
  induction fuel with
  | zero => intro _ _ _ h; exact Except.noConfusion h
  | succ n ih =>
    intro rng done res h
    rw [prng_pick_free] at h
    split at h
    · exact ih _ _ _ h
    · rename_i hcond
      cases h
      constructor
      · exact Bool.eq_false_iff.mpr hcond
      · show (rng.state * 6364136223846793005 + (rng.inc ||| 1)) % 2 ^ 64 < 2 ^ 64
        exact Nat.mod_lt _ (by norm_num)

theorem prng_pick_free_succeeds :
    ∀ (N : Nat) (rng : pcg32_state) (done : Fin 4 → Bool),
      done ⟨(pcg32_nextuint (rngIter N rng)).1 % 4,
        Nat.mod_lt _ (by omega)⟩ = false →
      ∃ res, prng_pick_free (N + 1) rng done = .ok res := by
  intro N
  induction N with
  | zero =>
    intro rng done hfree
    have hfree' : done ⟨(pcg32_nextuint rng).1 % 4, Nat.mod_lt _ (by omega)⟩ = false :=
      hfree
    have hcond : ¬ done ⟨(pcg32_nextuint rng).1 % 4,
        Nat.mod_lt (pcg32_nextuint rng).1 (by omega)⟩ = true := by
      intro hcond
      rw [hfree'] at hcond
      exact Bool.noConfusion hcond
    exact ⟨_, by rw [prng_pick_free, if_neg hcond]⟩
  | succ N ih =>
    intro rng done hfree
    by_cases hc : done ⟨(pcg32_nextuint rng).1 % 4,
        Nat.mod_lt (pcg32_nextuint rng).1 (by omega)⟩ = true
    · obtain ⟨res, hres⟩ := ih (pcg32_nextuint rng).2 done (by
        have heq : rngIter (N + 1) rng = rngIter N (pcg32_nextuint rng).2 := rfl
        rw [← heq]
        exact hfree)
      exact ⟨res, by rw [prng_pick_free, if_pos hc]; exact hres⟩
    · exact ⟨_, by rw [prng_pick_free, if_neg hc]⟩

/-- The rejection loop of `maze_visit` terminates whenever some direction is
still free. -/
theorem prng_pick_free_terminates (rng : pcg32_state) (hs : rng.state < 2 ^ 64)
    (done : Fin 4 → Bool) (k : Fin 4) (hk : done k = false) :
    ∃ fuel res, prng_pick_free fuel rng done = .ok res := by
  obtain ⟨n, hn, hres⟩ := pcg32_residue_reach rng hs k
  have hfree : done ⟨(pcg32_nextuint (rngIter n rng)).1 % 4,
      Nat.mod_lt _ (by omega)⟩ = false := by
    have he : (⟨(pcg32_nextuint (rngIter n rng)).1 % 4,
        Nat.mod_lt _ (by omega)⟩ : Fin 4) = k := Fin.ext hres
    rw [he]
    exact hk
  obtain ⟨res, h⟩ := prng_pick_free_succeeds n rng done hfree
  exact ⟨n + 1, res, h⟩

/-- More fuel never changes a successful result. -/
theorem maze_step_fuel_mono :
    ∀ (fuel : Nat) (w m : grid) (rng : pcg32_state) (call : mazeCall)
      (out : grid × grid × pcg32_state),
      maze_step fuel w m rng call = .ok out →
      maze_step (fuel + 1) w m rng call = .ok out := by
  intro fuel
  induction fuel with
  | zero => intro w m rng call out h; exact Except.noConfusion h
  | succ n ih =>
    intro w m rng call out h
    cases call with
    | visit curr prev =>
      rw [maze_step] at h
      rw [maze_step]
      split at h
      · rename_i hc; rw [if_pos hc]; exact h
      · rename_i hc
        rw [if_neg hc]
        rcases hg : grid_get w curr with e | wv
        · rw [hg, except_bind_err] at h; exact Except.noConfusion h
        · rw [hg, except_bind_ok] at h
          rw [except_bind_ok]
          split at h
          · rename_i hwv; rw [if_pos hwv]; exact h
          · rename_i hwv
            rw [if_neg hwv]
            rcases hs1 : grid_set w curr 1 with e | walk1
            · rw [hs1, except_bind_err] at h; exact Except.noConfusion h
            · rw [hs1, except_bind_ok] at h
              rw [except_bind_ok]
              rcases hs2 : grid_set m ⟨curr.x * 2 + 1, curr.y * 2 + 1⟩ 0 with e | maze1
              · rw [hs2, except_bind_err] at h; exact Except.noConfusion h
              · rw [hs2, except_bind_ok] at h
                rw [except_bind_ok]
                rcases hs3 : grid_set maze1
                    ⟨curr.x * 2 + 1 + (prev.x - curr.x), curr.y * 2 + 1 + (prev.y - curr.y)⟩ 0
                  with e | maze2
                · rw [hs3, except_bind_err] at h; exact Except.noConfusion h
                · rw [hs3, except_bind_ok] at h
                  rw [except_bind_ok]
                  exact ih _ _ _ _ _ h
    | loop curr done2 =>
      rw [maze_step] at h
      rw [maze_step]
      split at h
      · rename_i hc; rw [if_pos hc]; exact h
      · rename_i hc
        rw [if_neg hc]
        rcases hpick : prng_pick_free (n + 1) rng done2 with e | pick
        · rw [hpick, except_bind_err] at h; exact Except.noConfusion h
        · rw [hpick, except_bind_ok] at h
          rw [prng_pick_free_mono _ _ _ _ hpick, except_bind_ok]
          rcases hsub : maze_step n w m pick.2
              (.visit ⟨curr.x + (directions pick.1).x, curr.y + (directions pick.1).y⟩ curr)
            with e | step
          · rw [hsub, except_bind_err] at h; exact Except.noConfusion h
          · rw [hsub, except_bind_ok] at h
            rw [ih _ _ _ _ _ hsub, except_bind_ok]
            exact ih _ _ _ _ _ h

theorem maze_step_fuel_mono_le {f1 f2 : Nat} (h : f1 ≤ f2) {w m : grid}
    {rng : pcg32_state} {call : mazeCall} {out : grid × grid × pcg32_state}
    (hok : maze_step f1 w m rng call = .ok out) :
    maze_step f2 w m rng call = .ok out := by
  induction f2, h using Nat.le_induction with
  | base => exact hok
  | succ n hn ih => exact maze_step_fuel_mono n _ _ _ _ _ ih

theorem visitCount_le (w : grid) (W H : Nat) : visitCount w W H ≤ W * H := by
  unfold visitCount
  calc ((Finset.range W ×ˢ Finset.range H).filter _).card
      ≤ (Finset.range W ×ˢ Finset.range H).card := Finset.card_filter_le _ _
    _ = W * H := by rw [Finset.card_product, Finset.card_range, Finset.card_range]

theorem visitCount_lt {w : grid} {W H i j : Nat} (hi : i < W) (hj : j < H)
    (hnv : ¬ visitedN w i j) : visitCount w W H < W * H := by
  unfold visitCount
  have hsub : (Finset.range W ×ˢ Finset.range H).filter
      (fun ij => visitedN w ij.1 ij.2) ⊂ Finset.range W ×ˢ Finset.range H := by
    rw [Finset.ssubset_iff_of_subset (Finset.filter_subset _ _)]
    refine ⟨(i, j), ?_, ?_⟩
    · rw [Finset.mem_product, Finset.mem_range, Finset.mem_range]
      exact ⟨hi, hj⟩
    · rw [Finset.mem_filter]
      rintro ⟨-, hv⟩
      exact hnv hv
  calc ((Finset.range W ×ˢ Finset.range H).filter _).card
      < (Finset.range W ×ˢ Finset.range H).card := Finset.card_lt_card hsub
    _ = W * H := by rw [Finset.card_product, Finset.card_range, Finset.card_range]

theorem visitCount_step_le {w out1 : grid} {W H : Nat}
    (hmono : ∀ a b, visitedN w a b → visitedN out1 a b) :
    visitCount w W H ≤ visitCount out1 W H := by
  unfold visitCount
  apply Finset.card_le_card
  intro ij hij
  rw [Finset.mem_filter] at hij ⊢
  exact ⟨hij.1, hmono _ _ hij.2⟩

theorem visitCount_succ_le {w out1 : grid} {W H i j : Nat}
    (hi : i < W) (hj : j < H) (hnv : ¬ visitedN w i j)
    (hmono : ∀ a b, visitedN w a b → visitedN out1 a b)
    (hv : visitedN out1 i j) :
    visitCount w W H + 1 ≤ visitCount out1 W H := by
  unfold visitCount
  have hsub : insert (i, j) ((Finset.range W ×ˢ Finset.range H).filter
      (fun ij => visitedN w ij.1 ij.2)) ⊆
      (Finset.range W ×ˢ Finset.range H).filter (fun ij => visitedN out1 ij.1 ij.2) := by
    intro x hx
    rw [Finset.mem_insert] at hx
    rcases hx with he | hx
    · subst he
      rw [Finset.mem_filter, Finset.mem_product, Finset.mem_range, Finset.mem_range]
      exact ⟨⟨hi, hj⟩, hv⟩
    · rw [Finset.mem_filter] at hx ⊢
      exact ⟨hx.1, hmono _ _ hx.2⟩
  have hcard := Finset.card_le_card hsub
  rw [Finset.card_insert_of_not_mem] at hcard
  · exact hcard
  · rw [Finset.mem_filter]
    rintro ⟨-, h⟩
    exact hnv h


theorem doneCount_le (done : Fin 4 → Bool) : doneCount done ≤ 4 := by
  unfold doneCount
  calc (Finset.univ.filter _).card ≤ (Finset.univ : Finset (Fin 4)).card :=
    Finset.card_filter_le _ _
    _ = 4 := by simp

theorem doneCount_update {done : Fin 4 → Bool} {k : Fin 4} (hk : done k = false) :
    doneCount (fun i => if i = k then true else done i) + 1 = doneCount done := by
  unfold doneCount
  have hset : Finset.univ.filter
      (fun i : Fin 4 => (if i = k then true else done i) = false) =
      (Finset.univ.filter (fun i : Fin 4 => done i = false)).erase k := by
    ext i
    rw [Finset.mem_erase, Finset.mem_filter, Finset.mem_filter]
    constructor
    · rintro ⟨hu, hcond⟩
      by_cases he : i = k
      · rw [if_pos he] at hcond
        exact Bool.noConfusion hcond
      · rw [if_neg he] at hcond
        exact ⟨he, hu, hcond⟩
    · rintro ⟨hne, hu, hcond⟩
      refine ⟨hu, ?_⟩
      rw [if_neg hne]
      exact hcond
  have hmem : k ∈ Finset.univ.filter (fun i : Fin 4 => done i = false) := by
    rw [Finset.mem_filter]
    exact ⟨Finset.mem_univ k, hk⟩
  have hpos : 0 < (Finset.univ.filter (fun i : Fin 4 => done i = false)).card :=
    Finset.card_pos.mpr ⟨k, hmem⟩
  rw [hset, Finset.card_erase_of_mem hmem]
  omega

theorem done_exists_free {done : Fin 4 → Bool}
    (h : ¬ (done 0 && done 1 && done 2 && done 3) = true) :
    ∃ k, done k = false := by
  by_cases h0 : done 0 = false
  · exact ⟨0, h0⟩
  by_cases h1 : done 1 = false
  · exact ⟨1, h1⟩
  by_cases h2 : done 2 = false
  · exact ⟨2, h2⟩
  by_cases h3 : done 3 = false
  · exact ⟨3, h3⟩
  exfalso
  apply h
  rw [Bool.not_eq_false] at h0 h1 h2 h3
  rw [h0, h1, h2, h3]
  rfl

theorem doneCount_pos {done : Fin 4 → Bool} {k : Fin 4} (hk : done k = false) :
    1 ≤ doneCount done := by
  unfold doneCount
  refine Finset.card_pos.mpr ⟨k, ?_⟩
  rw [Finset.mem_filter]
  exact ⟨Finset.mem_univ k, hk⟩

/-- The PRNG state stays a 64-bit value across a successful call. -/
theorem maze_step_rng_lt :
    ∀ (fuel : Nat) (w m : grid) (rng : pcg32_state) (call : mazeCall)
      (out : grid × grid × pcg32_state),
      maze_step fuel w m rng call = .ok out →
      rng.state < 2 ^ 64 → out.2.2.state < 2 ^ 64 := by
  intro fuel
  induction fuel with
  | zero => intro w m rng call out h; exact Except.noConfusion h
  | succ n ih =>
    intro w m rng call out h hrs
    cases call with
    | visit curr prev =>
      rw [maze_step] at h
      split at h
      · cases h; exact hrs
      · rcases hg : grid_get w curr with e | wv
        · rw [hg, except_bind_err] at h; exact Except.noConfusion h
        · rw [hg, except_bind_ok] at h
          split at h
          · cases h; exact hrs
          · rcases hs1 : grid_set w curr 1 with e | walk1
            · rw [hs1, except_bind_err] at h; exact Except.noConfusion h
            · rw [hs1, except_bind_ok] at h
              rcases hs2 : grid_set m ⟨curr.x * 2 + 1, curr.y * 2 + 1⟩ 0 with e | maze1
              · rw [hs2, except_bind_err] at h; exact Except.noConfusion h
              · rw [hs2, except_bind_ok] at h
                rcases hs3 : grid_set maze1
                    ⟨curr.x * 2 + 1 + (prev.x - curr.x), curr.y * 2 + 1 + (prev.y - curr.y)⟩ 0
                  with e | maze2
                · rw [hs3, except_bind_err] at h; exact Except.noConfusion h
                · rw [hs3, except_bind_ok] at h
                  exact ih _ _ _ _ _ h hrs
    | loop curr done2 =>
      rw [maze_step] at h
      split at h
      · cases h; exact hrs
      · rcases hpick : prng_pick_free (n + 1) rng done2 with e | pick
        · rw [hpick, except_bind_err] at h; exact Except.noConfusion h
        · rw [hpick, except_bind_ok] at h
          have hpf := prng_pick_free_ok_facts (n + 1) rng done2 pick hpick
          rcases hsub : maze_step n w m pick.2
              (.visit ⟨curr.x + (directions pick.1).x, curr.y + (directions pick.1).y⟩ curr)
            with e | step
          · rw [hsub, except_bind_err] at h; exact Except.noConfusion h
          · rw [hsub, except_bind_ok] at h
            exact ih step.1 step.2.1 step.2.2 _ out h (ih w m pick.2 _ step hsub hpf.2)

/-- Termination master lemma: with at most `U` unvisited rooms, every
admissible call of the walker completes on some fuel.  A `.visit` either
returns at once or marks a fresh room, and the shuffle loop terminates
because the full-period PCG32 stream eventually draws any still-free
direction. -/
theorem maze_step_terminates :
    ∀ (U : Nat) (W H : Nat) (w m : grid) (rng : pcg32_state) (call : mazeCall),
      w.columns = W → w.rows = H →
      w.cells.length = w.columns * w.rows →
      m.columns = 2 * w.columns + 1 → m.rows = 2 * w.rows + 1 →
      rng.state < 2 ^ 64 →
      call_ok w call →
      W * H - visitCount w W H ≤ U →
      ∃ fuel out, maze_step fuel w m rng call = .ok out := by
  intro U
  induction U using Nat.strong_induction_on with
  | _ U SIH =>
  have hvisit : ∀ (W H : Nat) (w m : grid) (rng : pcg32_state) (curr prev : pt),
      w.columns = W → w.rows = H →
      w.cells.length = w.columns * w.rows →
      m.columns = 2 * w.columns + 1 → m.rows = 2 * w.rows + 1 →
      rng.state < 2 ^ 64 →
      call_ok w (.visit curr prev) →
      W * H - visitCount w W H ≤ U →
      ∃ fuel out, maze_step fuel w m rng (.visit curr prev) = .ok out := by
    intro W H w m rng curr prev hwc hwr hlen hmc hmr hrs hok hU
    subst hwc
    subst hwr
    by_cases hoob : curr.x < 0 ∨ (w.columns : Int) ≤ curr.x ∨ curr.y < 0 ∨
        (w.rows : Int) ≤ curr.y
    · exact ⟨0 + 1, (w, m, rng), by rw [maze_step, if_pos hoob]⟩
    · have hoob2 := hoob
      push_neg at hoob2
      obtain ⟨h1, h2, h3, h4⟩ := hoob2
      have hcin : grid_inb w curr := ⟨h1, h2, h3, h4⟩
      have hmc' : (m.columns : Int) = 2 * (w.columns : Int) + 1 := by exact_mod_cast hmc
      have hmr' : (m.rows : Int) = 2 * (w.rows : Int) + 1 := by exact_mod_cast hmr
      by_cases hv : w.cells.getD (grid_idx w curr) 0 ≠ 0
      · refine ⟨0 + 1, (w, m, rng), ?_⟩
        rw [maze_step, if_neg hoob, grid_get, if_pos hcin, except_bind_ok, if_pos hv]
      · have hv' : ¬ visitedN w curr.x.toNat curr.y.toNat := fun hc => hv hc
        have hin2 : grid_inb m ⟨curr.x * 2 + 1, curr.y * 2 + 1⟩ := by
          show 0 ≤ curr.x * 2 + 1 ∧ curr.x * 2 + 1 < (m.columns : Int) ∧
            0 ≤ curr.y * 2 + 1 ∧ curr.y * 2 + 1 < (m.rows : Int)
          exact ⟨by omega, by omega, by omega, by omega⟩
        have hdir : (prev.x - curr.x = 0 ∧ prev.y - curr.y = 0) ∨
            (prev.x - curr.x = 1 ∧ prev.y - curr.y = 0) ∨
            (prev.x - curr.x = -1 ∧ prev.y - curr.y = 0) ∨
            (prev.x - curr.x = 0 ∧ prev.y - curr.y = 1) ∨
            (prev.x - curr.x = 0 ∧ prev.y - curr.y = -1) := by
          rcases hok with rfl | ⟨hadj, -⟩
          · exact Or.inl ⟨by omega, by omega⟩
          · rcases hadj with ⟨hx, hy⟩ | ⟨hx, hy⟩ | ⟨hx, hy⟩ | ⟨hx, hy⟩
            · exact Or.inr (Or.inl ⟨by omega, by omega⟩)
            · exact Or.inr (Or.inr (Or.inl ⟨by omega, by omega⟩))
            · exact Or.inr (Or.inr (Or.inr (Or.inl ⟨by omega, by omega⟩)))
            · exact Or.inr (Or.inr (Or.inr (Or.inr ⟨by omega, by omega⟩)))
        have hin3 : grid_inb
            ⟨m.columns, m.rows, m.cells.set (grid_idx m ⟨curr.x * 2 + 1, curr.y * 2 + 1⟩) 0⟩
            ⟨curr.x * 2 + 1 + (prev.x - curr.x), curr.y * 2 + 1 + (prev.y - curr.y)⟩ := by
          show 0 ≤ curr.x * 2 + 1 + (prev.x - curr.x) ∧
            curr.x * 2 + 1 + (prev.x - curr.x) < (m.columns : Int) ∧
            0 ≤ curr.y * 2 + 1 + (prev.y - curr.y) ∧
            curr.y * 2 + 1 + (prev.y - curr.y) < (m.rows : Int)
          rcases hdir with ⟨hx, hy⟩ | ⟨hx, hy⟩ | ⟨hx, hy⟩ | ⟨hx, hy⟩ | ⟨hx, hy⟩ <;>
            exact ⟨by omega, by omega, by omega, by omega⟩
        have hs1 : grid_set w curr 1 =
            .ok ⟨w.columns, w.rows, w.cells.set (grid_idx w curr) 1⟩ := by
          rw [grid_set, if_pos hcin]
        have hs2 : grid_set m ⟨curr.x * 2 + 1, curr.y * 2 + 1⟩ 0 =
            .ok ⟨m.columns, m.rows,
              m.cells.set (grid_idx m ⟨curr.x * 2 + 1, curr.y * 2 + 1⟩) 0⟩ := by
          rw [grid_set, if_pos hin2]
        have hs3 : grid_set
            ⟨m.columns, m.rows, m.cells.set (grid_idx m ⟨curr.x * 2 + 1, curr.y * 2 + 1⟩) 0⟩
            ⟨curr.x * 2 + 1 + (prev.x - curr.x), curr.y * 2 + 1 + (prev.y - curr.y)⟩ 0 =
            .ok ⟨m.columns, m.rows,
              ((m.cells.set (grid_idx m ⟨curr.x * 2 + 1, curr.y * 2 + 1⟩) 0).set
                (grid_idx
                  ⟨m.columns, m.rows,
                    m.cells.set (grid_idx m ⟨curr.x * 2 + 1, curr.y * 2 + 1⟩) 0⟩
                  ⟨curr.x * 2 + 1 + (prev.x - curr.x), curr.y * 2 + 1 + (prev.y - curr.y)⟩)
                0)⟩ := by
          rw [grid_set, if_pos hin3]
        have hcx : curr.x.toNat < w.columns := by omega
        have hcy : curr.y.toNat < w.rows := by omega
        have hvcw := visitCount_set hs1 hlen hv'
        have hUpos : 1 ≤ w.columns * w.rows - visitCount w w.columns w.rows := by
          have := visitCount_lt hcx hcy hv'
          omega
        obtain ⟨f, outl, hf⟩ := SIH (U - 1) (by omega) w.columns w.rows
          ⟨w.columns, w.rows, w.cells.set (grid_idx w curr) 1⟩
          ⟨m.columns, m.rows,
            ((m.cells.set (grid_idx m ⟨curr.x * 2 + 1, curr.y * 2 + 1⟩) 0).set
              (grid_idx
                ⟨m.columns, m.rows,
                  m.cells.set (grid_idx m ⟨curr.x * 2 + 1, curr.y * 2 + 1⟩) 0⟩
                ⟨curr.x * 2 + 1 + (prev.x - curr.x), curr.y * 2 + 1 + (prev.y - curr.y)⟩)
              0)⟩
          rng (.loop curr (fun _ => false))
          rfl rfl
          (by
            show (w.cells.set (grid_idx w curr) 1).length = w.columns * w.rows
            rw [List.length_set]
            exact hlen)
          hmc hmr hrs
          (show grid_inb _ curr from ⟨h1, h2, h3, h4⟩)
          (by
            rw [hvcw]
            omega)
        refine ⟨f + 1, outl, ?_⟩
        rw [maze_step, if_neg hoob, grid_get, if_pos hcin, except_bind_ok, if_neg hv,
          hs1, except_bind_ok, hs2, except_bind_ok, hs3, except_bind_ok]
        exact hf
  have hloop : ∀ (k : Nat) (W H : Nat) (w m : grid) (rng : pcg32_state) (curr : pt)
      (done2 : Fin 4 → Bool),
      w.columns = W → w.rows = H →
      w.cells.length = w.columns * w.rows →
      m.columns = 2 * w.columns + 1 → m.rows = 2 * w.rows + 1 →
      rng.state < 2 ^ 64 →
      grid_inb w curr →
      W * H - visitCount w W H ≤ U →
      doneCount done2 ≤ k →
      ∃ fuel out, maze_step fuel w m rng (.loop curr done2) = .ok out := by
    intro k
    induction k with
    | zero =>
      intro W H w m rng curr done2 _ _ _ _ _ _ _ _ hdc
      have hall : (done2 0 && done2 1 && done2 2 && done2 3) = true := by
        by_contra hna
        obtain ⟨kk, hkk⟩ := done_exists_free hna
        have := doneCount_pos hkk
        omega
      exact ⟨0 + 1, (w, m, rng), by rw [maze_step, if_pos hall]⟩
    | succ k ihk =>
      intro W H w m rng curr done2 hwc hwr hlen hmc hmr hrs hcin hU hdc
      subst hwc
      subst hwr
      by_cases hall : (done2 0 && done2 1 && done2 2 && done2 3) = true
      · exact ⟨0 + 1, (w, m, rng), by rw [maze_step, if_pos hall]⟩
      · obtain ⟨kk, hkk⟩ := done_exists_free hall
        obtain ⟨fp, pick, hpick⟩ := prng_pick_free_terminates rng hrs done2 kk hkk
        have hpfacts := prng_pick_free_ok_facts fp rng done2 pick hpick
        obtain ⟨f1, outc, houtc⟩ := hvisit w.columns w.rows w m pick.2
          ⟨curr.x + (directions pick.1).x, curr.y + (directions pick.1).y⟩ curr
          rfl rfl hlen hmc hmr hpfacts.2
          (Or.inr ⟨unit_adj_dir curr pick.1, hcin⟩) hU
        have dsc := maze_step_dims f1 w m pick.2 _ outc houtc
        have hmonoc := maze_step_mono f1 w m pick.2 _ outc houtc
        have hrng2 := maze_step_rng_lt f1 w m pick.2 _ outc houtc hpfacts.2
        obtain ⟨b1, b2, b3, b4⟩ := hcin
        have hinb2 : grid_inb outc.1 curr :=
          ⟨b1, by rw [dsc.1]; exact b2, b3, by rw [dsc.2.1]; exact b4⟩
        have hwc2 : outc.1.columns = w.columns := dsc.1
        have hwr2 : outc.1.rows = w.rows := dsc.2.1
        have hlen2 : outc.1.cells.length = outc.1.columns * outc.1.rows := by
          rw [dsc.2.2.1, dsc.1, dsc.2.1]
          exact hlen
        have hmc2 : outc.2.1.columns = 2 * outc.1.columns + 1 := by
          rw [dsc.2.2.2.1, dsc.1]
          exact hmc
        have hmr2 : outc.2.1.rows = 2 * outc.1.rows + 1 := by
          rw [dsc.2.2.2.2.1, dsc.2.1]
          exact hmr
        have hvwge : visitCount w w.columns w.rows ≤ visitCount outc.1 w.columns w.rows :=
          visitCount_step_le hmonoc.1
        by_cases hfresh :
            visitCount w w.columns w.rows + 1 ≤ visitCount outc.1 w.columns w.rows
        · have hle := visitCount_le outc.1 w.columns w.rows
          obtain ⟨f2, out2, hf2⟩ := SIH (U - 1) (by omega) w.columns w.rows
            outc.1 outc.2.1 outc.2.2
            (.loop curr (fun i => if i = pick.1 then true else done2 i))
            hwc2 hwr2 hlen2 hmc2 hmr2 hrng2 hinb2
            (by omega)
          have hpickL : prng_pick_free (fp + f1 + f2 + 1) rng done2 = .ok pick :=
            prng_pick_free_mono_le (by omega) hpick
          have houtcL : maze_step (fp + f1 + f2) w m pick.2
              (.visit ⟨curr.x + (directions pick.1).x, curr.y + (directions pick.1).y⟩
                curr) = .ok outc :=
            maze_step_fuel_mono_le (by omega) houtc
          have hf2L : maze_step (fp + f1 + f2) outc.1 outc.2.1 outc.2.2
              (.loop curr (fun i => if i = pick.1 then true else done2 i)) = .ok out2 :=
            maze_step_fuel_mono_le (by omega) hf2
          refine ⟨fp + f1 + f2 + 1, out2, ?_⟩
          rw [maze_step, if_neg hall, hpickL, except_bind_ok, houtcL, except_bind_ok]
          exact hf2L
        · have hvceq : visitCount outc.1 w.columns w.rows =
              visitCount w w.columns w.rows := by omega
          have hupd := doneCount_update hpfacts.1
          obtain ⟨f2, out2, hf2⟩ := ihk w.columns w.rows outc.1 outc.2.1 outc.2.2 curr
            (fun i => if i = pick.1 then true else done2 i)
            hwc2 hwr2 hlen2 hmc2 hmr2 hrng2 hinb2
            (by rw [hvceq]; exact hU)
            (by omega)
          have hpickL2 : prng_pick_free (fp + f1 + f2 + 1) rng done2 = .ok pick :=
            prng_pick_free_mono_le (by omega) hpick
          have houtcL2 : maze_step (fp + f1 + f2) w m pick.2
              (.visit ⟨curr.x + (directions pick.1).x, curr.y + (directions pick.1).y⟩
                curr) = .ok outc :=
            maze_step_fuel_mono_le (by omega) houtc
          have hf2L2 : maze_step (fp + f1 + f2) outc.1 outc.2.1 outc.2.2
              (.loop curr (fun i => if i = pick.1 then true else done2 i)) = .ok out2 :=
            maze_step_fuel_mono_le (by omega) hf2
          refine ⟨fp + f1 + f2 + 1, out2, ?_⟩
          rw [maze_step, if_neg hall, hpickL2, except_bind_ok, houtcL2, except_bind_ok]
          exact hf2L2
  intro W H w m rng call hwc hwr hlen hmc hmr hrs hok hU
  cases call with
  | visit curr prev => exact hvisit W H w m rng curr prev hwc hwr hlen hmc hmr hrs hok hU
  | loop curr done2 =>
    exact hloop 4 W H w m rng curr done2 hwc hwr hlen hmc hmr hrs hok hU (doneCount_le done2)

theorem pcg32_nextuint_state_lt (r : pcg32_state) :
    (pcg32_nextuint r).2.state < 2 ^ 64 := by
  show (r.state * 6364136223846793005 + (r.inc ||| 1)) % 2 ^ 64 < 2 ^ 64
  exact Nat.mod_lt _ (by norm_num)

end Svgmaze
